import Mathlib

/-!
# envpull: the `.env` codec and the diff engine

A shallow embedding of `internal/env/parser.go` and `internal/env/diff.go`.

* A Go `string` is a sequence of bytes (`GoString`).
* A Go `map[string]V` is a finite list of entries with pairwise distinct keys
  (`GoMap V`); the order of the list stands for the unspecified iteration order
  of `range`, so every statement about a map is made through `get?`.
* The standard-library functions the code calls (`strings.TrimSpace`,
  `strings.Index`, `bufio.Scanner`, `sort.Strings`, `fmt.Sprintf`) are modelled
  from their documented behaviour, each next to its use.
-/

namespace Envpull

/-! ## Definitions -/

/-- A byte. -/
abbrev Byte := Fin 256

/-- A Go string: an immutable sequence of bytes. -/
abbrev GoString := List Byte

/-- UTF-8 encoding of one code point (`utf8.AppendRune` on a valid rune). -/
def encodeRune (r : Nat) : GoString :=
  if r < 0x80 then [Fin.ofNat r]
  else if r < 0x800 then [Fin.ofNat (0xC0 + r / 64), Fin.ofNat (0x80 + r % 64)]
  else if r < 0x10000 then
    [Fin.ofNat (0xE0 + r / 4096), Fin.ofNat (0x80 + r / 64 % 64), Fin.ofNat (0x80 + r % 64)]
  else
    [Fin.ofNat (0xF0 + r / 262144), Fin.ofNat (0x80 + r / 4096 % 64),
      Fin.ofNat (0x80 + r / 64 % 64), Fin.ofNat (0x80 + r % 64)]

/-- The bytes of a string literal of the Go source (UTF-8). -/
def str (s : String) : GoString := s.data.flatMap (fun c => encodeRune c.toNat)

/-- First entry with key `k` in a list of entries. -/
def lookupEntry {V : Type} (k : GoString) : List (GoString × V) → Option V
  | [] => none
  | (k', v) :: rest => if k' = k then some v else lookupEntry k rest

/-- A Go `map[string]V`: entries with pairwise distinct keys. -/
structure GoMap (V : Type) where
  entries : List (GoString × V)
  nodup : (entries.map Prod.fst).Nodup

namespace GoMap
variable {V : Type}

/-- The map `make(map[string]V)`. -/
def empty : GoMap V := ⟨[], List.nodup_nil⟩

/-- The lookup `v, ok := m[k]`. -/
def get? (m : GoMap V) (k : GoString) : Option V := lookupEntry k m.entries

/-- The assignment `m[k] = v`. -/
def set (m : GoMap V) (k : GoString) (v : V) : GoMap V :=
  ⟨(k, v) :: m.entries.filter (fun e => !decide (e.1 = k)), by
    rw [List.map_cons, List.nodup_cons]
    refine ⟨?_, (m.nodup.sublist ((List.filter_sublist _).map _))⟩
    simp [List.mem_map, List.mem_filter]⟩

/-- The keys, in iteration order. -/
def keys (m : GoMap V) : List GoString := m.entries.map Prod.fst

/-- The size `len(m)`. -/
def len (m : GoMap V) : Nat := m.entries.length

/-- A map literal `map[string]V{k1: v1, ...}`. -/
def ofList (l : List (GoString × V)) : GoMap V :=
  l.foldl (fun m e => m.set e.1 e.2) empty

end GoMap

/-! ### diff.go -/

/-- Type `Change` of diff.go. -/
structure Change where
  Local : GoString
  Remote : GoString
deriving DecidableEq

/-- Type `DiffResult` of diff.go. -/
structure DiffResult where
  Added : GoMap GoString
  Removed : GoMap GoString
  Modified : GoMap Change
  Same : GoMap GoString

/-- Body of the first loop of `CompareEnvs` (`for key, localVal := range local`). -/
def compareLocalStep (remote : GoMap GoString) (result : DiffResult)
    (e : GoString × GoString) : DiffResult :=
  match remote.get? e.1 with
  | some remoteVal =>
    if e.2 = remoteVal then
      { result with Same := result.Same.set e.1 e.2 }
    else
      { result with Modified := result.Modified.set e.1 ⟨e.2, remoteVal⟩ }
  | none => { result with Removed := result.Removed.set e.1 e.2 }

/-- Body of the second loop of `CompareEnvs` (`for key, remoteVal := range remote`). -/
def compareRemoteStep (loc : GoMap GoString) (result : DiffResult)
    (e : GoString × GoString) : DiffResult :=
  match loc.get? e.1 with
  | some _ => result
  | none => { result with Added := result.Added.set e.1 e.2 }

/-- Function `CompareEnvs` of diff.go. -/
def CompareEnvs (loc remote : GoMap GoString) : DiffResult :=
  let result : DiffResult := ⟨GoMap.empty, GoMap.empty, GoMap.empty, GoMap.empty⟩
  let result := loc.entries.foldl (compareLocalStep remote) result
  remote.entries.foldl (compareRemoteStep loc) result

/-! ### Standard library: `unicode/utf8`, `unicode`, `strings` -/

/-- The replacement rune `utf8.RuneError`. -/
def RuneError : Nat := 0xFFFD

/-- Continuation byte test (`locb <= b && b <= hicb`). -/
def isCont (b : Byte) : Bool := decide (0x80 ≤ b) && decide (b ≤ 0xBF)

/-- Two-byte case of `utf8.DecodeRuneInString`: lead byte `s0` in `0xC2..0xDF`. -/
def decodeRune2 (s0 : Byte) (t : GoString) : Nat × Nat :=
  match t with
  | s1 :: _ =>
    if isCont s1 then (s0.val % 32 * 64 + s1.val % 64, 2) else (RuneError, 1)
  | [] => (RuneError, 1)

/-- Three-byte case of `utf8.DecodeRuneInString`: lead byte `s0` in `0xE0..0xEF`; the second
byte is in `0xA0..0xBF` after `0xE0`, in `0x80..0x9F` after `0xED`. -/
def decodeRune3 (s0 : Byte) (t : GoString) : Nat × Nat :=
  match t with
  | s1 :: s2 :: _ =>
    if (if s0 = 0xE0 then 0xA0 else 0x80) ≤ s1 ∧ s1 ≤ (if s0 = 0xED then 0x9F else 0xBF) then
      if isCont s2 then (s0.val % 16 * 4096 + s1.val % 64 * 64 + s2.val % 64, 3)
      else (RuneError, 1)
    else (RuneError, 1)
  | _ => (RuneError, 1)

/-- Four-byte case of `utf8.DecodeRuneInString`: lead byte `s0` in `0xF0..0xF4`; the second
byte is in `0x90..0xBF` after `0xF0`, in `0x80..0x8F` after `0xF4`. -/
def decodeRune4 (s0 : Byte) (t : GoString) : Nat × Nat :=
  match t with
  | s1 :: s2 :: s3 :: _ =>
    if (if s0 = 0xF0 then 0x90 else 0x80) ≤ s1 ∧ s1 ≤ (if s0 = 0xF4 then 0x8F else 0xBF) then
      if isCont s2 then
        if isCont s3 then
          (s0.val % 8 * 262144 + s1.val % 64 * 4096 + s2.val % 64 * 64 + s3.val % 64, 4)
        else (RuneError, 1)
      else (RuneError, 1)
    else (RuneError, 1)
  | _ => (RuneError, 1)

/-- Function `utf8.DecodeRuneInString`: the first rune of `s` and its width in bytes; an
invalid or incomplete encoding decodes to `(RuneError, 1)`, the empty string to
`(RuneError, 0)`. -/
def DecodeRuneInString (s : GoString) : Nat × Nat :=
  match s with
  | [] => (RuneError, 0)
  | s0 :: t =>
    if s0 < 0x80 then (s0.val, 1)
    else if s0 < 0xC2 then (RuneError, 1)
    else if s0 < 0xE0 then decodeRune2 s0 t
    else if s0 < 0xF0 then decodeRune3 s0 t
    else if s0 < 0xF5 then decodeRune4 s0 t
    else (RuneError, 1)

/-- Function `utf8.RuneStart`: the byte is not a continuation byte. -/
def RuneStart (b : Byte) : Bool := !(decide (0x80 ≤ b) && decide (b < 0xC0))

/-- Distance from the end of the string back to the byte where
`utf8.DecodeLastRuneInString` starts decoding, computed on the reversed string: the nearest
rune-start byte among the bytes at distance 2, 3, 4 from the end, and the loop limit when
there is none. -/
def lastRuneSpan (rs : GoString) : Nat :=
  match rs with
  | [] => 0
  | [_] => 1
  | _ :: b1 :: t =>
    if RuneStart b1 then 2
    else match t with
      | [] => 2
      | b2 :: t2 =>
        if RuneStart b2 then 3
        else match t2 with
          | [] => 3
          | b3 :: t3 =>
            if RuneStart b3 then 4
            else match t3 with
              | [] => 4
              | _ :: _ => 5

/-- Function `utf8.DecodeLastRuneInString`, on the reversed string `rs`: the last rune of
the string and its width. -/
def DecodeLastRune (rs : GoString) : Nat × Nat :=
  match rs with
  | [] => (RuneError, 0)
  | b :: _ =>
    if b < 0x80 then (b.val, 1)
    else
      let span := lastRuneSpan rs
      let d := DecodeRuneInString (rs.take span).reverse
      if d.2 = span then d else (RuneError, 1)

/-- Function `unicode.IsSpace`: the runes with the Unicode White_Space property. -/
def IsSpace (r : Nat) : Bool :=
  (decide (0x09 ≤ r) && decide (r ≤ 0x0D)) || r == 0x20 || r == 0x85 || r == 0xA0 ||
  r == 0x1680 || (decide (0x2000 ≤ r) && decide (r ≤ 0x200A)) || r == 0x2028 || r == 0x2029 ||
  r == 0x202F || r == 0x205F || r == 0x3000

/-- Loop of `strings.TrimLeftFunc` and `strings.TrimRightFunc` with `unicode.IsSpace`: while
the rune that `decode` finds at the near end of `s` is white space, drop its bytes; `fuel`
bounds the number of runes. -/
def trimLoop (decode : GoString → Nat × Nat) : Nat → GoString → GoString
  | 0, s => s
  | fuel + 1, s =>
    match s with
    | [] => []
    | _ :: _ =>
      if IsSpace (decode s).1 then trimLoop decode fuel (s.drop (decode s).2)
      else s

/-- Function `strings.TrimLeftFunc(s, unicode.IsSpace)`. -/
def trimLeft (s : GoString) : GoString := trimLoop DecodeRuneInString s.length s

/-- Function `strings.TrimRightFunc(s, unicode.IsSpace)`; the loop runs on the reversed
string, from the end of `s`. The index `TrimRightFunc` cuts at is the end of the last rune
that is not white space, which is where the loop stops. -/
def trimRight (s : GoString) : GoString :=
  (trimLoop DecodeLastRune s.length s.reverse).reverse

/-- Function `strings.TrimSpace`: `s` without its leading and trailing white-space runes. -/
def TrimSpace (s : GoString) : GoString := trimRight (trimLeft s)

/-- Function `strings.Index(s, sep)` for a one-byte `sep`; `none` stands for `-1`. -/
def IndexByte : GoString → Byte → Option Nat
  | [], _ => none
  | b :: rest, c => if b = c then some 0 else (IndexByte rest c).map (· + 1)

/-- Function `strings.HasPrefix`. -/
def HasPrefix (s pre : GoString) : Bool := decide (s.take pre.length = pre)

/-- The slice expression `s[i:j]`. -/
def slice (s : GoString) (i j : Nat) : GoString := (s.take j).drop i

/-! ### Standard library: `bufio.Scanner` with `bufio.ScanLines` -/

/-- Constant `bufio.MaxScanTokenSize`: the largest buffer the scanner allocates. -/
def MaxScanTokenSize : Nat := 64 * 1024

/-- Function `dropCR` of bufio: drop one terminal carriage return. -/
def dropCR (data : GoString) : GoString :=
  if data.getLast? = some 0x0D then data.dropLast else data

/-- The tokens `scanner.Scan()` / `scanner.Text()` deliver over the remaining input, `cur`
being the bytes of the current line read so far. A line ends at a newline or at the end of
the input (a final empty line gives no token); its terminal carriage return is dropped. A
line with `MaxScanTokenSize` or more bytes before its newline fills the buffer: `Scan`
reports `ErrTooLong`, returns false, and the loop ends without a token for that line or any
later one. -/
def scanLinesFrom (cur : GoString) : GoString → List GoString
  | [] =>
    if cur = [] then []
    else if MaxScanTokenSize ≤ cur.length then []
    else [dropCR cur]
  | b :: rest =>
    if b = 0x0A then
      if MaxScanTokenSize ≤ cur.length then []
      else dropCR cur :: scanLinesFrom [] rest
    else scanLinesFrom (cur ++ [b]) rest

/-- All tokens of a `bufio.Scanner` over `data`. -/
def scanLines (data : GoString) : List GoString := scanLinesFrom [] data

/-! ### Standard library: `strconv.Quote` (the verb `%q`) and `sort.Strings` -/

/-- The digit table `lowerhex` of strconv. -/
def lowerhex (n : Nat) : Byte :=
  (str "0123456789abcdef").getD n 0

/-- Function `strconv.IsPrint`. The Latin-1 range is decided by the code of `IsPrint`;
above it `IsPrint` searches the Unicode tables of strconv, which are the parameter
`printTable`. -/
def IsPrint (printTable : Nat → Bool) (r : Nat) : Bool :=
  if r ≤ 0xFF then
    if 0x20 ≤ r ∧ r ≤ 0x7E then true
    else if 0xA1 ≤ r ∧ r ≤ 0xFF then r != 0xAD
    else false
  else printTable r

/-- The digits of `\u` and `\U` escapes: `n` hexadecimal digits of `r`, most significant
first. -/
def hexDigits (r : Nat) : Nat → GoString
  | 0 => []
  | n + 1 => lowerhex (r / 16 ^ n % 16) :: hexDigits r n

/-- Function `appendEscapedRune` of strconv, for the quote `"` and neither `ASCIIonly` nor
`graphicOnly`. -/
def appendEscapedRune (printTable : Nat → Bool) (r : Nat) : GoString :=
  if r = 0x22 ∨ r = 0x5C then [0x5C, Fin.ofNat r]
  else if IsPrint printTable r then encodeRune r
  else if r = 0x07 then str "\\a"
  else if r = 0x08 then str "\\b"
  else if r = 0x0C then str "\\f"
  else if r = 0x0A then str "\\n"
  else if r = 0x0D then str "\\r"
  else if r = 0x09 then str "\\t"
  else if r = 0x0B then str "\\v"
  else if r < 0x20 ∨ r = 0x7F then [0x5C, 0x78, lowerhex (r / 16 % 16), lowerhex (r % 16)]
  else if 0x10FFFF < r ∨ (0xD800 ≤ r ∧ r ≤ 0xDFFF) then str "\\ufffd"
  else if r < 0x10000 then str "\\u" ++ hexDigits r 4
  else str "\\U" ++ hexDigits r 8

/-- Loop of `appendQuotedWith` of strconv: the escaped form of each rune of `s`; a byte
that is not part of a valid encoding becomes `\x` and its two hexadecimal digits. -/
def quoteLoop (printTable : Nat → Bool) : Nat → GoString → GoString
  | 0, _ => []
  | fuel + 1, s =>
    match s with
    | [] => []
    | s0 :: _ =>
      (if (DecodeRuneInString s).2 = 1 ∧ (DecodeRuneInString s).1 = RuneError then
          [0x5C, 0x78, lowerhex (s0.val / 16), lowerhex (s0.val % 16)]
        else appendEscapedRune printTable (DecodeRuneInString s).1) ++
        quoteLoop printTable fuel (s.drop (DecodeRuneInString s).2)

/-- Function `strconv.Quote`, which `fmt.Sprintf("%q", s)` returns. -/
def Quote (printTable : Nat → Bool) (s : GoString) : GoString :=
  0x22 :: quoteLoop printTable s.length s ++ [0x22]

/-- Function `sort.Strings`: ascending order of Go's string comparison, which is the
lexicographic order of the bytes. -/
def sortStrings (keys : List GoString) : List GoString := keys.insertionSort (· ≤ ·)

/-- The runes a `for _, c := range s` loop visits; `fuel` bounds their number. -/
def runesLoop : Nat → GoString → List Nat
  | 0, _ => []
  | fuel + 1, s =>
    match s with
    | [] => []
    | _ :: _ => (DecodeRuneInString s).1 :: runesLoop fuel (s.drop (DecodeRuneInString s).2)

/-- The runes of `s` in order. -/
def runes (s : GoString) : List Nat := runesLoop s.length s

/-! ### parser.go -/

/-- Function `unquote` of parser.go. -/
def unquote (s : GoString) : GoString :=
  if 2 ≤ s.length then
    if s.head? = some 0x22 ∧ s.getLast? = some 0x22 then slice s 1 (s.length - 1)
    else if s.head? = some 0x27 ∧ s.getLast? = some 0x27 then slice s 1 (s.length - 1)
    else s
  else s

/-- Body of the scanning loop of `ParseEnvBytes`, for one token `text`. -/
def parseLine (result : GoMap GoString) (text : GoString) : GoMap GoString :=
  let line := TrimSpace text
  if line = [] ∨ HasPrefix line (str "#") = true then result
  else
    match IndexByte line 0x3D with
    | none => result
    | some idx =>
      let key := TrimSpace (slice line 0 idx)
      let value := TrimSpace (slice line (idx + 1) line.length)
      let value := unquote value
      if key ≠ [] then result.set key value else result

/-- The assignment one token causes in the loop of `ParseEnvBytes`: the key and the value
of the line, `none` for a line the loop skips. -/
def lineEntry (text : GoString) : Option (GoString × GoString) :=
  let line := TrimSpace text
  if line = [] ∨ HasPrefix line (str "#") = true then none
  else
    match IndexByte line 0x3D with
    | none => none
    | some idx =>
      let key := TrimSpace (slice line 0 idx)
      let value := TrimSpace (slice line (idx + 1) line.length)
      if key ≠ [] then some (key, unquote value) else none

/-- Function `ParseEnvBytes` of parser.go. -/
def ParseEnvBytes (data : GoString) : GoMap GoString :=
  (scanLines data).foldl parseLine GoMap.empty

/-- Function `needsQuoting` of parser.go. -/
def needsQuoting (s : GoString) : Bool :=
  if s = [] then false
  else (runes s).any (fun c =>
    c == 0x20 || c == 0x09 || c == 0x22 || c == 0x27 || c == 0x5C || c == 0x0A)

/-- The text `FormatEnv` writes after `=` for a value. -/
def formatValue (printTable : Nat → Bool) (value : GoString) : GoString :=
  if needsQuoting value then Quote printTable value else value

/-- The text one iteration of the loop of `FormatEnv` writes for `key`:
`fmt.Sprintf("%s=%s\n", key, value)`. -/
def formatEntry (printTable : Nat → Bool) (vars : GoMap GoString) (key : GoString) :
    GoString :=
  let value := (vars.get? key).getD []
  key ++ str "=" ++ formatValue printTable value ++ str "\n"

/-- Function `FormatEnv` of parser.go. -/
def FormatEnv (printTable : Nat → Bool) (vars : GoMap GoString) : GoString :=
  let keys := sortStrings vars.keys
  keys.foldl (fun builder key => builder ++ formatEntry printTable vars key) []

/-! ### diff.go: rendering -/

/-- Method `DiffResult.HasChanges` of diff.go. -/
def HasChanges (d : DiffResult) : Bool :=
  decide (d.Added.len > 0) || decide (d.Removed.len > 0) || decide (d.Modified.len > 0)

/-- Function `sortedKeys` of diff.go. -/
def sortedKeys (m : GoMap GoString) : List GoString := sortStrings m.keys

/-- Function `truncateValue` of diff.go; `len(s)` is the number of bytes of `s` and `s[:50]`
its first 50 bytes. -/
def truncateValue (s : GoString) : GoString :=
  if s.length > 50 then slice s 0 50 ++ str "..." else s

/-- The line `FormatDiff` writes for a key of `Added`:
`fmt.Sprintf("  + %s=%s\n", key, truncateValue(diff.Added[key]))`. -/
def addedLine (diff : DiffResult) (key : GoString) : GoString :=
  str "  + " ++ key ++ str "=" ++ truncateValue ((diff.Added.get? key).getD []) ++ str "\n"

/-- The line `FormatDiff` writes for a key of `Removed`:
`fmt.Sprintf("  - %s=%s\n", key, truncateValue(diff.Removed[key]))`. -/
def removedLine (diff : DiffResult) (key : GoString) : GoString :=
  str "  - " ++ key ++ str "=" ++ truncateValue ((diff.Removed.get? key).getD []) ++ str "\n"

/-- The three lines `FormatDiff` writes for a key of `Modified`: the key, the local value
and the remote value. -/
def modifiedLines (diff : DiffResult) (key : GoString) : GoString :=
  let change := (diff.Modified.get? key).getD ⟨[], []⟩
  (str "  ~ " ++ key ++ str ":\n") ++
    (str "    - " ++ truncateValue change.Local ++ str "\n") ++
    (str "    + " ++ truncateValue change.Remote ++ str "\n")

/-- Function `FormatDiff` of diff.go; `builder` is the `strings.Builder`. -/
def FormatDiff (diff : DiffResult) : GoString :=
  if !HasChanges diff then str "No differences found.\n"
  else
    let builder : GoString := []
    let builder :=
      if diff.Added.len > 0 then
        (sortedKeys diff.Added).foldl (fun builder key => builder ++ addedLine diff key)
          (builder ++ str "\n+ Added (in remote, not in local):\n")
      else builder
    let builder :=
      if diff.Removed.len > 0 then
        (sortedKeys diff.Removed).foldl (fun builder key => builder ++ removedLine diff key)
          (builder ++ str "\n- Removed (in local, not in remote):\n")
      else builder
    let builder :=
      if diff.Modified.len > 0 then
        (sortStrings diff.Modified.keys).foldl
          (fun builder key => builder ++ modifiedLines diff key)
          (builder ++ str "\n~ Modified:\n")
      else builder
    builder

/-! ### config/schemas.go, config/cache.go and the resolution in cli/pull.go -/

/-- Type `Cache` of schemas.go. -/
structure Cache where
  LastSource : GoString
  LastEnv : GoString
deriving DecidableEq

/-- Function `UpdateCache` of cache.go, on the result of `LoadCache` (`none` when the load
fails, in which case the update starts from the empty cache); the value is the cache that
`SaveCache` writes. -/
def UpdateCache (loaded : Option Cache) (source env : GoString) : Cache :=
  let cache := loaded.getD ⟨[], []⟩
  let cache := if source ≠ [] then { cache with LastSource := source } else cache
  let cache := if env ≠ [] then { cache with LastEnv := env } else cache
  cache

/-- The error `runPull` returns when no source name is available:
`no source specified and no cached source found`. -/
inductive CliError where
  | noSource
deriving DecidableEq

/-- Equality of results `Except ε α` is decidable. -/
instance decEqExcept {ε α : Type} [DecidableEq ε] [DecidableEq α] : DecidableEq (Except ε α) :=
  fun a b =>
    match a, b with
    | .ok x, .ok y =>
      if h : x = y then isTrue (by rw [h]) else isFalse (fun h' => h (Except.ok.inj h'))
    | .error x, .error y =>
      if h : x = y then isTrue (by rw [h]) else isFalse (fun h' => h (Except.error.inj h'))
    | .ok _, .error _ => isFalse (fun h' => Except.noConfusion h')
    | .error _, .ok _ => isFalse (fun h' => Except.noConfusion h')

/-- The value `cmd.Flags().GetString("env")` returns: the flag is declared with the default
`"default"`, which is returned when `--env` is not on the command line (`none`). -/
def envFlagValue (flag : Option GoString) : GoString := flag.getD (str "default")

/-- The block `Determine source name` of `runPull` (pull.go, lines 68 to 77): `args` are the
positional arguments. -/
def resolveSource (args : List GoString) (cache : Cache) : Except CliError GoString :=
  match args with
  | arg :: _ => .ok arg
  | [] =>
    if cache.LastSource ≠ [] then .ok cache.LastSource
    else .error .noSource

/-- The block `Use cached env if not specified` of `runPull` (pull.go, lines 79 to 83):
the environment name after it, from the value `envName` of the flag. -/
def resolveEnv (envName : GoString) (cache : Cache) (sourceName : GoString) : GoString :=
  if envName = str "default" ∧ cache.LastEnv ≠ [] ∧ cache.LastSource = sourceName then
    cache.LastEnv
  else envName

/-- The pair `(sourceName, envName)` that `runPull` works with after line 83, or the error
it returns there; `envFlag` is the `--env` flag of the command line. -/
def runPullTarget (args : List GoString) (envFlag : Option GoString) (cache : Cache) :
    Except CliError (GoString × GoString) :=
  match resolveSource args cache with
  | .error e => .error e
  | .ok sourceName => .ok (sourceName, resolveEnv (envFlagValue envFlag) cache sourceName)

/-- The pair `(sourceName, envName)` that `runPush` works with after its blocks
`Determine source name` and `Use cached env if not specified` (push.go, lines 71 to 86), or
the error it returns there. -/
def runPushTarget (args : List GoString) (envFlag : Option GoString) (cache : Cache) :
    Except CliError (GoString × GoString) :=
  let envName := envFlagValue envFlag
  let resolved : Except CliError GoString :=
    match args with
    | arg :: _ => .ok arg
    | [] =>
      if cache.LastSource ≠ [] then .ok cache.LastSource
      else .error .noSource
  match resolved with
  | .error e => .error e
  | .ok sourceName =>
    let envName :=
      if envName = str "default" ∧ cache.LastEnv ≠ [] ∧ cache.LastSource = sourceName then
        cache.LastEnv
      else envName
    .ok (sourceName, envName)

/-! ### `strings.TrimPrefix`, `strings.HasSuffix`, `strings.TrimSuffix`, `strings.Contains` -/

/-- Go `strings.TrimPrefix(s, prefix)`: `s` without the leading `prefix`, or `s` itself
when it does not start with it. -/
def TrimPrefix (s pre : GoString) : GoString :=
  if HasPrefix s pre then s.drop pre.length else s

/-- Go `strings.HasSuffix(s, suffix)`:
`len(s) >= len(suffix) && s[len(s)-len(suffix):] == suffix`. -/
def HasSuffix (s suf : GoString) : Bool :=
  decide (suf.length ≤ s.length ∧ s.drop (s.length - suf.length) = suf)

/-- Go `strings.TrimSuffix(s, suffix)`: `s` without the trailing `suffix`, or `s` itself
when it does not end with it. -/
def TrimSuffix (s suf : GoString) : GoString :=
  if HasSuffix s suf then s.take (s.length - suf.length) else s

/-- Go `strings.Contains(s, substr)` for a one-byte `substr`: `Index(s, substr) >= 0`. -/
def ContainsByte (s : GoString) (c : Byte) : Bool := (IndexByte s c).isSome

/-! ### internal/gcs/client.go and operations.go -/

/-- Go `NormalizeBucketName` (client.go). -/
def NormalizeBucketName (bucket : GoString) : GoString :=
  let bucket := TrimPrefix bucket (str "gs://")
  let bucket := TrimSuffix bucket (str "/")
  bucket

/-- Go `ObjectPath` (client.go): `fmt.Sprintf("%s/%s.env", project, env)`. -/
def ObjectPath (project env : GoString) : GoString :=
  project ++ str "/" ++ env ++ str ".env"

/-- The object a storage operation works on: `c.client.Bucket(bucket).Object(objectPath)`. -/
structure ObjectHandle where
  bucket : GoString
  object : GoString
deriving DecidableEq

/-- The object `Download` reads (operations.go): its first two statements and the handle
`c.client.Bucket(bucket).Object(objectPath)` it opens a reader on. -/
def DownloadObject (bucket project env : GoString) : ObjectHandle :=
  let bucket := NormalizeBucketName bucket
  let objectPath := ObjectPath project env
  ⟨bucket, objectPath⟩

/-- The object `Upload` writes (operations.go). -/
def UploadObject (bucket project env : GoString) : ObjectHandle :=
  let bucket := NormalizeBucketName bucket
  let objectPath := ObjectPath project env
  ⟨bucket, objectPath⟩

/-- The object whose attributes `Exists` asks for (operations.go). -/
def ExistsObject (bucket project env : GoString) : ObjectHandle :=
  let bucket := NormalizeBucketName bucket
  let objectPath := ObjectPath project env
  ⟨bucket, objectPath⟩

/-- The object `Delete` removes (operations.go). -/
def DeleteObject (bucket project env : GoString) : ObjectHandle :=
  let bucket := NormalizeBucketName bucket
  let objectPath := ObjectPath project env
  ⟨bucket, objectPath⟩

/-- The body of the loop of `List` (operations.go) for one object of name `attrsName`:
the environment name it appends to `envNames`, if any. -/
def listEnvName (pre attrsName : GoString) : Option GoString :=
  let name := TrimPrefix attrsName pre
  if HasSuffix name (str ".env") then
    let envName := TrimSuffix name (str ".env")
    if envName ≠ [] ∧ ContainsByte envName 0x2F = false then some envName else none
  else none

/-- Go `List` (operations.go) on the names `objects` that the query with
`Prefix: project + "/"` iterates over, in order, when the iterator reports no error. -/
def ListEnvs (project : GoString) (objects : List GoString) : List GoString :=
  let pre := project ++ str "/"
  objects.filterMap (listEnvName pre)

/-! ### internal/git/project.go -/

/-- The submatches `(matches[1], matches[2])` of `FindStringSubmatch` for a pattern
`^lead[^sep]+sep(.+)/([^/]+)$` of project.go, where `lead` is literal text and `sep` one
byte. The pattern is anchored at both ends, the host class `[^sep]+` cannot cross the
separator and the last class `[^/]+` cannot cross a slash, so there is at most one way to
match: the host is the text up to the first `sep`, the second group the text after the last
`/` behind it, the first group what lies between; `.` matches everything but a newline. -/
def matchRemote (lead : GoString) (sep : Byte) (url : GoString) :
    Option (GoString × GoString) :=
  if HasPrefix url lead then
    let rest := url.drop lead.length
    let host := rest.takeWhile (fun b => b ≠ sep)
    match rest.dropWhile (fun b => b ≠ sep) with
    | [] => none
    | _ :: path =>
      let name := (path.reverse.takeWhile (fun b => b ≠ 0x2F)).reverse
      match path.reverse.dropWhile (fun b => b ≠ 0x2F) with
      | [] => none
      | _ :: rev =>
        let owner := rev.reverse
        if host ≠ [] ∧ owner ≠ [] ∧ (0x0A : Byte) ∉ owner ∧ name ≠ [] then some (owner, name)
        else none
  else none

/-- The match of `sshPattern`, the expression `^git@[^:]+:(.+)/([^/]+)$`. -/
def sshPattern (url : GoString) : Option (GoString × GoString) :=
  matchRemote (str "git@") 0x3A url

/-- The match of `sshURLPattern`, the expression `^ssh://[^/]+/(.+)/([^/]+)$`. -/
def sshURLPattern (url : GoString) : Option (GoString × GoString) :=
  matchRemote (str "ssh://") 0x2F url

/-- The match of `httpsPattern`, the expression `^https?://[^/]+/(.+)/([^/]+)$`: the
text starts with `http://` or with `https://`. -/
def httpsPattern (url : GoString) : Option (GoString × GoString) :=
  (matchRemote (str "https://") 0x2F url).orElse
    (fun _ => matchRemote (str "http://") 0x2F url)

/-- Go `ParseProjectFromURL` (project.go); the error is its message. -/
def ParseProjectFromURL (url : GoString) : Except GoString GoString :=
  let url := TrimSuffix url (str ".git")
  match sshPattern url with
  | some m => .ok m.2
  | none =>
    match sshURLPattern url with
    | some m => .ok m.2
    | none =>
      match httpsPattern url with
      | some m => .ok m.2
      | none => .error (str "unable to parse project name from URL: " ++ url)

/-! ### internal/config/schemas.go and internal/cli/sources.go -/

/-- Go `Source` (schemas.go). -/
structure Source where
  Name : GoString
  Bucket : GoString
  Project : GoString
deriving DecidableEq

/-- Go `Config` (schemas.go). -/
structure Config where
  Sources : List Source
deriving DecidableEq

/-- Go `(*Config).GetSource`: the first source of that name, `nil` if there is none. -/
def Config.GetSource (c : Config) (name : GoString) : Option Source :=
  c.Sources.find? (fun s => s.Name = name)

/-- Go `(*Config).HasSource`. -/
def Config.HasSource (c : Config) (name : GoString) : Bool :=
  (c.GetSource name).isSome

/-- Go `(*Config).AddSource`. -/
def Config.AddSource (c : Config) (source : Source) : Config :=
  { c with Sources := c.Sources ++ [source] }

/-- The loop of `(*Config).RemoveSource` over the sources from index `i` on: the sources
that remain and the value returned. -/
def removeLoop (name : GoString) : List Source → List Source × Bool
  | [] => ([], false)
  | s :: rest =>
    if s.Name = name then (rest, true)
    else ((removeLoop name rest).1.cons s, (removeLoop name rest).2)

/-- Go `(*Config).RemoveSource`: the configuration afterwards and the value returned. -/
def Config.RemoveSource (c : Config) (name : GoString) : Config × Bool :=
  ({ c with Sources := (removeLoop name c.Sources).1 }, (removeLoop name c.Sources).2)

/-- The error `source '%s' already exists` of `runSourceAdd`. -/
inductive SourceError where
  | alreadyExists (name : GoString)
deriving DecidableEq

/-- The steps of `runSourceAdd` (sources.go, lines 104 to 139) on the loaded configuration:
the configuration it saves, or the error it returns without saving anything. -/
def runSourceAdd (cfg : Config) (name bucket project : GoString) : Except SourceError Config :=
  if cfg.HasSource name then .error (.alreadyExists name)
  else .ok (cfg.AddSource ⟨name, bucket, project⟩)

/-! ### internal/cli: diff.go, show.go, list.go -/

/-- The pair `(sourceName, envName)` that `runDiff` works with after its blocks
`Determine source name` and `Use cached env if not specified` (diff.go, lines 65 to 80), or
the error it returns there. -/
def runDiffTarget (args : List GoString) (envFlag : Option GoString) (cache : Cache) :
    Except CliError (GoString × GoString) :=
  let envName := envFlagValue envFlag
  let resolved : Except CliError GoString :=
    match args with
    | arg :: _ => .ok arg
    | [] =>
      if cache.LastSource ≠ [] then .ok cache.LastSource
      else .error .noSource
  match resolved with
  | .error e => .error e
  | .ok sourceName =>
    let envName :=
      if envName = str "default" ∧ cache.LastEnv ≠ [] ∧ cache.LastSource = sourceName then
        cache.LastEnv
      else envName
    .ok (sourceName, envName)

/-- The pair `(sourceName, envName)` that `runShow` works with after the same two blocks
(show.go, lines 58 to 71), or the error it returns there. -/
def runShowTarget (args : List GoString) (envFlag : Option GoString) (cache : Cache) :
    Except CliError (GoString × GoString) :=
  let envName := envFlagValue envFlag
  let resolved : Except CliError GoString :=
    match args with
    | arg :: _ => .ok arg
    | [] =>
      if cache.LastSource ≠ [] then .ok cache.LastSource
      else .error .noSource
  match resolved with
  | .error e => .error e
  | .ok sourceName =>
    let envName :=
      if envName = str "default" ∧ cache.LastEnv ≠ [] ∧ cache.LastSource = sourceName then
        cache.LastEnv
      else envName
    .ok (sourceName, envName)

/-- The source name `runList` works with after its block `Determine source name`
(list.go), or the error it returns there; the command has no `--env` flag. -/
def runListSource (args : List GoString) (cache : Cache) : Except CliError GoString :=
  match args with
  | arg :: _ => .ok arg
  | [] =>
    if cache.LastSource ≠ [] then .ok cache.LastSource
    else .error .noSource

/-- The literal head and the byte that ends the host in the expressions of project.go:
`^git@[^:]+:`, `^ssh://[^/]+/` and, for `^https?://[^/]+/`, the heads `http://` and
`https://`. -/
def remoteForms : List (GoString × Byte) :=
  [(str "git@", 0x3A), (str "ssh://", 0x2F), (str "http://", 0x2F), (str "https://", 0x2F)]

/-! ## Theorems -/

/-! ### Go maps -/

theorem lookupEntry_filter_ne {V : Type} (k k' : GoString) (es : List (GoString × V)) :
    lookupEntry k' (es.filter (fun e => !decide (e.1 = k))) =
      if k = k' then none else lookupEntry k' es := by
  induction es with
  | nil => simp [lookupEntry]
  | cons e rest ih =>
    obtain ⟨a, v⟩ := e
    by_cases h : a = k
    · subst h
      by_cases h' : a = k'
      · subst h'
        simpa [List.filter_cons, lookupEntry] using ih
      · simp [List.filter_cons, lookupEntry, ih, h']
    · by_cases h' : a = k'
      · subst h'
        have hne : ¬ k = a := fun hh => h hh.symm
        simp [List.filter_cons, lookupEntry, h, hne]
      · simp [List.filter_cons, lookupEntry, ih, h, h']

theorem GoMap.get?_set {V : Type} (m : GoMap V) (k k' : GoString) (v : V) :
    (m.set k v).get? k' = if k = k' then some v else m.get? k' := by
  unfold GoMap.get? GoMap.set
  by_cases h : k = k'
  · simp [lookupEntry, h]
  · simp [lookupEntry, h, lookupEntry_filter_ne]

theorem GoMap.get?_empty {V : Type} (k : GoString) : (GoMap.empty : GoMap V).get? k = none := rfl

theorem lookupEntry_eq_none {V : Type} (k : GoString) (es : List (GoString × V))
    (h : k ∉ es.map Prod.fst) : lookupEntry k es = none := by
  induction es with
  | nil => rfl
  | cons e rest ih =>
    obtain ⟨a, v⟩ := e
    simp only [List.map_cons, List.mem_cons, not_or] at h
    have hne : ¬ a = k := fun hh => h.1 hh.symm
    simp [lookupEntry, hne, ih h.2]

theorem lookupEntry_isSome {V : Type} (k : GoString) (es : List (GoString × V)) :
    (lookupEntry k es).isSome = true ↔ k ∈ es.map Prod.fst := by
  induction es with
  | nil => simp [lookupEntry]
  | cons e rest ih =>
    obtain ⟨a, v⟩ := e
    by_cases h : a = k
    · simp [lookupEntry, h]
    · have hne : ¬ k = a := fun hh => h hh.symm
      simp [lookupEntry, h, hne, ih]

/-- Folding conditional assignments over entries with distinct keys. -/
theorem foldl_set_get? {V W : Type} (f : GoString × W → Option V)
    (es : List (GoString × W)) (hnd : (es.map Prod.fst).Nodup) (m0 : GoMap V) (k : GoString) :
    (es.foldl (fun m e => (f e).elim m (fun x => m.set e.1 x)) m0).get? k =
      ((lookupEntry k es).bind (fun w => f (k, w))).elim (m0.get? k) some := by
  induction es generalizing m0 with
  | nil => simp [lookupEntry]
  | cons e rest ih =>
    obtain ⟨a, w⟩ := e
    rw [List.map_cons, List.nodup_cons] at hnd
    rw [List.foldl_cons, ih hnd.2]
    by_cases h : a = k
    · subst h
      rw [lookupEntry_eq_none a rest hnd.1]
      simp only [lookupEntry, if_true]
      cases hf : f (a, w) with
      | none => simp [hf]
      | some x => simp [GoMap.get?_set, hf]
    · simp only [lookupEntry, h, if_false]
      have hm : ((f (a, w)).elim m0 (fun x => m0.set (a, w).1 x)).get? k = m0.get? k := by
        cases hf : f (a, w) with
        | none => rfl
        | some x => simp [GoMap.get?_set, h]
      rw [hm]

/-! ### CompareEnvs -/

theorem foldl_local_Added (remote : GoMap GoString) (es : List (GoString × GoString))
    (res : DiffResult) : (es.foldl (compareLocalStep remote) res).Added = res.Added := by
  induction es generalizing res with
  | nil => rfl
  | cons e rest ih =>
    rw [List.foldl_cons, ih]
    unfold compareLocalStep
    split
    · split <;> rfl
    · rfl

theorem foldl_local_Removed (remote : GoMap GoString) (es : List (GoString × GoString))
    (res : DiffResult) :
    (es.foldl (compareLocalStep remote) res).Removed =
      es.foldl (fun m e =>
        (if remote.get? e.1 = none then some e.2 else none).elim m (fun x => m.set e.1 x))
        res.Removed := by
  induction es generalizing res with
  | nil => rfl
  | cons e rest ih =>
    rw [List.foldl_cons, List.foldl_cons, ih]
    congr 1
    unfold compareLocalStep
    cases remote.get? e.1 with
    | none => rfl
    | some rv => dsimp only; split <;> rfl

theorem foldl_local_Modified (remote : GoMap GoString) (es : List (GoString × GoString))
    (res : DiffResult) :
    (es.foldl (compareLocalStep remote) res).Modified =
      es.foldl (fun m e =>
        ((remote.get? e.1).bind
          (fun rv => if e.2 = rv then none else some (Change.mk e.2 rv))).elim m
          (fun x => m.set e.1 x)) res.Modified := by
  induction es generalizing res with
  | nil => rfl
  | cons e rest ih =>
    rw [List.foldl_cons, List.foldl_cons, ih]
    congr 1
    unfold compareLocalStep
    cases remote.get? e.1 with
    | none => rfl
    | some rv =>
      dsimp only
      by_cases h : e.2 = rv
      · simp [h]
      · simp [h]

theorem foldl_local_Same (remote : GoMap GoString) (es : List (GoString × GoString))
    (res : DiffResult) :
    (es.foldl (compareLocalStep remote) res).Same =
      es.foldl (fun m e =>
        ((remote.get? e.1).bind (fun rv => if e.2 = rv then some e.2 else none)).elim m
          (fun x => m.set e.1 x)) res.Same := by
  induction es generalizing res with
  | nil => rfl
  | cons e rest ih =>
    rw [List.foldl_cons, List.foldl_cons, ih]
    congr 1
    unfold compareLocalStep
    cases remote.get? e.1 with
    | none => rfl
    | some rv =>
      dsimp only
      by_cases h : e.2 = rv
      · simp [h]
      · simp [h]

theorem foldl_remote_frame (loc : GoMap GoString) (es : List (GoString × GoString))
    (res : DiffResult) :
    (es.foldl (compareRemoteStep loc) res).Removed = res.Removed ∧
    (es.foldl (compareRemoteStep loc) res).Modified = res.Modified ∧
    (es.foldl (compareRemoteStep loc) res).Same = res.Same := by
  induction es generalizing res with
  | nil => exact ⟨rfl, rfl, rfl⟩
  | cons e rest ih =>
    rw [List.foldl_cons]
    obtain ⟨h1, h2, h3⟩ := ih (compareRemoteStep loc res e)
    rw [h1, h2, h3]
    unfold compareRemoteStep
    cases loc.get? e.1 <;> exact ⟨rfl, rfl, rfl⟩

theorem foldl_remote_Added (loc : GoMap GoString) (es : List (GoString × GoString))
    (res : DiffResult) :
    (es.foldl (compareRemoteStep loc) res).Added =
      es.foldl (fun m e =>
        (if loc.get? e.1 = none then some e.2 else none).elim m (fun x => m.set e.1 x))
        res.Added := by
  induction es generalizing res with
  | nil => rfl
  | cons e rest ih =>
    rw [List.foldl_cons, List.foldl_cons, ih]
    congr 1
    unfold compareRemoteStep
    cases loc.get? e.1 <;> rfl

theorem CompareEnvs_Added (loc remote : GoMap GoString) (k : GoString) :
    (CompareEnvs loc remote).Added.get? k =
      if loc.get? k = none then remote.get? k else none := by
  unfold CompareEnvs
  dsimp only
  rw [foldl_remote_Added, foldl_local_Added]
  refine Eq.trans (foldl_set_get?
    (fun e => if loc.get? e.1 = none then some e.2 else none) _ remote.nodup _ k) ?_
  show ((remote.get? k).bind (fun w => if loc.get? k = none then some w else none)).elim
    none some = _
  cases loc.get? k <;> cases remote.get? k <;> rfl

theorem CompareEnvs_Removed (loc remote : GoMap GoString) (k : GoString) :
    (CompareEnvs loc remote).Removed.get? k =
      if remote.get? k = none then loc.get? k else none := by
  unfold CompareEnvs
  dsimp only
  rw [(foldl_remote_frame _ _ _).1, foldl_local_Removed]
  refine Eq.trans (foldl_set_get?
    (fun e => if remote.get? e.1 = none then some e.2 else none) _ loc.nodup _ k) ?_
  show ((loc.get? k).bind (fun w => if remote.get? k = none then some w else none)).elim
    none some = _
  cases loc.get? k <;> cases remote.get? k <;> rfl

theorem CompareEnvs_Modified (loc remote : GoMap GoString) (k : GoString) :
    (CompareEnvs loc remote).Modified.get? k =
      (loc.get? k).bind (fun a => (remote.get? k).bind
        (fun b => if a = b then none else some (Change.mk a b))) := by
  unfold CompareEnvs
  dsimp only
  rw [(foldl_remote_frame _ _ _).2.1, foldl_local_Modified]
  refine Eq.trans (foldl_set_get?
    (fun e => (remote.get? e.1).bind
      (fun rv => if e.2 = rv then none else some (Change.mk e.2 rv))) _ loc.nodup _ k) ?_
  show ((loc.get? k).bind (fun w => (remote.get? k).bind
    (fun rv => if w = rv then none else some (Change.mk w rv)))).elim none some = _
  cases loc.get? k with
  | none => rfl
  | some a =>
    cases remote.get? k with
    | none => rfl
    | some b => by_cases h : a = b <;> simp [h]

theorem CompareEnvs_Same (loc remote : GoMap GoString) (k : GoString) :
    (CompareEnvs loc remote).Same.get? k =
      (loc.get? k).bind (fun a => (remote.get? k).bind
        (fun b => if a = b then some a else none)) := by
  unfold CompareEnvs
  dsimp only
  rw [(foldl_remote_frame _ _ _).2.2, foldl_local_Same]
  refine Eq.trans (foldl_set_get?
    (fun e => (remote.get? e.1).bind
      (fun rv => if e.2 = rv then some e.2 else none)) _ loc.nodup _ k) ?_
  show ((loc.get? k).bind (fun w => (remote.get? k).bind
    (fun rv => if w = rv then some w else none))).elim none some = _
  cases loc.get? k with
  | none => rfl
  | some a =>
    cases remote.get? k with
    | none => rfl
    | some b => by_cases h : a = b <;> simp [h]

theorem GoMap.mem_keys_iff {V : Type} (m : GoMap V) (k : GoString) :
    k ∈ m.keys ↔ m.get? k ≠ none := by
  unfold GoMap.keys GoMap.get?
  rw [← lookupEntry_isSome, Option.isSome_iff_ne_none]

/-- C1: `CompareEnvs` is exactly the partition rule. For every key, `Added` holds the
remote value of a key absent from local, `Removed` the local value of a key absent from
remote, `Modified` the pair (local, remote) of a key present in both with different values,
`Same` the value of a key present in both with equal values, and no partition holds any other
key. On local `A=1, B=2` and remote `B=2, C=3` the result is `Added = C:3`, `Removed = A:1`,
`Modified` empty, `Same = B:2`. -/
theorem CompareEnvs_partition_rule :
    (∀ (loc remote : GoMap GoString) (k : GoString),
      (CompareEnvs loc remote).Added.get? k =
        (if loc.get? k = none then remote.get? k else none) ∧
      (CompareEnvs loc remote).Removed.get? k =
        (if remote.get? k = none then loc.get? k else none) ∧
      (CompareEnvs loc remote).Modified.get? k =
        (loc.get? k).bind (fun a => (remote.get? k).bind
          (fun b => if a = b then none else some (Change.mk a b))) ∧
      (CompareEnvs loc remote).Same.get? k =
        (loc.get? k).bind (fun a => (remote.get? k).bind
          (fun b => if a = b then some a else none))) ∧
    (CompareEnvs (GoMap.ofList [(str "A", str "1"), (str "B", str "2")])
        (GoMap.ofList [(str "B", str "2"), (str "C", str "3")])).Added.entries
      = [(str "C", str "3")] ∧
    (CompareEnvs (GoMap.ofList [(str "A", str "1"), (str "B", str "2")])
        (GoMap.ofList [(str "B", str "2"), (str "C", str "3")])).Removed.entries
      = [(str "A", str "1")] ∧
    (CompareEnvs (GoMap.ofList [(str "A", str "1"), (str "B", str "2")])
        (GoMap.ofList [(str "B", str "2"), (str "C", str "3")])).Modified.entries = [] ∧
    (CompareEnvs (GoMap.ofList [(str "A", str "1"), (str "B", str "2")])
        (GoMap.ofList [(str "B", str "2"), (str "C", str "3")])).Same.entries
      = [(str "B", str "2")] := by
  refine ⟨fun loc remote k => ⟨CompareEnvs_Added loc remote k, CompareEnvs_Removed loc remote k,
    CompareEnvs_Modified loc remote k, CompareEnvs_Same loc remote k⟩, ?_, ?_, ?_, ?_⟩ <;> decide

/-- C2: the key sets of `Added`, `Removed`, `Modified` and `Same` of `CompareEnvs L R` are
pairwise disjoint and their union is `keys L ∪ keys R`: a key lies in some partition exactly
when it is a key of `L` or of `R`, and no key lies in two partitions. -/
theorem CompareEnvs_partition_total (L R : GoMap GoString) (k : GoString) :
    ((k ∈ (CompareEnvs L R).Added.keys ∨ k ∈ (CompareEnvs L R).Removed.keys ∨
        k ∈ (CompareEnvs L R).Modified.keys ∨ k ∈ (CompareEnvs L R).Same.keys) ↔
      (k ∈ L.keys ∨ k ∈ R.keys)) ∧
    ¬ (k ∈ (CompareEnvs L R).Added.keys ∧ k ∈ (CompareEnvs L R).Removed.keys) ∧
    ¬ (k ∈ (CompareEnvs L R).Added.keys ∧ k ∈ (CompareEnvs L R).Modified.keys) ∧
    ¬ (k ∈ (CompareEnvs L R).Added.keys ∧ k ∈ (CompareEnvs L R).Same.keys) ∧
    ¬ (k ∈ (CompareEnvs L R).Removed.keys ∧ k ∈ (CompareEnvs L R).Modified.keys) ∧
    ¬ (k ∈ (CompareEnvs L R).Removed.keys ∧ k ∈ (CompareEnvs L R).Same.keys) ∧
    ¬ (k ∈ (CompareEnvs L R).Modified.keys ∧ k ∈ (CompareEnvs L R).Same.keys) := by
  simp only [GoMap.mem_keys_iff, CompareEnvs_Added, CompareEnvs_Removed, CompareEnvs_Modified,
    CompareEnvs_Same]
  cases hl : L.get? k with
  | none => cases hr : R.get? k <;> simp
  | some a =>
    cases hr : R.get? k with
    | none => simp
    | some b => by_cases h : a = b <;> simp [h]

/-- C3: swapping the arguments of `CompareEnvs` swaps `Added` and `Removed` and keeps `Same`,
as key-to-value mappings. -/
theorem CompareEnvs_swap (L R : GoMap GoString) (k : GoString) :
    (CompareEnvs L R).Added.get? k = (CompareEnvs R L).Removed.get? k ∧
    (CompareEnvs L R).Removed.get? k = (CompareEnvs R L).Added.get? k ∧
    (CompareEnvs L R).Same.get? k = (CompareEnvs R L).Same.get? k := by
  simp only [CompareEnvs_Added, CompareEnvs_Removed, CompareEnvs_Same]
  refine ⟨trivial, trivial, ?_⟩
  cases hl : L.get? k with
  | none => cases hr : R.get? k <;> simp
  | some a =>
    cases hr : R.get? k with
    | none => simp
    | some b =>
      by_cases h : a = b
      · subst h; simp
      · have h' : ¬ b = a := fun hh => h hh.symm
        simp [h, h']

/-! ### UTF-8 decoding -/

theorem decode_ascii (s0 : Byte) (t : GoString) (h : s0 < 0x80) :
    DecodeRuneInString (s0 :: t) = (s0.val, 1) := by
  simp [DecodeRuneInString, h]

theorem isCont_of_range (s1 : Byte) (lo hi : Byte) (hlo : 0x80 ≤ lo) (hhi : hi ≤ 0xBF)
    (h : lo ≤ s1 ∧ s1 ≤ hi) : isCont s1 = true := by
  simp only [isCont, Bool.and_eq_true, decide_eq_true_eq]
  exact ⟨le_trans hlo h.1, le_trans h.2 hhi⟩

theorem range3_cont (s0 s1 : Byte)
    (h : (if s0 = 0xE0 then (0xA0 : Byte) else 0x80) ≤ s1 ∧
      s1 ≤ (if s0 = 0xED then (0x9F : Byte) else 0xBF)) : isCont s1 = true := by
  refine isCont_of_range s1 _ _ ?_ ?_ h
  · split <;> decide
  · split <;> decide

theorem range4_cont (s0 s1 : Byte)
    (h : (if s0 = 0xF0 then (0x90 : Byte) else 0x80) ≤ s1 ∧
      s1 ≤ (if s0 = 0xF4 then (0x8F : Byte) else 0xBF)) : isCont s1 = true := by
  refine isCont_of_range s1 _ _ ?_ ?_ h
  · split <;> decide
  · split <;> decide

theorem decodeRune2_append (s0 : Byte) (t z : GoString) (hz : ∀ c ∈ z.head?, isCont c = false) :
    decodeRune2 s0 (t ++ z) = decodeRune2 s0 t := by
  cases t with
  | cons s1 t' => rfl
  | nil =>
    cases z with
    | nil => rfl
    | cons c z' =>
      have hc : isCont c = false := hz c (by simp)
      simp [decodeRune2, hc]

theorem decodeRune3_append (s0 : Byte) (t z : GoString) (hz : ∀ c ∈ z.head?, isCont c = false) :
    decodeRune3 s0 (t ++ z) = decodeRune3 s0 t := by
  cases t with
  | nil =>
    cases z with
    | nil => rfl
    | cons c z' =>
      have hc : isCont c = false := hz c (by simp)
      cases z' with
      | nil => rfl
      | cons c' z'' =>
        simp only [List.nil_append, decodeRune3]
        rw [if_neg]
        intro h
        rw [range3_cont s0 c h] at hc
        exact absurd hc (by simp)
  | cons s1 t' =>
    cases t' with
    | cons s2 t'' => rfl
    | nil =>
      cases z with
      | nil => rfl
      | cons c z' =>
        have hc : isCont c = false := hz c (by simp)
        simp only [List.cons_append, List.nil_append, decodeRune3, hc]
        split <;> simp

theorem decodeRune4_append (s0 : Byte) (t z : GoString) (hz : ∀ c ∈ z.head?, isCont c = false) :
    decodeRune4 s0 (t ++ z) = decodeRune4 s0 t := by
  cases t with
  | nil =>
    cases z with
    | nil => rfl
    | cons c z' =>
      have hc : isCont c = false := hz c (by simp)
      cases z' with
      | nil => rfl
      | cons c' z'' =>
        cases z'' with
        | nil => rfl
        | cons c'' z3 =>
          simp only [List.nil_append, decodeRune4]
          rw [if_neg]
          intro h
          rw [range4_cont s0 c h] at hc
          exact absurd hc (by simp)
  | cons s1 t' =>
    cases t' with
    | nil =>
      cases z with
      | nil => rfl
      | cons c z' =>
        have hc : isCont c = false := hz c (by simp)
        cases z' with
        | nil => rfl
        | cons c' z'' =>
          simp only [List.cons_append, List.nil_append, decodeRune4, hc]
          split <;> simp
    | cons s2 t'' =>
      cases t'' with
      | cons s3 t3 => rfl
      | nil =>
        cases z with
        | nil => rfl
        | cons c z' =>
          have hc : isCont c = false := hz c (by simp)
          simp only [List.cons_append, List.nil_append, decodeRune4, hc, Bool.false_eq_true,
            if_false]
          split_ifs <;> rfl

theorem decode_append (y z : GoString) (hy : y ≠ []) (hz : ∀ c ∈ z.head?, isCont c = false) :
    DecodeRuneInString (y ++ z) = DecodeRuneInString y := by
  cases y with
  | nil => exact absurd rfl hy
  | cons s0 t =>
    simp only [List.cons_append, DecodeRuneInString, decodeRune2_append _ _ _ hz,
      decodeRune3_append _ _ _ hz, decodeRune4_append _ _ _ hz]

theorem decodeRune2_width (s0 : Byte) (t : GoString) :
    (decodeRune2 s0 t).2 = 1 ∨ ((decodeRune2 s0 t).2 = 2 ∧ 1 ≤ t.length) := by
  unfold decodeRune2
  split
  · split <;> simp
  · simp

theorem decodeRune3_width (s0 : Byte) (t : GoString) :
    (decodeRune3 s0 t).2 = 1 ∨ ((decodeRune3 s0 t).2 = 3 ∧ 2 ≤ t.length) := by
  unfold decodeRune3
  split
  · split_ifs <;> simp
  · simp

theorem decodeRune4_width (s0 : Byte) (t : GoString) :
    (decodeRune4 s0 t).2 = 1 ∨ ((decodeRune4 s0 t).2 = 4 ∧ 3 ≤ t.length) := by
  unfold decodeRune4
  split
  · split_ifs <;> simp
  · simp

theorem decode_width (s0 : Byte) (t : GoString) :
    1 ≤ (DecodeRuneInString (s0 :: t)).2 ∧ (DecodeRuneInString (s0 :: t)).2 ≤ t.length + 1 ∧
      (DecodeRuneInString (s0 :: t)).2 ≤ 4 := by
  have h2 := decodeRune2_width s0 t
  have h3 := decodeRune3_width s0 t
  have h4 := decodeRune4_width s0 t
  simp only [DecodeRuneInString]
  split_ifs <;> (try simp) <;> omega

theorem decode_width_pos (s : GoString) (hs : s ≠ []) : 1 ≤ (DecodeRuneInString s).2 := by
  cases s with
  | nil => exact absurd rfl hs
  | cons s0 t => exact (decode_width s0 t).1

theorem decode_width_le (s : GoString) : (DecodeRuneInString s).2 ≤ s.length := by
  cases s with
  | nil => simp [DecodeRuneInString]
  | cons s0 t => exact (decode_width s0 t).2.1

theorem decode_width_le_four (s : GoString) : (DecodeRuneInString s).2 ≤ 4 := by
  cases s with
  | nil => simp [DecodeRuneInString]
  | cons s0 t => exact (decode_width s0 t).2.2

theorem decode_of_not_start (b : Byte) (t : GoString) (h : RuneStart b = false) :
    DecodeRuneInString (b :: t) = (RuneError, 1) := by
  simp only [RuneStart, Bool.not_eq_false', Bool.and_eq_true, decide_eq_true_eq] at h
  have h1 : ¬ b < 0x80 := not_lt.mpr h.1
  have h2 : b < 0xC2 := lt_trans h.2 (by decide)
  simp [DecodeRuneInString, h1, h2]

theorem decode_single (b : Byte) (h : ¬ b < 0x80) : DecodeRuneInString [b] = (RuneError, 1) := by
  simp only [DecodeRuneInString, h, if_false, decodeRune2, decodeRune3, decodeRune4]
  split_ifs <;> rfl

theorem runeStart_of_ascii (c : Byte) (h : c < 0x80) : RuneStart c = true := by
  simp only [RuneStart, Bool.not_eq_true', Bool.and_eq_false_iff, decide_eq_false_iff_not]
  exact Or.inl (not_le.mpr h)

theorem lastRuneSpan_bounds (b : Byte) (t : GoString) :
    1 ≤ lastRuneSpan (b :: t) ∧ lastRuneSpan (b :: t) ≤ t.length + 1 := by
  rcases t with _ | ⟨b1, _ | ⟨b2, _ | ⟨b3, _ | ⟨b4, t4⟩⟩⟩⟩ <;>
    simp only [lastRuneSpan, List.length_cons, List.length_nil] <;>
    (try split_ifs) <;> omega

theorem lastRuneSpan_pos (rs : GoString) (h : rs ≠ []) : 1 ≤ lastRuneSpan rs := by
  cases rs with
  | nil => exact absurd rfl h
  | cons b t => exact (lastRuneSpan_bounds b t).1

theorem lastRuneSpan_le (rs : GoString) : lastRuneSpan rs ≤ rs.length := by
  cases rs with
  | nil => simp [lastRuneSpan]
  | cons b t => exact (lastRuneSpan_bounds b t).2

theorem decodeLast_width (rs : GoString) (h : rs ≠ []) :
    1 ≤ (DecodeLastRune rs).2 ∧ (DecodeLastRune rs).2 ≤ rs.length := by
  cases rs with
  | nil => exact absurd rfl h
  | cons b t =>
    unfold DecodeLastRune
    dsimp only
    have hp := lastRuneSpan_pos (b :: t) (by simp)
    have hl := lastRuneSpan_le (b :: t)
    simp only [List.length_cons] at hl ⊢
    split_ifs with h1 h2
    · simp
    · rw [h2]; exact ⟨hp, hl⟩
    · simp

theorem decodeLast_width_pos (rs : GoString) (h : rs ≠ []) : 1 ≤ (DecodeLastRune rs).2 :=
  (decodeLast_width rs h).1

theorem decodeLast_width_le (rs : GoString) : (DecodeLastRune rs).2 ≤ rs.length := by
  cases rs with
  | nil => simp [DecodeLastRune]
  | cons b t => exact (decodeLast_width (b :: t) (by simp)).2

theorem decodeLast_of_ascii (b : Byte) (t : GoString) (h : b < 0x80) :
    DecodeLastRune (b :: t) = (b.val, 1) := by
  simp [DecodeLastRune, h]

theorem decodeLast_append (y z : GoString) (hy : y ≠ []) (hz : ∀ c ∈ z.head?, c < 0x80) :
    DecodeLastRune (y ++ z) = DecodeLastRune y := by
  cases z with
  | nil => simp
  | cons c z' =>
    have hc : c < 0x80 := hz c (by simp)
    have hstart : RuneStart c = true := runeStart_of_ascii c hc
    have hdc : ∀ u, DecodeRuneInString (c :: u) = (c.val, 1) := fun u => decode_ascii c u hc
    cases y with
    | nil => exact absurd rfl hy
    | cons b0 t =>
      by_cases hb : b0 < 0x80
      · simp [DecodeLastRune, hb]
      · rcases t with _ | ⟨b1, _ | ⟨b2, _ | ⟨b3, t3⟩⟩⟩
        · simp [DecodeLastRune, hb, lastRuneSpan, hstart, hdc, decode_single b0 hb]
        · by_cases h1 : RuneStart b1 = true
          · simp [DecodeLastRune, hb, lastRuneSpan, h1]
          · rw [Bool.not_eq_true] at h1
            simp [DecodeLastRune, hb, lastRuneSpan, h1, hstart, hdc, decode_of_not_start b1 _ h1]
        · by_cases h1 : RuneStart b1 = true
          · simp [DecodeLastRune, hb, lastRuneSpan, h1]
          · rw [Bool.not_eq_true] at h1
            by_cases h2 : RuneStart b2 = true
            · simp [DecodeLastRune, hb, lastRuneSpan, h1, h2]
            · rw [Bool.not_eq_true] at h2
              simp [DecodeLastRune, hb, lastRuneSpan, h1, h2, hstart, hdc,
                decode_of_not_start b2 _ h2]
        · by_cases h1 : RuneStart b1 = true
          · simp [DecodeLastRune, hb, lastRuneSpan, h1]
          · rw [Bool.not_eq_true] at h1
            by_cases h2 : RuneStart b2 = true
            · simp [DecodeLastRune, hb, lastRuneSpan, h1, h2]
            · rw [Bool.not_eq_true] at h2
              by_cases h3 : RuneStart b3 = true
              · simp [DecodeLastRune, hb, lastRuneSpan, h1, h2, h3]
              · rw [Bool.not_eq_true] at h3
                cases t3 with
                | nil =>
                  simp [DecodeLastRune, hb, lastRuneSpan, h1, h2, h3, hdc,
                    decode_of_not_start b3 _ h3]
                | cons b4 t4 =>
                  simp [DecodeLastRune, hb, lastRuneSpan, h1, h2, h3]

/-! ### Trimming loops -/

theorem trimLoop_fuel (decode : GoString → Nat × Nat)
    (hpos : ∀ s, s ≠ [] → 1 ≤ (decode s).2) (n m : Nat) (s : GoString)
    (hn : s.length ≤ n) (hm : s.length ≤ m) : trimLoop decode n s = trimLoop decode m s := by
  induction n generalizing m s with
  | zero =>
    have hs : s = [] := List.length_eq_zero.mp (Nat.le_zero.mp hn)
    subst hs
    cases m <;> rfl
  | succ n ih =>
    cases s with
    | nil => cases m <;> rfl
    | cons a t =>
      cases m with
      | zero => simp at hm
      | succ m =>
        simp only [trimLoop]
        split
        · have hw := hpos (a :: t) (by simp)
          have hlen : ((a :: t).drop (decode (a :: t)).2).length ≤ t.length := by
            rw [List.length_drop, List.length_cons]; omega
          simp only [List.length_cons] at hn hm
          exact ih m _ (by omega) (by omega)
        · rfl

theorem trimLoop_unfold (decode : GoString → Nat × Nat)
    (hpos : ∀ s, s ≠ [] → 1 ≤ (decode s).2) (s : GoString) (hs : s ≠ []) :
    trimLoop decode s.length s =
      if IsSpace (decode s).1 then
        trimLoop decode (s.drop (decode s).2).length (s.drop (decode s).2)
      else s := by
  cases s with
  | nil => exact absurd rfl hs
  | cons a t =>
    simp only [List.length_cons, trimLoop]
    split
    · have hw := hpos (a :: t) (by simp)
      apply trimLoop_fuel decode hpos
      · rw [List.length_drop, List.length_cons]; omega
      · exact le_rfl
    · rfl

theorem trimLoop_suffix (decode : GoString → Nat × Nat) (n : Nat) (s : GoString) :
    trimLoop decode n s <:+ s := by
  induction n generalizing s with
  | zero => exact List.suffix_refl s
  | succ n ih =>
    cases s with
    | nil => exact List.suffix_refl _
    | cons a t =>
      simp only [trimLoop]
      split
      · exact (ih _).trans (List.drop_suffix _ _)
      · exact List.suffix_refl _

theorem trimLoop_eq_self (decode : GoString → Nat × Nat)
    (hpos : ∀ s, s ≠ [] → 1 ≤ (decode s).2) (s : GoString) (hs : s ≠ []) :
    trimLoop decode s.length s = s ↔ IsSpace (decode s).1 = false := by
  rw [trimLoop_unfold decode hpos s hs]
  constructor
  · intro h
    by_contra hsp
    rw [Bool.not_eq_false] at hsp
    rw [if_pos hsp] at h
    have hsuf := trimLoop_suffix decode (s.drop (decode s).2).length (s.drop (decode s).2)
    rw [h] at hsuf
    have hl := hsuf.length_le
    have hw := hpos s hs
    have hlen : 0 < s.length := List.length_pos.mpr hs
    rw [List.length_drop] at hl
    omega
  · intro h
    simp [h]

theorem trimLoop_append (decode : GoString → Nat × Nat)
    (hpos : ∀ s, s ≠ [] → 1 ≤ (decode s).2) (hle : ∀ s, (decode s).2 ≤ s.length)
    (z : GoString) (hz : ∀ y, y ≠ [] → decode (y ++ z) = decode y) (x : GoString) :
    trimLoop decode (x ++ z).length (x ++ z) =
      if trimLoop decode x.length x = [] then trimLoop decode z.length z
      else trimLoop decode x.length x ++ z := by
  generalize hn : x.length = n
  induction n using Nat.strong_induction_on generalizing x with
  | _ n ih =>
    subst hn
    by_cases hx : x = []
    · subst hx
      simp [trimLoop]
    · have hxz : x ++ z ≠ [] := by simp [hx]
      rw [trimLoop_unfold decode hpos _ hxz, trimLoop_unfold decode hpos _ hx, hz x hx]
      by_cases hsp : IsSpace (decode x).1 = true
      · rw [if_pos hsp, if_pos hsp]
        have hw := hpos x hx
        have hdrop : (x ++ z).drop (decode x).2 = x.drop (decode x).2 ++ z :=
          List.drop_append_of_le_length (hle x)
        rw [hdrop]
        have hlt : (x.drop (decode x).2).length < x.length := by
          have hlen : 0 < x.length := List.length_pos.mpr hx
          rw [List.length_drop]; omega
        exact ih _ hlt _ rfl
      · rw [if_neg hsp, if_neg hsp, if_neg hx]

/-! ### TrimSpace -/

theorem trimLeft_suffix (s : GoString) : trimLeft s <:+ s := trimLoop_suffix _ _ _

theorem trimRight_initial (s : GoString) : trimRight s <+: s := by
  unfold trimRight
  have h := trimLoop_suffix DecodeLastRune s.length s.reverse
  have h' := List.reverse_prefix.mpr h
  rwa [List.reverse_reverse] at h'

theorem trimLeft_nil : trimLeft [] = [] := rfl

theorem trimRight_nil : trimRight [] = [] := rfl

theorem TrimSpace_nil : TrimSpace [] = [] := rfl

theorem trimLeft_unfold (s : GoString) (hs : s ≠ []) :
    trimLeft s = if IsSpace (DecodeRuneInString s).1 then
      trimLeft (s.drop (DecodeRuneInString s).2) else s :=
  trimLoop_unfold _ decode_width_pos s hs

theorem trimLeft_cons_ascii (b : Byte) (t : GoString) (hb : b < 0x80) :
    trimLeft (b :: t) = if IsSpace b.val then trimLeft t else b :: t := by
  rw [trimLeft_unfold _ (by simp), decode_ascii b t hb]
  rfl

theorem trimRight_concat_ascii (t : GoString) (b : Byte) (hb : b < 0x80) :
    trimRight (t ++ [b]) = if IsSpace b.val then trimRight t else t ++ [b] := by
  unfold trimRight
  have hlen : (t ++ [b]).length = (t ++ [b]).reverse.length := by simp
  rw [hlen, trimLoop_unfold _ decodeLast_width_pos _ (by simp)]
  simp only [List.reverse_append, List.reverse_cons, List.reverse_nil, List.nil_append,
    List.singleton_append, decodeLast_of_ascii b _ hb]
  split
  · simp
  · simp

theorem trimLeft_eq_self_of_head (b : Byte) (t : GoString) (hb : b < 0x80)
    (hs : IsSpace b.val = false) : trimLeft (b :: t) = b :: t := by
  rw [trimLeft_cons_ascii b t hb, hs]
  rfl

theorem trimRight_eq_self_of_last (t : GoString) (b : Byte) (hb : b < 0x80)
    (hs : IsSpace b.val = false) : trimRight (t ++ [b]) = t ++ [b] := by
  rw [trimRight_concat_ascii t b hb, hs]
  rfl

theorem trimLeft_append (x z : GoString) (hz : ∀ c ∈ z.head?, isCont c = false) :
    trimLeft (x ++ z) = if trimLeft x = [] then trimLeft z else trimLeft x ++ z :=
  trimLoop_append _ decode_width_pos decode_width_le z
    (fun y hy => decode_append y z hy hz) x

theorem trimRight_append (z x : GoString) (hz : ∀ c ∈ z.getLast?, c < 0x80) :
    trimRight (z ++ x) = if trimRight x = [] then trimRight z else z ++ trimRight x := by
  unfold trimRight
  have hz' : ∀ c ∈ z.reverse.head?, c < 0x80 := by simpa using hz
  have h := trimLoop_append _ decodeLast_width_pos decodeLast_width_le z.reverse
    (fun y hy => decodeLast_append y z.reverse hy hz') x.reverse
  rw [← List.reverse_append] at h
  simp only [List.length_reverse] at h
  rw [h]
  simp only [List.reverse_eq_nil_iff]
  split
  · rfl
  · simp

theorem TrimSpace_eq_self (s : GoString) (h : TrimSpace s = s) :
    trimLeft s = s ∧ trimRight s = s := by
  have h1 := trimLeft_suffix s
  have h2 := trimRight_initial (trimLeft s)
  have hl : trimLeft s = s := by
    apply h1.eq_of_length
    have := h2.length_le
    have := h1.length_le
    unfold TrimSpace at h
    rw [h] at h2
    have := h2.length_le
    omega
  refine ⟨hl, ?_⟩
  unfold TrimSpace at h
  rw [hl] at h
  exact h

theorem TrimSpace_of_trimmed (s : GoString) (hl : trimLeft s = s) (hr : trimRight s = s) :
    TrimSpace s = s := by
  unfold TrimSpace
  rw [hl, hr]

theorem TrimSpace_dropCR (s : GoString) : TrimSpace (dropCR s) = TrimSpace s := by
  unfold dropCR
  split
  · rename_i h
    obtain ⟨x, rfl⟩ : ∃ x, s = x ++ [0x0D] := by
      rcases List.eq_nil_or_concat s with hs | ⟨x, b, hs⟩
      · subst hs; simp at h
      · subst hs
        simp only [List.concat_eq_append, List.getLast?_concat, Option.some.injEq] at h
        exact ⟨x, by rw [h]; simp⟩
    rw [List.dropLast_concat]
    unfold TrimSpace
    rw [trimLeft_append x [0x0D] (by simp [isCont])]
    split
    · rename_i hx
      rw [hx]
      have : trimLeft [(0x0D : Byte)] = [] := by decide
      rw [this]
    · rw [trimRight_concat_ascii _ _ (by decide)]
      have hsp : IsSpace (0x0D : Byte).val = true := by decide
      rw [if_pos hsp]
  · rfl

theorem TrimSpace_mem (s : GoString) (b : Byte) (h : b ∈ TrimSpace s) : b ∈ s :=
  (trimLeft_suffix s).subset ((trimRight_initial _).subset h)

/-! ### The scanner -/

theorem scanLinesFrom_line (cur l rest : GoString) (hl : (0x0A : Byte) ∉ l) :
    scanLinesFrom cur (l ++ 0x0A :: rest) =
      if MaxScanTokenSize ≤ (cur ++ l).length then []
      else dropCR (cur ++ l) :: scanLinesFrom [] rest := by
  induction l generalizing cur with
  | nil => simp [scanLinesFrom]
  | cons b t ih =>
    simp only [List.mem_cons, not_or] at hl
    have hb : ¬ b = 0x0A := fun h => hl.1 h.symm
    simp only [List.cons_append, scanLinesFrom, hb, if_false, List.append_eq]
    rw [ih _ hl.2]
    simp

theorem scanLinesFrom_last (cur l : GoString) (hl : (0x0A : Byte) ∉ l) :
    scanLinesFrom cur l =
      if cur ++ l = [] then []
      else if MaxScanTokenSize ≤ (cur ++ l).length then []
      else [dropCR (cur ++ l)] := by
  induction l generalizing cur with
  | nil => simp [scanLinesFrom]
  | cons b t ih =>
    simp only [List.mem_cons, not_or] at hl
    have hb : ¬ b = 0x0A := fun h => hl.1 h.symm
    simp only [scanLinesFrom, hb, if_false]
    rw [ih _ hl.2]
    simp

theorem scanLinesFrom_split (cur a : GoString) :
    ∃ (pre : List GoString) (ok : Bool), ∀ rest,
      scanLinesFrom cur (a ++ 0x0A :: rest) =
        pre ++ (if ok = true then scanLinesFrom [] rest else []) := by
  induction a generalizing cur with
  | nil =>
    by_cases h : MaxScanTokenSize ≤ cur.length
    · exact ⟨[], false, fun rest => by simp [scanLinesFrom, h]⟩
    · exact ⟨[dropCR cur], true, fun rest => by simp [scanLinesFrom, h]⟩
  | cons b t ih =>
    by_cases hb : b = 0x0A
    · subst hb
      by_cases h : MaxScanTokenSize ≤ cur.length
      · exact ⟨[], false, fun rest => by simp [scanLinesFrom, h]⟩
      · obtain ⟨pre, ok, hpre⟩ := ih []
        exact ⟨dropCR cur :: pre, ok, fun rest => by simp [scanLinesFrom, h, hpre rest]⟩
    · obtain ⟨pre, ok, hpre⟩ := ih (cur ++ [b])
      exact ⟨pre, ok, fun rest => by simp [scanLinesFrom, hb, hpre rest]⟩

theorem scanLinesFrom_append (cur a rest : GoString) (hcur : (0x0A : Byte) ∉ cur)
    (hfit : ∀ l, l <:+: cur ++ a → (0x0A : Byte) ∉ l → l.length < MaxScanTokenSize) :
    scanLinesFrom cur (a ++ 0x0A :: rest) =
      scanLinesFrom cur (a ++ [0x0A]) ++ scanLinesFrom [] rest := by
  induction a generalizing cur with
  | nil =>
    have h : ¬ MaxScanTokenSize ≤ cur.length :=
      not_le.mpr (hfit cur (by simp) hcur)
    simp [scanLinesFrom, h]
  | cons b t ih =>
    by_cases hb : b = 0x0A
    · subst hb
      have h : ¬ MaxScanTokenSize ≤ cur.length :=
        not_le.mpr (hfit cur (List.infix_append' [] cur _) hcur)
      simp only [List.cons_append, scanLinesFrom, if_true, h, if_false, List.append_eq]
      rw [ih [] (by simp)]
      intro l hl hn
      exact hfit l (hl.trans ⟨cur ++ [0x0A], [], by simp⟩) hn
    · simp only [List.cons_append, scanLinesFrom, hb, if_false, List.append_eq]
      apply ih
      · simp only [List.mem_append, List.mem_singleton, not_or]
        exact ⟨hcur, fun h => hb h.symm⟩
      · intro l hl hn
        exact hfit l (by simpa using hl) hn

theorem scanLines_append (a b : GoString) (ha : a = [] ∨ a.getLast? = some 0x0A)
    (hfit : ∀ l, l <:+: a → (0x0A : Byte) ∉ l → l.length < MaxScanTokenSize) :
    scanLines (a ++ b) = scanLines a ++ scanLines b := by
  rcases ha with ha | ha
  · subst ha; simp [scanLines, scanLinesFrom]
  · obtain ⟨x, rfl⟩ : ∃ x, a = x ++ [0x0A] := by
      rcases List.eq_nil_or_concat a with hs | ⟨x, c, hs⟩
      · subst hs; simp at ha
      · subst hs
        simp only [List.concat_eq_append, List.getLast?_concat, Option.some.injEq] at ha
        exact ⟨x, by rw [ha]; simp⟩
    unfold scanLines
    rw [List.append_assoc, List.singleton_append]
    apply scanLinesFrom_append
    · simp
    · intro l hl hn
      exact hfit l (hl.trans ⟨[], [0x0A], by simp⟩) hn

/-! ### ParseEnvBytes -/

theorem parseLine_eq (m : GoMap GoString) (text : GoString) :
    parseLine m text = (lineEntry text).elim m (fun e => m.set e.1 e.2) := by
  unfold parseLine lineEntry
  dsimp only
  split_ifs with h1
  · rfl
  · cases IndexByte (TrimSpace text) 0x3D with
    | none => rfl
    | some idx =>
      dsimp only
      split_ifs <;> rfl

theorem lineEntry_dropCR (text : GoString) : lineEntry (dropCR text) = lineEntry text := by
  unfold lineEntry
  rw [TrimSpace_dropCR]

theorem parseLine_dropCR (m : GoMap GoString) (text : GoString) :
    parseLine m (dropCR text) = parseLine m text := by
  rw [parseLine_eq, parseLine_eq, lineEntry_dropCR]

theorem IndexByte_eq_none (s : GoString) (c : Byte) : IndexByte s c = none ↔ c ∉ s := by
  induction s with
  | nil => simp [IndexByte]
  | cons b t ih =>
    by_cases h : b = c
    · simp [IndexByte, h]
    · have h' : ¬ c = b := fun hh => h hh.symm
      simp [IndexByte, h, h', ih]

theorem IndexByte_eq_some (s : GoString) (c : Byte) (i : Nat) (h : IndexByte s c = some i) :
    s.take i = s.takeWhile (fun b => !decide (b = c)) ∧
    s.drop (i + 1) = (s.dropWhile (fun b => !decide (b = c))).drop 1 := by
  induction s generalizing i with
  | nil => simp [IndexByte] at h
  | cons b t ih =>
    by_cases hb : b = c
    · simp only [IndexByte, hb, if_true, Option.some.injEq] at h
      subst h
      simp [hb]
    · simp only [IndexByte, hb, if_false, Option.map_eq_some'] at h
      obtain ⟨j, hj, rfl⟩ := h
      have := ih j hj
      simp [hb, this.1, this.2]

theorem foldl_parseLine_get? (ts : List GoString) (m : GoMap GoString) (k : GoString) :
    (ts.foldl parseLine m).get? k =
      ((ts.foldl parseLine GoMap.empty).get? k).elim (m.get? k) some := by
  induction ts generalizing m with
  | nil => simp [GoMap.get?_empty]
  | cons t ts ih =>
    rw [List.foldl_cons, List.foldl_cons, ih (parseLine m t), ih (parseLine GoMap.empty t)]
    cases (ts.foldl parseLine GoMap.empty).get? k with
    | some v => rfl
    | none =>
      simp only [Option.elim]
      rw [parseLine_eq, parseLine_eq]
      cases lineEntry t with
      | none => simp [GoMap.get?_empty]
      | some e =>
        simp only [Option.elim, GoMap.get?_set, GoMap.get?_empty]
        split <;> rfl

theorem lineEntry_ignorable (l : GoString)
    (h : TrimSpace l = [] ∨ HasPrefix (TrimSpace l) (str "#") = true ∨
      (0x3D : Byte) ∉ TrimSpace l) : lineEntry l = none := by
  unfold lineEntry
  dsimp only
  rcases h with h | h | h
  · simp [h]
  · simp [h]
  · rw [(IndexByte_eq_none _ _).mpr h]
    simp

theorem scanLines_overlong (l rest : GoString) (hl : (0x0A : Byte) ∉ l)
    (hlen : MaxScanTokenSize ≤ l.length) : scanLines (l ++ 0x0A :: rest) = [] := by
  unfold scanLines
  rw [scanLinesFrom_line [] l rest hl]
  simp [hlen]

theorem ParseEnvBytes_overlong (l rest : GoString) (hl : (0x0A : Byte) ∉ l)
    (hlen : MaxScanTokenSize ≤ l.length) (k : GoString) :
    (ParseEnvBytes (l ++ 0x0A :: rest)).get? k = none := by
  unfold ParseEnvBytes
  rw [scanLines_overlong l rest hl hlen]
  rfl

/-- C8 (as stated) fails: after a line of 65536 bytes the scanner stops, so the lines of `b`
are not parsed at all. With `a` = 65536 times `x` and a newline, `b` = `A=1`, the key `A` is
absent from `ParseEnvBytes (a ++ b)` although `ParseEnvBytes b` defines it. -/
theorem ParseEnvBytes_append_counterexample :
    ¬ ∀ (a b k : GoString), (a = [] ∨ a.getLast? = some 0x0A) →
      (ParseEnvBytes (a ++ b)).get? k =
        match (ParseEnvBytes b).get? k with
        | some v => some v
        | none => (ParseEnvBytes a).get? k := by
  intro h
  have h1 := h (List.replicate MaxScanTokenSize 0x78 ++ [0x0A]) (str "A=1\n") (str "A")
    (Or.inr (List.getLast?_concat _))
  rw [List.append_assoc, List.singleton_append,
    ParseEnvBytes_overlong _ _ (fun hm => absurd (List.eq_of_mem_replicate hm) (by decide))
      (le_of_eq (List.length_replicate _ _).symm)] at h1
  have h2 : (ParseEnvBytes (str "A=1\n")).get? (str "A") = some (str "1") := by decide
  rw [h2] at h1
  exact absurd h1 (by simp)

/-- C8 (amended): last occurrence wins. For byte strings `a` and `b`, where `a` is empty or
ends with a newline and every line of `a` is shorter than 65536 bytes,
`ParseEnvBytes (a ++ b)` is `ParseEnvBytes a` overridden by `ParseEnvBytes b`: a key of
`ParseEnvBytes b` has the value of `b`, every other key keeps the value of `a`. -/
theorem ParseEnvBytes_append (a b k : GoString) (ha : a = [] ∨ a.getLast? = some 0x0A)
    (hfit : ∀ l, l <:+: a → (0x0A : Byte) ∉ l → l.length < MaxScanTokenSize) :
    (ParseEnvBytes (a ++ b)).get? k =
      match (ParseEnvBytes b).get? k with
      | some v => some v
      | none => (ParseEnvBytes a).get? k := by
  unfold ParseEnvBytes
  rw [scanLines_append a b ha hfit, List.foldl_append, foldl_parseLine_get?]
  cases ((scanLines b).foldl parseLine GoMap.empty).get? k <;> rfl

theorem ParseEnvBytes_append_witness :
    (ParseEnvBytes (str "A=1\nB=x\n" ++ str "A=2\n")).get? (str "A") =
      match (ParseEnvBytes (str "A=2\n")).get? (str "A") with
      | some v => some v
      | none => (ParseEnvBytes (str "A=1\nB=x\n")).get? (str "A") :=
  ParseEnvBytes_append (str "A=1\nB=x\n") (str "A=2\n") (str "A") (Or.inr (by decide))
    (fun l hl _ => lt_of_le_of_lt hl.length_le (by decide))

theorem foldl_parseLine_skip (pre ts : List GoString) (l : GoString) (m : GoMap GoString)
    (h : lineEntry l = none) :
    (pre ++ dropCR l :: ts).foldl parseLine m = (pre ++ ts).foldl parseLine m := by
  rw [List.foldl_append, List.foldl_append, List.foldl_cons, parseLine_dropCR, parseLine_eq, h]
  rfl

theorem ParseEnvBytes_skip_line (a l b : GoString) (ha : a = [] ∨ a.getLast? = some 0x0A)
    (hl : (0x0A : Byte) ∉ l) (hlen : l.length < MaxScanTokenSize)
    (hskip : lineEntry l = none) :
    ParseEnvBytes (a ++ l ++ 0x0A :: b) = ParseEnvBytes (a ++ b) := by
  have hline : scanLinesFrom [] (l ++ 0x0A :: b) = dropCR l :: scanLinesFrom [] b := by
    rw [scanLinesFrom_line [] l b hl]
    simp [not_le.mpr hlen]
  unfold ParseEnvBytes scanLines
  rcases ha with ha | ha
  · subst ha
    rw [List.nil_append, List.nil_append, hline]
    exact foldl_parseLine_skip [] _ l _ hskip
  · obtain ⟨x, rfl⟩ : ∃ x, a = x ++ [0x0A] := by
      rcases List.eq_nil_or_concat a with hs | ⟨x, c, hs⟩
      · subst hs; simp at ha
      · subst hs
        simp only [List.concat_eq_append, List.getLast?_concat, Option.some.injEq] at ha
        exact ⟨x, by rw [ha]; simp⟩
    obtain ⟨pre, ok, hpre⟩ := scanLinesFrom_split [] x
    have e1 : x ++ [0x0A] ++ l ++ 0x0A :: b = x ++ 0x0A :: (l ++ 0x0A :: b) := by simp
    have e2 : x ++ [0x0A] ++ b = x ++ 0x0A :: b := by simp
    rw [e1, e2, hpre, hpre]
    cases ok with
    | false => rfl
    | true =>
      simp only [if_true]
      rw [hline]
      exact foldl_parseLine_skip pre _ l _ hskip

theorem IndexByte_eq_some' (s : GoString) (c : Byte) (i : Nat) (h : IndexByte s c = some i) :
    slice s 0 i = s.takeWhile (fun b => decide (b ≠ c)) ∧
    slice s (i + 1) s.length = (s.dropWhile (fun b => decide (b ≠ c))).drop 1 := by
  have := IndexByte_eq_some s c i h
  unfold slice
  simp only [List.drop_zero, List.take_length, this.1, this.2, ne_eq, decide_not]
  exact ⟨trivial, trivial⟩

theorem lineEntry_of_eq (text : GoString) (hne : (0x3D : Byte) ∈ TrimSpace text)
    (hc : HasPrefix (TrimSpace text) (str "#") = false) :
    lineEntry text =
      if TrimSpace ((TrimSpace text).takeWhile (fun b => decide (b ≠ 0x3D))) ≠ [] then
        some (TrimSpace ((TrimSpace text).takeWhile (fun b => decide (b ≠ 0x3D))),
          unquote (TrimSpace (((TrimSpace text).dropWhile (fun b => decide (b ≠ 0x3D))).drop 1)))
      else none := by
  unfold lineEntry
  dsimp only
  have h0 : TrimSpace text ≠ [] := List.ne_nil_of_mem hne
  have h1 : ¬ (TrimSpace text = [] ∨ HasPrefix (TrimSpace text) (str "#") = true) := by
    simp [h0, hc]
  rw [if_neg h1]
  cases hi : IndexByte (TrimSpace text) 0x3D with
  | none => exact absurd hne ((IndexByte_eq_none _ _).mp hi)
  | some idx =>
    have := IndexByte_eq_some' _ _ _ hi
    dsimp only
    rw [this.1, this.2]

theorem lineEntry_key (text : GoString) (e : GoString × GoString)
    (h : lineEntry text = some e) : e.1 ≠ [] ∧ (0x3D : Byte) ∉ e.1 := by
  unfold lineEntry at h
  dsimp only at h
  split_ifs at h with h1
  cases hi : IndexByte (TrimSpace text) 0x3D with
  | none => rw [hi] at h; simp at h
  | some idx =>
    rw [hi] at h
    dsimp only at h
    split_ifs at h with h2
    simp only [Option.some.injEq] at h
    subst h
    refine ⟨h2, fun hm => ?_⟩
    have hm' := TrimSpace_mem _ _ hm
    rw [(IndexByte_eq_some' _ _ _ hi).1] at hm'
    have := List.mem_takeWhile_imp hm'
    simp at this

/-- A line that is blank, a comment, without `=`, or without a key before its first `=`
yields no entry. -/
theorem lineEntry_skipped (l : GoString)
    (h : TrimSpace l = [] ∨ HasPrefix (TrimSpace l) (str "#") = true ∨
      (0x3D : Byte) ∉ TrimSpace l ∨
      TrimSpace ((TrimSpace l).takeWhile (fun b => decide (b ≠ 0x3D))) = []) :
    lineEntry l = none := by
  by_cases h1 : TrimSpace l = [] ∨ HasPrefix (TrimSpace l) (str "#") = true ∨
      (0x3D : Byte) ∉ TrimSpace l
  · exact lineEntry_ignorable l h1
  · have h4 : TrimSpace ((TrimSpace l).takeWhile (fun b => decide (b ≠ 0x3D))) = [] := by
      rcases h with h | h | h | h
      · exact absurd (Or.inl h) h1
      · exact absurd (Or.inr (Or.inl h)) h1
      · exact absurd (Or.inr (Or.inr h)) h1
      · exact h
    simp only [not_or, not_not, Bool.not_eq_true] at h1
    rw [lineEntry_of_eq l h1.2.2 h1.2.1, if_neg (by simpa using h4)]

/-- Every other line yields the entry of its key and value. -/
theorem lineEntry_parsed (l : GoString)
    (h : ¬ (TrimSpace l = [] ∨ HasPrefix (TrimSpace l) (str "#") = true ∨
      (0x3D : Byte) ∉ TrimSpace l ∨
      TrimSpace ((TrimSpace l).takeWhile (fun b => decide (b ≠ 0x3D))) = [])) :
    lineEntry l =
      some (TrimSpace ((TrimSpace l).takeWhile (fun b => decide (b ≠ 0x3D))),
        unquote (TrimSpace (((TrimSpace l).dropWhile (fun b => decide (b ≠ 0x3D))).drop 1))) := by
  simp only [not_or, not_not, Bool.not_eq_true] at h
  rw [lineEntry_of_eq l h.2.2.1 h.2.1, if_pos h.2.2.2]

theorem ParseEnvBytes_line (a l b : GoString) (ha : a = [] ∨ a.getLast? = some 0x0A)
    (hfit : ∀ x, x <:+: a → (0x0A : Byte) ∉ x → x.length < MaxScanTokenSize)
    (hl : (0x0A : Byte) ∉ l) (hlen : l.length < MaxScanTokenSize) (k : GoString) :
    (ParseEnvBytes (a ++ l ++ 0x0A :: b)).get? k =
      ((ParseEnvBytes b).get? k).elim
        ((lineEntry l).elim ((ParseEnvBytes a).get? k)
          (fun e => if e.1 = k then some e.2 else (ParseEnvBytes a).get? k)) some := by
  have hline : scanLines (l ++ 0x0A :: b) = dropCR l :: scanLines b := by
    unfold scanLines
    rw [scanLinesFrom_line [] l b hl]
    simp [not_le.mpr hlen]
  unfold ParseEnvBytes
  rw [List.append_assoc, scanLines_append a _ ha hfit, hline, List.foldl_append,
    List.foldl_cons, foldl_parseLine_get?, parseLine_dropCR, parseLine_eq]
  cases lineEntry l with
  | none => rfl
  | some e =>
    simp only [Option.elim, GoMap.get?_set]

/-- C5 (as stated) fails in two ways. A comment line of 65536 bytes fills the scanner's
buffer, the scan stops, and the line after it is lost: without the comment line the input
`A=1` defines `A`, with it the snapshot is empty. And the line `=x` is ignored although it
is not empty, does not start with `#` and contains `=`: it has no key. -/
theorem ParseEnvBytes_ignored_line_counterexample :
    (¬ ∀ (a l b : GoString), (a = [] ∨ a.getLast? = some 0x0A) → (0x0A : Byte) ∉ l →
      (TrimSpace l = [] ∨ HasPrefix (TrimSpace l) (str "#") = true ∨
        (0x3D : Byte) ∉ TrimSpace l) →
      ∀ k, (ParseEnvBytes (a ++ l ++ 0x0A :: b)).get? k = (ParseEnvBytes (a ++ b)).get? k) ∧
    (¬ ∀ (l : GoString), (0x0A : Byte) ∉ l →
      ¬ (TrimSpace l = [] ∨ HasPrefix (TrimSpace l) (str "#") = true ∨
        (0x3D : Byte) ∉ TrimSpace l) →
      (ParseEnvBytes (l ++ [0x0A])).entries ≠ []) ∧
    (ParseEnvBytes (str "A=1\n" ++ str "=x" ++ 0x0A :: str "B=2\n")).entries =
      (ParseEnvBytes (str "A=1\n" ++ str "B=2\n")).entries := by
  refine ⟨fun h => ?_, fun h => ?_, by decide⟩
  · have hne : (0x0A : Byte) ∉ List.replicate MaxScanTokenSize (0x23 : Byte) :=
      fun hm => absurd (List.eq_of_mem_replicate hm) (by decide)
    have h1 := h [] (List.replicate MaxScanTokenSize 0x23) (str "A=1\n") (Or.inl rfl) hne
      (Or.inr (Or.inr (fun hm =>
        absurd (List.eq_of_mem_replicate (TrimSpace_mem _ _ hm)) (by decide)))) (str "A")
    rw [List.nil_append, List.nil_append,
      ParseEnvBytes_overlong _ _ hne (le_of_eq (List.length_replicate _ _).symm)] at h1
    have h2 : (ParseEnvBytes (str "A=1\n")).get? (str "A") = some (str "1") := by decide
    rw [h2] at h1
    exact absurd h1 (by simp)
  · have h1 := h (str "=x") (by decide) (by decide)
    revert h1
    decide

set_option maxRecDepth 100000 in
/-- C5 (amended): among the lines shorter than 65536 bytes, `ParseEnvBytes` ignores exactly
those that, after trimming surrounding white space, are empty, start with `#`, contain no
`=`, or have nothing but white space before their first `=`. Inserting or removing such a
line between the lines of an input does not change the resulting snapshot. Every other
line is parsed: behind lines that are all shorter than 65536 bytes it sets its key, the
trimmed text before the first `=`, to its value, the trimmed and unquoted text after it,
unless a later line sets the key again; alone it gives a non-empty snapshot, an ignored
line the empty one. The input `FOO=bar`, `# comment`, `BAZ="hello world"` parses to exactly
`FOO: bar`, `BAZ: hello world`. -/
theorem ParseEnvBytes_ignored_line :
    (∀ (a l b : GoString), (a = [] ∨ a.getLast? = some 0x0A) → (0x0A : Byte) ∉ l →
      l.length < MaxScanTokenSize →
      (TrimSpace l = [] ∨ HasPrefix (TrimSpace l) (str "#") = true ∨
        (0x3D : Byte) ∉ TrimSpace l ∨
        TrimSpace ((TrimSpace l).takeWhile (fun b => decide (b ≠ 0x3D))) = []) →
      ∀ k, (ParseEnvBytes (a ++ l ++ 0x0A :: b)).get? k = (ParseEnvBytes (a ++ b)).get? k) ∧
    (∀ (a l b : GoString), (a = [] ∨ a.getLast? = some 0x0A) →
      (∀ x, x <:+: a → (0x0A : Byte) ∉ x → x.length < MaxScanTokenSize) →
      (0x0A : Byte) ∉ l → l.length < MaxScanTokenSize →
      ¬ (TrimSpace l = [] ∨ HasPrefix (TrimSpace l) (str "#") = true ∨
        (0x3D : Byte) ∉ TrimSpace l ∨
        TrimSpace ((TrimSpace l).takeWhile (fun b => decide (b ≠ 0x3D))) = []) →
      ∀ k, (ParseEnvBytes (a ++ l ++ 0x0A :: b)).get? k =
        match (ParseEnvBytes b).get? k with
        | some v => some v
        | none =>
          if k = TrimSpace ((TrimSpace l).takeWhile (fun b => decide (b ≠ 0x3D))) then
            some (unquote (TrimSpace
              (((TrimSpace l).dropWhile (fun b => decide (b ≠ 0x3D))).drop 1)))
          else (ParseEnvBytes a).get? k) ∧
    (∀ (l : GoString), (0x0A : Byte) ∉ l → l.length < MaxScanTokenSize →
      ((∀ k, (ParseEnvBytes (l ++ [0x0A])).get? k = none) ↔
        (TrimSpace l = [] ∨ HasPrefix (TrimSpace l) (str "#") = true ∨
          (0x3D : Byte) ∉ TrimSpace l ∨
          TrimSpace ((TrimSpace l).takeWhile (fun b => decide (b ≠ 0x3D))) = []))) ∧
    (ParseEnvBytes (str "FOO=bar\n# comment\nBAZ=\"hello world\"\n")).get? (str "FOO")
      = some (str "bar") ∧
    (ParseEnvBytes (str "FOO=bar\n# comment\nBAZ=\"hello world\"\n")).get? (str "BAZ")
      = some (str "hello world") ∧
    (ParseEnvBytes (str "FOO=bar\n# comment\nBAZ=\"hello world\"\n")).len = 2 := by
  have hparsed : ∀ (a l b : GoString), (a = [] ∨ a.getLast? = some 0x0A) →
      (∀ x, x <:+: a → (0x0A : Byte) ∉ x → x.length < MaxScanTokenSize) →
      (0x0A : Byte) ∉ l → l.length < MaxScanTokenSize →
      ¬ (TrimSpace l = [] ∨ HasPrefix (TrimSpace l) (str "#") = true ∨
        (0x3D : Byte) ∉ TrimSpace l ∨
        TrimSpace ((TrimSpace l).takeWhile (fun b => decide (b ≠ 0x3D))) = []) →
      ∀ k, (ParseEnvBytes (a ++ l ++ 0x0A :: b)).get? k =
        match (ParseEnvBytes b).get? k with
        | some v => some v
        | none =>
          if k = TrimSpace ((TrimSpace l).takeWhile (fun b => decide (b ≠ 0x3D))) then
            some (unquote (TrimSpace
              (((TrimSpace l).dropWhile (fun b => decide (b ≠ 0x3D))).drop 1)))
          else (ParseEnvBytes a).get? k := by
    intro a l b ha hfit hl hlen hn k
    rw [ParseEnvBytes_line a l b ha hfit hl hlen k, lineEntry_parsed l hn]
    cases (ParseEnvBytes b).get? k with
    | some v => rfl
    | none =>
      simp only [Option.elim]
      by_cases hk : k = TrimSpace ((TrimSpace l).takeWhile (fun b => decide (b ≠ 0x3D)))
      · rw [if_pos hk, if_pos hk.symm]
      · rw [if_neg hk, if_neg (fun h => hk h.symm)]
  have hskip : ∀ (a l b : GoString), (a = [] ∨ a.getLast? = some 0x0A) → (0x0A : Byte) ∉ l →
      l.length < MaxScanTokenSize →
      (TrimSpace l = [] ∨ HasPrefix (TrimSpace l) (str "#") = true ∨
        (0x3D : Byte) ∉ TrimSpace l ∨
        TrimSpace ((TrimSpace l).takeWhile (fun b => decide (b ≠ 0x3D))) = []) →
      ∀ k, (ParseEnvBytes (a ++ l ++ 0x0A :: b)).get? k = (ParseEnvBytes (a ++ b)).get? k := by
    intro a l b ha hl hlen hs k
    rw [ParseEnvBytes_skip_line a l b ha hl hlen (lineEntry_skipped l hs)]
  refine ⟨hskip, hparsed, ?_, by decide, by decide, by decide⟩
  intro l hl hlen
  constructor
  · intro hall
    by_contra hn
    have h := hparsed [] l [] (Or.inl rfl) (fun x hx _ => by
      rw [List.eq_nil_of_infix_nil hx]
      decide) hl hlen hn
      (TrimSpace ((TrimSpace l).takeWhile (fun b => decide (b ≠ 0x3D))))
    rw [List.nil_append, hall] at h
    have hb : (ParseEnvBytes []).get? (TrimSpace ((TrimSpace l).takeWhile
        (fun b => decide (b ≠ 0x3D)))) = none := rfl
    rw [hb] at h
    simp at h
  · intro hs k
    have h := hskip [] l [] (Or.inl rfl) hl hlen hs k
    rw [List.nil_append] at h
    rw [h]
    rfl

set_option maxRecDepth 100000 in
theorem ParseEnvBytes_ignored_line_witness :
    (ParseEnvBytes (str "FOO=bar\n" ++ str "# comment" ++ 0x0A :: str "BAZ=\"hello world\"\n")).get?
        (str "BAZ") =
      (ParseEnvBytes (str "FOO=bar\n" ++ str "BAZ=\"hello world\"\n")).get? (str "BAZ") ∧
    (ParseEnvBytes (str "FOO=bar\n" ++ str " BAZ = \"hello world\" " ++ 0x0A :: str "# end\n")).get?
        (str "BAZ") = some (str "hello world") :=
  ⟨ParseEnvBytes_ignored_line.1 (str "FOO=bar\n") (str "# comment")
      (str "BAZ=\"hello world\"\n") (Or.inr (by decide)) (by decide) (by decide)
      (Or.inr (Or.inl (by decide))) (str "BAZ"),
    (ParseEnvBytes_ignored_line.2.1 (str "FOO=bar\n") (str " BAZ = \"hello world\" ")
      (str "# end\n") (Or.inr (by decide))
      (fun x hx _ => lt_of_le_of_lt hx.length_le (by decide)) (by decide) (by decide)
      (by decide) (str "BAZ")).trans (by decide)⟩

theorem GoMap.mem_keys_set {V : Type} (m : GoMap V) (k k' : GoString) (v : V)
    (h : k ∈ (m.set k' v).keys) : k = k' ∨ k ∈ m.keys := by
  rw [GoMap.mem_keys_iff, GoMap.get?_set] at h
  by_cases hk : k' = k
  · exact Or.inl hk.symm
  · rw [if_neg hk] at h
    exact Or.inr ((GoMap.mem_keys_iff m k).mpr h)

theorem foldl_parseLine_keys (ts : List GoString) (m : GoMap GoString)
    (hm : ∀ k ∈ m.keys, k ≠ [] ∧ (0x3D : Byte) ∉ k) :
    ∀ k ∈ (ts.foldl parseLine m).keys, k ≠ [] ∧ (0x3D : Byte) ∉ k := by
  induction ts generalizing m with
  | nil => exact hm
  | cons t ts ih =>
    rw [List.foldl_cons]
    apply ih
    rw [parseLine_eq]
    cases he : lineEntry t with
    | none => exact hm
    | some e =>
      intro k hk
      rcases GoMap.mem_keys_set _ _ _ _ hk with h | h
      · rw [h]; exact lineEntry_key t e he
      · exact hm k h

theorem scanLines_single (data fin : GoString) (hd : data ≠ []) (hnl : (0x0A : Byte) ∉ data)
    (hlen : data.length < MaxScanTokenSize) (hfin : fin = [] ∨ fin = [0x0A]) :
    scanLines (data ++ fin) = [dropCR data] := by
  unfold scanLines
  rcases hfin with h | h
  · subst h
    rw [List.append_nil, scanLinesFrom_last [] data hnl]
    simp [hd, not_le.mpr hlen]
  · subst h
    rw [scanLinesFrom_line [] data [] hnl]
    simp [not_le.mpr hlen, scanLinesFrom]

theorem ParseEnvBytes_overlong_last (data : GoString) (hl : (0x0A : Byte) ∉ data)
    (hlen : MaxScanTokenSize ≤ data.length) (k : GoString) :
    (ParseEnvBytes data).get? k = none := by
  unfold ParseEnvBytes scanLines
  rw [scanLinesFrom_last [] data hl]
  simp only [List.nil_append, hlen, if_true]
  split <;> rfl

theorem TrimSpace_cons_ne_nil (b : Byte) (w : GoString) (hb : b < 0x80)
    (hs : IsSpace b.val = false) : TrimSpace (b :: w) ≠ [] := by
  unfold TrimSpace
  rw [trimLeft_eq_self_of_head b w hb hs]
  have e : b :: w = [b] ++ w := rfl
  rw [e, trimRight_append [b] w (by
    intro c hc
    simp only [List.getLast?_singleton, Option.mem_def, Option.some.injEq] at hc
    rw [← hc]; exact hb)]
  split
  · have : trimRight [b] = [b] := trimRight_eq_self_of_last [] b hb hs
    rw [this]; simp
  · simp

theorem long_line_fails (xs : GoString) (hx : ∀ b ∈ xs, b = 0x41)
    (hxl : MaxScanTokenSize ≤ xs.length) :
    (0x0A : Byte) ∉ (0x41 :: xs ++ [0x3D]) ++ [0x31] ∧
    (0x3D : Byte) ∈ TrimSpace ((0x41 :: xs ++ [0x3D]) ++ [0x31]) ∧
    HasPrefix (TrimSpace ((0x41 :: xs ++ [0x3D]) ++ [0x31])) (str "#") = false ∧
    TrimSpace ((TrimSpace ((0x41 :: xs ++ [0x3D]) ++ [0x31])).takeWhile
      (fun b => decide (b ≠ 0x3D))) ≠ [] ∧
    ∀ key, (ParseEnvBytes ((0x41 :: xs ++ [0x3D]) ++ [0x31])).get? key = none := by
  have hnl : (0x0A : Byte) ∉ (0x41 :: xs ++ [0x3D]) ++ [0x31] := by
    simp only [List.mem_append, List.mem_cons, List.mem_singleton, List.not_mem_nil, or_false,
      not_or]
    exact ⟨⟨⟨by decide, fun hm => absurd (hx _ hm) (by decide)⟩, by decide⟩, by decide⟩
  have htrim : TrimSpace ((0x41 :: xs ++ [0x3D]) ++ [0x31]) = (0x41 :: xs ++ [0x3D]) ++ [0x31] :=
    TrimSpace_of_trimmed _ (trimLeft_eq_self_of_head 0x41 _ (by decide) (by decide))
      (trimRight_eq_self_of_last _ 0x31 (by decide) (by decide))
  refine ⟨hnl, by rw [htrim]; simp, by rw [htrim]; rfl, ?_, fun key => ?_⟩
  · rw [htrim]
    simp only [List.cons_append, List.takeWhile_cons]
    rw [if_pos (by decide)]
    exact TrimSpace_cons_ne_nil 0x41 _ (by decide) (by decide)
  · exact ParseEnvBytes_overlong_last _ hnl (by
      simp only [List.length_append, List.length_cons, List.length_singleton]; omega) key

/-- C6 (as stated) fails on a comment line that contains `=`: the input `#A=1` has the
trimmed key `#A` before its first `=`, but the line is skipped and `#A` is not set. With
comment lines set aside it still fails on a long line: `A…A=1` with 65537 letters `A` is at
the scanner's limit and yields no entry. -/
theorem ParseEnvBytes_first_eq_counterexample :
    (¬ ∀ (data : GoString), (0x0A : Byte) ∉ data → (0x3D : Byte) ∈ TrimSpace data →
      ∀ key, (ParseEnvBytes data).get? key =
        if TrimSpace ((TrimSpace data).takeWhile (fun b => decide (b ≠ 0x3D))) ≠ [] ∧
            key = TrimSpace ((TrimSpace data).takeWhile (fun b => decide (b ≠ 0x3D))) then
          some (unquote
            (TrimSpace (((TrimSpace data).dropWhile (fun b => decide (b ≠ 0x3D))).drop 1)))
        else none) ∧
    (¬ ∀ (data : GoString), (0x0A : Byte) ∉ data → (0x3D : Byte) ∈ TrimSpace data →
      HasPrefix (TrimSpace data) (str "#") = false →
      ∀ key, (ParseEnvBytes data).get? key =
        if TrimSpace ((TrimSpace data).takeWhile (fun b => decide (b ≠ 0x3D))) ≠ [] ∧
            key = TrimSpace ((TrimSpace data).takeWhile (fun b => decide (b ≠ 0x3D))) then
          some (unquote
            (TrimSpace (((TrimSpace data).dropWhile (fun b => decide (b ≠ 0x3D))).drop 1)))
        else none) := by
  constructor
  · intro h
    have h1 := h (str "#A=1") (by decide) (by decide) (str "#A")
    revert h1
    decide
  · intro h
    obtain ⟨h1, h2, h3, h4, h5⟩ := long_line_fails (List.replicate MaxScanTokenSize 0x41)
      (fun _ hb => List.eq_of_mem_replicate hb) (le_of_eq (List.length_replicate _ _).symm)
    have h6 := h _ h1 h2 h3 (TrimSpace ((TrimSpace
      ((0x41 :: List.replicate MaxScanTokenSize 0x41 ++ [0x3D]) ++ [0x31])).takeWhile
        (fun b => decide (b ≠ 0x3D))))
    rw [h5, if_pos ⟨h4, rfl⟩] at h6
    exact absurd h6 (by simp)

set_option maxRecDepth 100000 in
/-- C6 (amended): `ParseEnvBytes` splits a line at its first `=` only. For a single-line
input shorter than 65536 bytes (with or without its newline) whose trimmed text `t`
contains `=` and does not start with `#`, let `k` be the trimmed text of `t` before its
first `=` and `v` the trimmed text after it: the result is empty if `k` is empty and is
exactly `k ↦ unquote v` otherwise. The line `A=b=c` yields `A ↦ b=c`, and no parsed key of
any input is empty or contains `=`. -/
theorem ParseEnvBytes_first_eq :
    (∀ (data fin : GoString), (0x0A : Byte) ∉ data → data.length < MaxScanTokenSize →
      (fin = [] ∨ fin = [0x0A]) → (0x3D : Byte) ∈ TrimSpace data →
      HasPrefix (TrimSpace data) (str "#") = false →
      ∀ key, (ParseEnvBytes (data ++ fin)).get? key =
        if TrimSpace ((TrimSpace data).takeWhile (fun b => decide (b ≠ 0x3D))) ≠ [] ∧
            key = TrimSpace ((TrimSpace data).takeWhile (fun b => decide (b ≠ 0x3D))) then
          some (unquote
            (TrimSpace (((TrimSpace data).dropWhile (fun b => decide (b ≠ 0x3D))).drop 1)))
        else none) ∧
    (ParseEnvBytes (str "A=b=c")).entries = [(str "A", str "b=c")] ∧
    (∀ (data key : GoString), key ∈ (ParseEnvBytes data).keys →
      key ≠ [] ∧ (0x3D : Byte) ∉ key) := by
  refine ⟨fun data fin hnl hlen hfin heq hc key => ?_, by decide, fun data key hk => ?_⟩
  · have hd : data ≠ [] := List.ne_nil_of_mem (TrimSpace_mem _ _ heq)
    unfold ParseEnvBytes
    rw [scanLines_single data fin hd hnl hlen hfin, List.foldl_cons, List.foldl_nil,
      parseLine_dropCR, parseLine_eq, lineEntry_of_eq data heq hc]
    by_cases hk : TrimSpace ((TrimSpace data).takeWhile (fun b => decide (b ≠ 0x3D))) ≠ []
    · rw [if_pos hk]
      simp only [Option.elim, GoMap.get?_set, GoMap.get?_empty]
      by_cases hkey :
          TrimSpace ((TrimSpace data).takeWhile (fun b => decide (b ≠ 0x3D))) = key
      · rw [if_pos hkey, if_pos ⟨hk, hkey.symm⟩]
      · rw [if_neg hkey, if_neg (fun hh => hkey hh.2.symm)]
    · rw [if_neg hk]
      simp only [Option.elim, GoMap.get?_empty, hk, false_and, if_false]
  · exact foldl_parseLine_keys _ _ (fun k hk => by simp [GoMap.keys, GoMap.empty] at hk) key hk

set_option maxRecDepth 100000 in
theorem ParseEnvBytes_first_eq_witness :
    (ParseEnvBytes (str " KEY = \"a=b\" " ++ [0x0A])).get? (str "KEY") =
      if TrimSpace ((TrimSpace (str " KEY = \"a=b\" ")).takeWhile
              (fun b => decide (b ≠ 0x3D))) ≠ [] ∧
          str "KEY" = TrimSpace ((TrimSpace (str " KEY = \"a=b\" ")).takeWhile
              (fun b => decide (b ≠ 0x3D))) then
        some (unquote (TrimSpace (((TrimSpace (str " KEY = \"a=b\" ")).dropWhile
          (fun b => decide (b ≠ 0x3D))).drop 1)))
      else none :=
  ParseEnvBytes_first_eq.1 (str " KEY = \"a=b\" ") [0x0A] (by decide) (by decide)
    (Or.inr rfl) (by decide) (by decide) (str "KEY")

/-! ### Runes and bytes -/

theorem isCont_iff (b : Byte) : isCont b = true ↔ 0x80 ≤ b.val ∧ b.val ≤ 0xBF := by
  simp only [isCont, Bool.and_eq_true, decide_eq_true_eq]
  exact Iff.rfl

theorem decodeRune2_high (s0 : Byte) (t : GoString) (h0 : 0xC2 ≤ s0.val) (h1 : s0.val < 0xE0) :
    0x80 ≤ (decodeRune2 s0 t).1 ∧ (decodeRune2 s0 t).1 < 0x200000 ∧
      ∀ b ∈ t.take ((decodeRune2 s0 t).2 - 1), 0x80 ≤ b.val := by
  rcases t with _ | ⟨s1, t'⟩
  · simp [decodeRune2, RuneError]
  · by_cases hc : isCont s1 = true
    · simp only [decodeRune2, hc, if_true, Nat.add_one_sub_one, List.take_succ_cons,
        List.take_zero, List.mem_singleton, forall_eq]
      rw [isCont_iff] at hc
      omega
    · simp [decodeRune2, hc, RuneError]

theorem decodeRune3_high (s0 : Byte) (t : GoString) (h0 : 0xE0 ≤ s0.val) (h1 : s0.val < 0xF0) :
    0x80 ≤ (decodeRune3 s0 t).1 ∧ (decodeRune3 s0 t).1 < 0x200000 ∧
      ∀ b ∈ t.take ((decodeRune3 s0 t).2 - 1), 0x80 ≤ b.val := by
  rcases t with _ | ⟨s1, _ | ⟨s2, t'⟩⟩
  · simp [decodeRune3, RuneError]
  · simp [decodeRune3, RuneError]
  · by_cases hr : (if s0 = 0xE0 then (0xA0 : Byte) else 0x80) ≤ s1 ∧
        s1 ≤ (if s0 = 0xED then (0x9F : Byte) else 0xBF)
    · by_cases hc : isCont s2 = true
      · have hc1 := range3_cont s0 s1 hr
        have hlo : s0.val = 0xE0 → 0xA0 ≤ s1.val := by
          intro h
          have h' : s0 = 0xE0 := Fin.ext h
          have := hr.1
          rw [if_pos h'] at this
          exact this
        simp only [decodeRune3, hr, and_self, hc, if_true, Nat.add_one_sub_one,
          List.take_succ_cons, List.take_zero, List.mem_cons, List.mem_singleton,
          List.not_mem_nil, or_false, forall_eq_or_imp, forall_eq]
        rw [isCont_iff] at hc hc1
        omega
      · simp [decodeRune3, hc, RuneError]
    · simp only [decodeRune3, hr, if_false]
      simp [RuneError]

theorem decodeRune4_high (s0 : Byte) (t : GoString) (h0 : 0xF0 ≤ s0.val)
    (h1 : s0.val < 0xF5) :
    0x80 ≤ (decodeRune4 s0 t).1 ∧ (decodeRune4 s0 t).1 < 0x200000 ∧
      ∀ b ∈ t.take ((decodeRune4 s0 t).2 - 1), 0x80 ≤ b.val := by
  rcases t with _ | ⟨s1, _ | ⟨s2, _ | ⟨s3, t'⟩⟩⟩
  · simp [decodeRune4, RuneError]
  · simp [decodeRune4, RuneError]
  · simp [decodeRune4, RuneError]
  · by_cases hr : (if s0 = 0xF0 then (0x90 : Byte) else 0x80) ≤ s1 ∧
        s1 ≤ (if s0 = 0xF4 then (0x8F : Byte) else 0xBF)
    · by_cases hc : isCont s2 = true
      · by_cases hc3 : isCont s3 = true
        · have hc1 := range4_cont s0 s1 hr
          have hlo : s0.val = 0xF0 → 0x90 ≤ s1.val := by
            intro h
            have h' : s0 = 0xF0 := Fin.ext h
            have := hr.1
            rw [if_pos h'] at this
            exact this
          simp only [decodeRune4, hr, and_self, hc, hc3, if_true, Nat.add_one_sub_one,
            List.take_succ_cons, List.take_zero, List.mem_cons, List.mem_singleton,
            List.not_mem_nil, or_false, forall_eq_or_imp, forall_eq]
          rw [isCont_iff] at hc hc1 hc3
          have := s0.isLt
          omega
        · simp [decodeRune4, hc3, RuneError]
      · simp [decodeRune4, hc, RuneError]
    · simp only [decodeRune4, hr, if_false]
      simp [RuneError]

theorem decode_high (s0 : Byte) (t : GoString) (h0 : ¬ s0 < 0x80) :
    0x80 ≤ (DecodeRuneInString (s0 :: t)).1 ∧ (DecodeRuneInString (s0 :: t)).1 < 0x200000 ∧
      ∀ b ∈ (s0 :: t).take (DecodeRuneInString (s0 :: t)).2, 0x80 ≤ b.val := by
  have hw := (decode_width s0 t).1
  have hs0 : 0x80 ≤ s0.val := not_lt.mp h0
  have key : ∀ d : Nat × Nat, 1 ≤ d.2 →
      (0x80 ≤ d.1 ∧ d.1 < 0x200000 ∧ ∀ b ∈ t.take (d.2 - 1), 0x80 ≤ b.val) →
      (0x80 ≤ d.1 ∧ d.1 < 0x200000 ∧ ∀ b ∈ (s0 :: t).take d.2, 0x80 ≤ b.val) := by
    intro d hd ⟨h1, h2, h3⟩
    refine ⟨h1, h2, ?_⟩
    obtain ⟨n, hn⟩ : ∃ n, d.2 = n + 1 := ⟨d.2 - 1, by omega⟩
    rw [hn] at h3 ⊢
    simp only [Nat.add_one_sub_one, List.take_succ_cons, List.mem_cons] at h3 ⊢
    rintro b (hb | hb)
    · rw [hb]; exact hs0
    · exact h3 b hb
  apply key _ hw
  simp only [DecodeRuneInString, h0, if_false]
  split_ifs with h1 h2 h3 h4
  · simp [RuneError]
  · exact decodeRune2_high s0 t (not_lt.mp h1) h2
  · exact decodeRune3_high s0 t (not_lt.mp h2) h3
  · exact decodeRune4_high s0 t (not_lt.mp h3) h4
  · simp [RuneError]

theorem runesLoop_fuel (n m : Nat) (s : GoString) (hn : s.length ≤ n) (hm : s.length ≤ m) :
    runesLoop n s = runesLoop m s := by
  induction n generalizing m s with
  | zero =>
    have hs : s = [] := List.length_eq_zero.mp (Nat.le_zero.mp hn)
    subst hs
    cases m <;> rfl
  | succ n ih =>
    cases s with
    | nil => cases m <;> rfl
    | cons a t =>
      cases m with
      | zero => simp at hm
      | succ m =>
        simp only [runesLoop]
        have hw := (decode_width a t).1
        simp only [List.length_cons] at hn hm
        rw [ih m _ (by rw [List.length_drop, List.length_cons]; omega)
          (by rw [List.length_drop, List.length_cons]; omega)]

theorem runes_cons (s0 : Byte) (t : GoString) :
    runes (s0 :: t) = (DecodeRuneInString (s0 :: t)).1 ::
      runes ((s0 :: t).drop (DecodeRuneInString (s0 :: t)).2) := by
  unfold runes
  simp only [List.length_cons, runesLoop]
  have hw := (decode_width s0 t).1
  rw [runesLoop_fuel _ _ _ (by rw [List.length_drop, List.length_cons]; omega) le_rfl]

theorem runes_any (p : Nat → Bool) (hp : ∀ r, 0x80 ≤ r → p r = false) (s : GoString) :
    (runes s).any p = s.any (fun b => p b.val) := by
  generalize hn : s.length = n
  induction n using Nat.strong_induction_on generalizing s with
  | _ n ih =>
    subst hn
    cases s with
    | nil => rfl
    | cons s0 t =>
      rw [runes_cons]
      have hw := decode_width s0 t
      by_cases h0 : s0 < 0x80
      · rw [decode_ascii s0 t h0]
        simp only [List.any_cons, List.drop_succ_cons, List.drop_zero]
        rw [ih t.length (by simp) t rfl]
      · have hh := decode_high s0 t h0
        rw [List.any_cons, hp _ hh.1, Bool.false_or,
          ih _ (by rw [List.length_drop, List.length_cons]; omega) _ rfl]
        conv_rhs => rw [← List.take_append_drop (DecodeRuneInString (s0 :: t)).2 (s0 :: t)]
        rw [List.any_append]
        have : ((s0 :: t).take (DecodeRuneInString (s0 :: t)).2).any (fun b => p b.val)
            = false := by
          rw [List.any_eq_false]
          intro b hb
          rw [hp _ (hh.2.2 b hb)]
          simp
        rw [this, Bool.false_or]

/-- `needsQuoting` on the bytes: some byte is a space, a tab, a quote, a backslash or a
newline. -/
theorem needsQuoting_eq_any (s : GoString) :
    needsQuoting s = s.any (fun b =>
      b.val == 0x20 || b.val == 0x09 || b.val == 0x22 || b.val == 0x27 || b.val == 0x5C ||
        b.val == 0x0A) := by
  unfold needsQuoting
  split
  · rename_i h; subst h; rfl
  · apply runes_any
    intro r hr
    have h1 : r ≠ 0x20 := by omega
    have h2 : r ≠ 0x09 := by omega
    have h3 : r ≠ 0x22 := by omega
    have h4 : r ≠ 0x27 := by omega
    have h5 : r ≠ 0x5C := by omega
    have h6 : r ≠ 0x0A := by omega
    simp [h1, h2, h3, h4, h5, h6]

theorem needsQuoting_iff (s : GoString) :
    needsQuoting s = true ↔ ∃ b ∈ s, b = 0x20 ∨ b = 0x09 ∨ b = 0x22 ∨ b = 0x27 ∨ b = 0x5C ∨
      b = 0x0A := by
  rw [needsQuoting_eq_any, List.any_eq_true]
  constructor
  · rintro ⟨b, hb, h⟩
    refine ⟨b, hb, ?_⟩
    simp only [Bool.or_eq_true, beq_iff_eq] at h
    rcases h with ((((h | h) | h) | h) | h) | h
    · exact Or.inl (Fin.ext h)
    · exact Or.inr (Or.inl (Fin.ext h))
    · exact Or.inr (Or.inr (Or.inl (Fin.ext h)))
    · exact Or.inr (Or.inr (Or.inr (Or.inl (Fin.ext h))))
    · exact Or.inr (Or.inr (Or.inr (Or.inr (Or.inl (Fin.ext h)))))
    · exact Or.inr (Or.inr (Or.inr (Or.inr (Or.inr (Fin.ext h)))))
  · rintro ⟨b, hb, h⟩
    refine ⟨b, hb, ?_⟩
    rcases h with h | h | h | h | h | h <;> subst h <;> rfl

/-! ### Quote -/

theorem ofNat_val (n : Nat) : (Fin.ofNat n : Byte).val = n % 256 := rfl

theorem ofNat_val_self (b : Byte) : (Fin.ofNat b.val : Byte) = b := by
  apply Fin.ext
  rw [ofNat_val]
  exact Nat.mod_eq_of_lt b.isLt

theorem quoteLoop_fuel (tbl : Nat → Bool) (n m : Nat) (s : GoString) (hn : s.length ≤ n)
    (hm : s.length ≤ m) : quoteLoop tbl n s = quoteLoop tbl m s := by
  induction n generalizing m s with
  | zero =>
    have hs : s = [] := List.length_eq_zero.mp (Nat.le_zero.mp hn)
    subst hs
    cases m <;> rfl
  | succ n ih =>
    cases s with
    | nil => cases m <;> rfl
    | cons a t =>
      cases m with
      | zero => simp at hm
      | succ m =>
        simp only [quoteLoop]
        have hw := (decode_width a t).1
        simp only [List.length_cons] at hn hm
        rw [ih m _ (by rw [List.length_drop, List.length_cons]; omega)
          (by rw [List.length_drop, List.length_cons]; omega)]

theorem quoteLoop_cons (tbl : Nat → Bool) (s0 : Byte) (t : GoString) :
    quoteLoop tbl (s0 :: t).length (s0 :: t) =
      (if (DecodeRuneInString (s0 :: t)).2 = 1 ∧ (DecodeRuneInString (s0 :: t)).1 = RuneError
        then [0x5C, 0x78, lowerhex (s0.val / 16), lowerhex (s0.val % 16)]
        else appendEscapedRune tbl (DecodeRuneInString (s0 :: t)).1) ++
      quoteLoop tbl ((s0 :: t).drop (DecodeRuneInString (s0 :: t)).2).length
        ((s0 :: t).drop (DecodeRuneInString (s0 :: t)).2) := by
  simp only [List.length_cons, quoteLoop]
  have hw := (decode_width s0 t).1
  rw [quoteLoop_fuel tbl _ _ _ (by rw [List.length_drop, List.length_cons]; omega) le_rfl]

/-- A printable ASCII byte other than `"` and `\`. -/
theorem appendEscapedRune_plain (tbl : Nat → Bool) (b : Byte) (h1 : 0x20 ≤ b.val)
    (h2 : b.val ≤ 0x7E) (h3 : b.val ≠ 0x22) (h4 : b.val ≠ 0x5C) :
    appendEscapedRune tbl b.val = [b] := by
  have hp : IsPrint tbl b.val = true := by
    unfold IsPrint
    rw [if_pos (by omega), if_pos ⟨h1, h2⟩]
  unfold appendEscapedRune
  rw [if_neg (by omega), if_pos hp]
  unfold encodeRune
  rw [if_pos (by omega), ofNat_val_self]

theorem quoteLoop_plain (tbl : Nat → Bool) (s : GoString)
    (h : ∀ b ∈ s, 0x20 ≤ b.val ∧ b.val ≤ 0x7E ∧ b.val ≠ 0x22 ∧ b.val ≠ 0x5C) :
    quoteLoop tbl s.length s = s := by
  induction s with
  | nil => rfl
  | cons s0 t ih =>
    have h0 := h s0 (by simp)
    have hlt : s0 < 0x80 := by
      show s0.val < 0x80
      omega
    rw [quoteLoop_cons, decode_ascii s0 t hlt]
    have hne : ¬ ((s0.val, 1).2 = 1 ∧ (s0.val, 1).1 = RuneError) := by
      simp only [RuneError, true_and]
      omega
    rw [if_neg hne]
    simp only [List.drop_succ_cons, List.drop_zero]
    rw [appendEscapedRune_plain tbl s0 h0.1 h0.2.1 h0.2.2.1 h0.2.2.2,
      ih (fun b hb => h b (by simp [hb]))]
    rfl

theorem Quote_plain (tbl : Nat → Bool) (s : GoString)
    (h : ∀ b ∈ s, 0x20 ≤ b.val ∧ b.val ≤ 0x7E ∧ b.val ≠ 0x22 ∧ b.val ≠ 0x5C) :
    Quote tbl s = 0x22 :: s ++ [0x22] := by
  unfold Quote
  rw [quoteLoop_plain tbl s h]

theorem ofNat_eq (b : Byte) (n : Nat) (h : n = b.val) : (Fin.ofNat n : Byte) = b := by
  rw [h]
  exact ofNat_val_self b

/-- Two-byte case: a valid decoding is undone by `encodeRune`. -/
theorem encode_decodeRune2 (s0 : Byte) (t : GoString) (h0 : 0xC2 ≤ s0.val)
    (h1 : s0.val < 0xE0) (hv : (decodeRune2 s0 t).2 ≠ 1) :
    encodeRune (decodeRune2 s0 t).1 = (s0 :: t).take (decodeRune2 s0 t).2 := by
  rcases t with _ | ⟨s1, t'⟩
  · simp [decodeRune2] at hv
  · by_cases hc : isCont s1 = true
    · simp only [decodeRune2, hc, if_true, List.take_succ_cons, List.take_zero]
      rw [isCont_iff] at hc
      unfold encodeRune
      rw [if_neg (by omega), if_pos (by omega)]
      rw [ofNat_eq s0 _ (by omega), ofNat_eq s1 _ (by omega)]
    · simp [decodeRune2, hc] at hv

theorem encode_decodeRune3 (s0 : Byte) (t : GoString) (h0 : 0xE0 ≤ s0.val)
    (h1 : s0.val < 0xF0) (hv : (decodeRune3 s0 t).2 ≠ 1) :
    encodeRune (decodeRune3 s0 t).1 = (s0 :: t).take (decodeRune3 s0 t).2 := by
  rcases t with _ | ⟨s1, _ | ⟨s2, t'⟩⟩
  · simp [decodeRune3] at hv
  · simp [decodeRune3] at hv
  · by_cases hr : (if s0 = 0xE0 then (0xA0 : Byte) else 0x80) ≤ s1 ∧
        s1 ≤ (if s0 = 0xED then (0x9F : Byte) else 0xBF)
    · by_cases hc : isCont s2 = true
      · have hc1 := range3_cont s0 s1 hr
        have hlo : s0.val = 0xE0 → 0xA0 ≤ s1.val := by
          intro h
          have h' : s0 = 0xE0 := Fin.ext h
          have := hr.1
          rw [if_pos h'] at this
          exact this
        simp only [decodeRune3, hr, hc, if_true, and_self, List.take_succ_cons, List.take_zero]
        rw [isCont_iff] at hc hc1
        unfold encodeRune
        rw [if_neg (by omega), if_neg (by omega), if_pos (by omega)]
        rw [ofNat_eq s0 _ (by omega), ofNat_eq s1 _ (by omega), ofNat_eq s2 _ (by omega)]
      · simp [decodeRune3, hr, hc] at hv
    · simp [decodeRune3, hr] at hv

theorem encode_decodeRune4 (s0 : Byte) (t : GoString) (h0 : 0xF0 ≤ s0.val)
    (h1 : s0.val < 0xF5) (hv : (decodeRune4 s0 t).2 ≠ 1) :
    encodeRune (decodeRune4 s0 t).1 = (s0 :: t).take (decodeRune4 s0 t).2 := by
  rcases t with _ | ⟨s1, _ | ⟨s2, _ | ⟨s3, t'⟩⟩⟩
  · simp [decodeRune4] at hv
  · simp [decodeRune4] at hv
  · simp [decodeRune4] at hv
  · by_cases hr : (if s0 = 0xF0 then (0x90 : Byte) else 0x80) ≤ s1 ∧
        s1 ≤ (if s0 = 0xF4 then (0x8F : Byte) else 0xBF)
    · by_cases hc : isCont s2 = true
      · by_cases hc3 : isCont s3 = true
        · have hc1 := range4_cont s0 s1 hr
          have hlo : s0.val = 0xF0 → 0x90 ≤ s1.val := by
            intro h
            have h' : s0 = 0xF0 := Fin.ext h
            have := hr.1
            rw [if_pos h'] at this
            exact this
          simp only [decodeRune4, hr, hc, hc3, if_true, and_self, List.take_succ_cons,
            List.take_zero]
          rw [isCont_iff] at hc hc1 hc3
          unfold encodeRune
          rw [if_neg (by omega), if_neg (by omega), if_neg (by omega)]
          rw [ofNat_eq s0 _ (by omega), ofNat_eq s1 _ (by omega), ofNat_eq s2 _ (by omega),
            ofNat_eq s3 _ (by omega)]
        · simp [decodeRune4, hr, hc, hc3] at hv
      · simp [decodeRune4, hr, hc] at hv
    · simp [decodeRune4, hr] at hv

theorem decodeRune2_error (s0 : Byte) (t : GoString) (h : (decodeRune2 s0 t).2 = 1) :
    (decodeRune2 s0 t).1 = RuneError := by
  rcases t with _ | ⟨s1, t'⟩
  · rfl
  · by_cases hc : isCont s1 = true
    · simp [decodeRune2, hc] at h
    · simp [decodeRune2, hc]

theorem decodeRune3_error (s0 : Byte) (t : GoString) (h : (decodeRune3 s0 t).2 = 1) :
    (decodeRune3 s0 t).1 = RuneError := by
  rcases t with _ | ⟨s1, _ | ⟨s2, t'⟩⟩
  · rfl
  · rfl
  · by_cases hr : (if s0 = 0xE0 then (0xA0 : Byte) else 0x80) ≤ s1 ∧
        s1 ≤ (if s0 = 0xED then (0x9F : Byte) else 0xBF)
    · by_cases hc : isCont s2 = true
      · simp [decodeRune3, hr, hc] at h
      · simp [decodeRune3, hr, hc]
    · simp [decodeRune3, hr]

theorem decodeRune4_error (s0 : Byte) (t : GoString) (h : (decodeRune4 s0 t).2 = 1) :
    (decodeRune4 s0 t).1 = RuneError := by
  rcases t with _ | ⟨s1, _ | ⟨s2, _ | ⟨s3, t'⟩⟩⟩
  · rfl
  · rfl
  · rfl
  · by_cases hr : (if s0 = 0xF0 then (0x90 : Byte) else 0x80) ≤ s1 ∧
        s1 ≤ (if s0 = 0xF4 then (0x8F : Byte) else 0xBF)
    · by_cases hc : isCont s2 = true
      · by_cases hc3 : isCont s3 = true
        · simp [decodeRune4, hr, hc, hc3] at h
        · simp [decodeRune4, hr, hc, hc3]
      · simp [decodeRune4, hr, hc]
    · simp [decodeRune4, hr]

/-- Encoding undoes decoding: when the first rune of a string is validly encoded,
`encodeRune` gives back the bytes it was decoded from. -/
theorem encode_decode (s0 : Byte) (t : GoString)
    (hv : ¬ ((DecodeRuneInString (s0 :: t)).2 = 1 ∧
      (DecodeRuneInString (s0 :: t)).1 = RuneError)) :
    encodeRune (DecodeRuneInString (s0 :: t)).1 =
      (s0 :: t).take (DecodeRuneInString (s0 :: t)).2 := by
  by_cases h0 : s0 < 0x80
  · rw [decode_ascii s0 t h0]
    have : s0.val < 0x80 := h0
    simp only [List.take_succ_cons, List.take_zero]
    unfold encodeRune
    rw [if_pos this, ofNat_val_self]
  · by_cases h1 : s0 < 0xC2
    · exact absurd (by simp [DecodeRuneInString, h0, h1]) hv
    · have e1 : 0xC2 ≤ s0.val := not_lt.mp h1
      by_cases h2 : s0 < 0xE0
      · have hd : DecodeRuneInString (s0 :: t) = decodeRune2 s0 t := by
          simp [DecodeRuneInString, h0, h1, h2]
        rw [hd] at hv ⊢
        exact encode_decodeRune2 s0 t e1 h2 (fun hw => hv ⟨hw, decodeRune2_error s0 t hw⟩)
      · have e2 : 0xE0 ≤ s0.val := not_lt.mp h2
        by_cases h3 : s0 < 0xF0
        · have hd : DecodeRuneInString (s0 :: t) = decodeRune3 s0 t := by
            simp [DecodeRuneInString, h0, h1, h2, h3]
          rw [hd] at hv ⊢
          exact encode_decodeRune3 s0 t e2 h3 (fun hw => hv ⟨hw, decodeRune3_error s0 t hw⟩)
        · have e3 : 0xF0 ≤ s0.val := not_lt.mp h3
          by_cases h4 : s0 < 0xF5
          · have hd : DecodeRuneInString (s0 :: t) = decodeRune4 s0 t := by
              simp [DecodeRuneInString, h0, h1, h2, h3, h4]
            rw [hd] at hv ⊢
            exact encode_decodeRune4 s0 t e3 h4
              (fun hw => hv ⟨hw, decodeRune4_error s0 t hw⟩)
          · exact absurd (by simp [DecodeRuneInString, h0, h1, h2, h3, h4]) hv

/-- The condition under which `%q` escapes nothing: `v` is the UTF-8 encoding of its own
characters, and each of them is printable and neither `"` nor `\`. -/
theorem quoteLoop_verbatim (tbl : Nat → Bool) (s : GoString)
    (hv : (runes s).flatMap encodeRune = s)
    (hp : ∀ r ∈ runes s, IsPrint tbl r = true ∧ r ≠ 0x22 ∧ r ≠ 0x5C) :
    quoteLoop tbl s.length s = s := by
  generalize hn : s.length = n
  induction n using Nat.strong_induction_on generalizing s with
  | _ n ih =>
    subst hn
    cases s with
    | nil => rfl
    | cons s0 t =>
      have hw := decode_width s0 t
      rw [runes_cons, List.flatMap_cons] at hv
      rw [runes_cons] at hp
      have hr := hp _ (List.mem_cons_self _ _)
      have hvalid : ¬ ((DecodeRuneInString (s0 :: t)).2 = 1 ∧
          (DecodeRuneInString (s0 :: t)).1 = RuneError) := by
        rintro ⟨h1, h2⟩
        rw [h2, h1] at hv
        have he : encodeRune RuneError = [0xEF, 0xBF, 0xBD] := by decide
        rw [he] at hv
        simp only [List.cons_append, List.nil_append, List.cons.injEq] at hv
        obtain ⟨rfl, ht⟩ := hv
        rw [← ht] at h1
        revert h1
        simp [DecodeRuneInString, decodeRune3, isCont]
      have henc := encode_decode s0 t hvalid
      rw [henc] at hv
      have hrest : (runes ((s0 :: t).drop (DecodeRuneInString (s0 :: t)).2)).flatMap
          encodeRune = (s0 :: t).drop (DecodeRuneInString (s0 :: t)).2 := by
        have := List.take_append_drop (DecodeRuneInString (s0 :: t)).2 (s0 :: t)
        exact List.append_cancel_left (hv.trans this.symm)
      rw [quoteLoop_cons, if_neg hvalid]
      have hesc : appendEscapedRune tbl (DecodeRuneInString (s0 :: t)).1 =
          encodeRune (DecodeRuneInString (s0 :: t)).1 := by
        unfold appendEscapedRune
        rw [if_neg (by omega), if_pos hr.1]
      rw [hesc, henc, ih _ (by rw [List.length_drop, List.length_cons]; omega) _ hrest
        (fun r hr' => hp r (List.mem_cons_of_mem _ hr')) rfl]
      exact List.take_append_drop _ _

theorem Quote_verbatim (tbl : Nat → Bool) (s : GoString)
    (hv : (runes s).flatMap encodeRune = s)
    (hp : ∀ r ∈ runes s, IsPrint tbl r = true ∧ r ≠ 0x22 ∧ r ≠ 0x5C) :
    Quote tbl s = 0x22 :: s ++ [0x22] := by
  unfold Quote
  rw [quoteLoop_verbatim tbl s hv hp]

theorem hexDigits_length (r n : Nat) : (hexDigits r n).length = n := by
  induction n with
  | zero => rfl
  | succ n ih => simp [hexDigits, ih]

/-- An escape is longer than one byte, and longer than any encoding unless the rune is
ASCII. -/
theorem appendEscapedRune_escaped (tbl : Nat → Bool) (r : Nat)
    (h : ¬ (IsPrint tbl r = true ∧ r ≠ 0x22 ∧ r ≠ 0x5C)) :
    (r < 0x80 ∧ 2 ≤ (appendEscapedRune tbl r).length) ∨
      5 ≤ (appendEscapedRune tbl r).length := by
  unfold appendEscapedRune
  have ha : (str "\\a").length = 2 := by decide
  have hbb : (str "\\b").length = 2 := by decide
  have hf : (str "\\f").length = 2 := by decide
  have hn : (str "\\n").length = 2 := by decide
  have hr : (str "\\r").length = 2 := by decide
  have ht : (str "\\t").length = 2 := by decide
  have hv : (str "\\v").length = 2 := by decide
  have hfd : (str "\\ufffd").length = 6 := by decide
  have hu : (str "\\u").length = 2 := by decide
  have hU : (str "\\U").length = 2 := by decide
  generalize str "\\a" = ca at ha ⊢
  generalize str "\\b" = cb at hbb ⊢
  generalize str "\\f" = cf at hf ⊢
  generalize str "\\n" = cn at hn ⊢
  generalize str "\\r" = cr at hr ⊢
  generalize str "\\t" = ct at ht ⊢
  generalize str "\\v" = cv at hv ⊢
  generalize str "\\ufffd" = cfd at hfd ⊢
  generalize str "\\u" = cu at hu ⊢
  generalize str "\\U" = cU at hU ⊢
  by_cases h1 : r = 0x22 ∨ r = 0x5C
  · rw [if_pos h1]
    exact Or.inl ⟨by omega, by simp⟩
  rw [if_neg h1]
  have h2 : ¬ IsPrint tbl r = true := fun hp => h ⟨hp, by omega, by omega⟩
  rw [if_neg h2]
  by_cases c1 : r = 0x07
  · rw [if_pos c1]; exact Or.inl ⟨by omega, by omega⟩
  rw [if_neg c1]
  by_cases c2 : r = 0x08
  · rw [if_pos c2]; exact Or.inl ⟨by omega, by omega⟩
  rw [if_neg c2]
  by_cases c3 : r = 0x0C
  · rw [if_pos c3]; exact Or.inl ⟨by omega, by omega⟩
  rw [if_neg c3]
  by_cases c4 : r = 0x0A
  · rw [if_pos c4]; exact Or.inl ⟨by omega, by omega⟩
  rw [if_neg c4]
  by_cases c5 : r = 0x0D
  · rw [if_pos c5]; exact Or.inl ⟨by omega, by omega⟩
  rw [if_neg c5]
  by_cases c6 : r = 0x09
  · rw [if_pos c6]; exact Or.inl ⟨by omega, by omega⟩
  rw [if_neg c6]
  by_cases c7 : r = 0x0B
  · rw [if_pos c7]; exact Or.inl ⟨by omega, by omega⟩
  rw [if_neg c7]
  by_cases c8 : r < 0x20 ∨ r = 0x7F
  · rw [if_pos c8]; exact Or.inl ⟨by omega, by simp⟩
  rw [if_neg c8]
  by_cases c9 : 0x10FFFF < r ∨ (0xD800 ≤ r ∧ r ≤ 0xDFFF)
  · rw [if_pos c9]; exact Or.inr (by omega)
  rw [if_neg c9]
  by_cases c10 : r < 0x10000
  · rw [if_pos c10, List.length_append, hexDigits_length]; exact Or.inr (by omega)
  · rw [if_neg c10, List.length_append, hexDigits_length]; exact Or.inr (by omega)

/-- What `quoteLoop` writes for the first rune of a string: the bytes of the rune
themselves when it is validly encoded, printable and neither `"` nor `\`, and a longer
text otherwise. -/
theorem quoteLoop_piece (tbl : Nat → Bool) (s0 : Byte) (t : GoString) :
    (¬ ((DecodeRuneInString (s0 :: t)).2 = 1 ∧ (DecodeRuneInString (s0 :: t)).1 = RuneError) ∧
      (IsPrint tbl (DecodeRuneInString (s0 :: t)).1 = true ∧
        (DecodeRuneInString (s0 :: t)).1 ≠ 0x22 ∧ (DecodeRuneInString (s0 :: t)).1 ≠ 0x5C) ∧
      (if (DecodeRuneInString (s0 :: t)).2 = 1 ∧ (DecodeRuneInString (s0 :: t)).1 = RuneError
        then [0x5C, 0x78, lowerhex (s0.val / 16), lowerhex (s0.val % 16)]
        else appendEscapedRune tbl (DecodeRuneInString (s0 :: t)).1) =
        (s0 :: t).take (DecodeRuneInString (s0 :: t)).2) ∨
    (DecodeRuneInString (s0 :: t)).2 <
      (if (DecodeRuneInString (s0 :: t)).2 = 1 ∧ (DecodeRuneInString (s0 :: t)).1 = RuneError
        then [0x5C, 0x78, lowerhex (s0.val / 16), lowerhex (s0.val % 16)]
        else appendEscapedRune tbl (DecodeRuneInString (s0 :: t)).1).length := by
  have hw := decode_width s0 t
  by_cases hinv : (DecodeRuneInString (s0 :: t)).2 = 1 ∧
      (DecodeRuneInString (s0 :: t)).1 = RuneError
  · rw [if_pos hinv, hinv.1]
    exact Or.inr (by simp)
  · rw [if_neg hinv]
    by_cases hp : IsPrint tbl (DecodeRuneInString (s0 :: t)).1 = true ∧
        (DecodeRuneInString (s0 :: t)).1 ≠ 0x22 ∧ (DecodeRuneInString (s0 :: t)).1 ≠ 0x5C
    · refine Or.inl ⟨hinv, hp, ?_⟩
      rw [← encode_decode s0 t hinv]
      unfold appendEscapedRune
      rw [if_neg (by omega), if_pos hp.1]
    · refine Or.inr ?_
      rcases appendEscapedRune_escaped tbl _ hp with ⟨h1, h2⟩ | h2
      · have h80 : s0 < 0x80 := by
          by_contra hh
          have := (decode_high s0 t hh).1
          omega
        rw [decode_ascii s0 t h80] at h2 ⊢
        exact h2
      · omega

theorem quoteLoop_length_ge (tbl : Nat → Bool) (s : GoString) :
    s.length ≤ (quoteLoop tbl s.length s).length := by
  generalize hn : s.length = n
  induction n using Nat.strong_induction_on generalizing s with
  | _ n ih =>
    subst hn
    cases s with
    | nil => exact Nat.zero_le _
    | cons s0 t =>
      have hw := decode_width s0 t
      rw [quoteLoop_cons, List.length_append]
      have hrest := ih _ (by rw [List.length_drop, List.length_cons]; omega)
        ((s0 :: t).drop (DecodeRuneInString (s0 :: t)).2) rfl
      have hdl := List.length_drop (DecodeRuneInString (s0 :: t)).2 (s0 :: t)
      have hl : (s0 :: t).length = t.length + 1 := rfl
      rcases quoteLoop_piece tbl s0 t with ⟨_, _, h⟩ | h
      · rw [h, List.length_take]
        omega
      · omega

/-- Whatever `%q` leaves unchanged is validly encoded, printable and free of `"` and `\`. -/
theorem quoteLoop_eq_self (tbl : Nat → Bool) (s : GoString)
    (h : quoteLoop tbl s.length s = s) :
    (runes s).flatMap encodeRune = s ∧
      ∀ r ∈ runes s, IsPrint tbl r = true ∧ r ≠ 0x22 ∧ r ≠ 0x5C := by
  generalize hn : s.length = n
  induction n using Nat.strong_induction_on generalizing s with
  | _ n ih =>
    subst hn
    cases s with
    | nil => exact ⟨rfl, by simp [runes, runesLoop]⟩
    | cons s0 t =>
      have hw := decode_width s0 t
      rw [quoteLoop_cons] at h
      have hge := quoteLoop_length_ge tbl ((s0 :: t).drop (DecodeRuneInString (s0 :: t)).2)
      have hlen := congrArg List.length h
      rw [List.length_append] at hlen
      have hdl := List.length_drop (DecodeRuneInString (s0 :: t)).2 (s0 :: t)
      have hl : (s0 :: t).length = t.length + 1 := rfl
      rcases quoteLoop_piece tbl s0 t with ⟨hinv, hp, hpiece⟩ | hlt
      · rw [hpiece] at h
        have hrest := List.append_cancel_left
          (h.trans (List.take_append_drop (DecodeRuneInString (s0 :: t)).2 (s0 :: t)).symm)
        have hi := ih _ (by rw [List.length_drop, List.length_cons]; omega) _ hrest rfl
        rw [runes_cons, List.flatMap_cons, hi.1, encode_decode s0 t hinv]
        refine ⟨List.take_append_drop _ _, ?_⟩
        intro r hr
        rcases List.mem_cons.mp hr with rfl | hr
        · exact hp
        · exact hi.2 r hr
      · omega

theorem Quote_eq_iff (tbl : Nat → Bool) (s : GoString) :
    Quote tbl s = 0x22 :: s ++ [0x22] ↔
      ((runes s).flatMap encodeRune = s ∧
        ∀ r ∈ runes s, IsPrint tbl r = true ∧ r ≠ 0x22 ∧ r ≠ 0x5C) := by
  constructor
  · intro h
    unfold Quote at h
    apply quoteLoop_eq_self
    have h1 := List.cons_injective h
    exact List.append_cancel_right h1
  · rintro ⟨hv, hp⟩
    exact Quote_verbatim tbl s hv hp

theorem lowerhex_ne_newline (n : Nat) : lowerhex n ≠ 0x0A := by
  unfold lowerhex
  by_cases h : n < 16
  · interval_cases n <;> decide
  · rw [List.getD_eq_default _ _ (by
      have : (str "0123456789abcdef").length = 16 := by decide
      omega)]
    decide

theorem hexDigits_no_newline (r n : Nat) : (0x0A : Byte) ∉ hexDigits r n := by
  induction n with
  | zero => simp [hexDigits]
  | succ n ih =>
    simp only [hexDigits, List.mem_cons, not_or]
    exact ⟨fun h => lowerhex_ne_newline _ h.symm, ih⟩

theorem ofNat_ne_newline (n : Nat) (h : n % 256 ≠ 10) : (0x0A : Byte) ≠ Fin.ofNat n := by
  intro hh
  have := congrArg Fin.val hh
  rw [ofNat_val] at this
  exact h this.symm

theorem encodeRune_no_newline (r : Nat) (h : r ≠ 0x0A) (hb : r < 0x200000) :
    (0x0A : Byte) ∉ encodeRune r := by
  unfold encodeRune
  split_ifs
  · simp only [List.mem_singleton]
    exact ofNat_ne_newline _ (by omega)
  · simp only [List.mem_cons, List.mem_singleton, List.not_mem_nil, or_false, not_or]
    exact ⟨ofNat_ne_newline _ (by omega), ofNat_ne_newline _ (by omega)⟩
  · simp only [List.mem_cons, List.mem_singleton, List.not_mem_nil, or_false, not_or]
    exact ⟨ofNat_ne_newline _ (by omega), ofNat_ne_newline _ (by omega),
      ofNat_ne_newline _ (by omega)⟩
  · simp only [List.mem_cons, List.mem_singleton, List.not_mem_nil, or_false, not_or]
    exact ⟨ofNat_ne_newline _ (by omega), ofNat_ne_newline _ (by omega),
      ofNat_ne_newline _ (by omega), ofNat_ne_newline _ (by omega)⟩

theorem hexEscape_no_newline (a b : Nat) :
    (0x0A : Byte) ∉ [(0x5C : Byte), 0x78, lowerhex a, lowerhex b] := by
  simp only [List.mem_cons, List.mem_singleton, List.not_mem_nil, or_false, not_or]
  exact ⟨by decide, by decide, fun h => lowerhex_ne_newline _ h.symm,
    fun h => lowerhex_ne_newline _ h.symm⟩

theorem appendEscapedRune_no_newline (tbl : Nat → Bool) (r : Nat) (hb : r < 0x200000) :
    (0x0A : Byte) ∉ appendEscapedRune tbl r := by
  unfold appendEscapedRune
  have ha : (0x0A : Byte) ∉ str "\\a" := by decide
  have hbb : (0x0A : Byte) ∉ str "\\b" := by decide
  have hf : (0x0A : Byte) ∉ str "\\f" := by decide
  have hn : (0x0A : Byte) ∉ str "\\n" := by decide
  have hr : (0x0A : Byte) ∉ str "\\r" := by decide
  have ht : (0x0A : Byte) ∉ str "\\t" := by decide
  have hv : (0x0A : Byte) ∉ str "\\v" := by decide
  have hfd : (0x0A : Byte) ∉ str "\\ufffd" := by decide
  have hu : (0x0A : Byte) ∉ str "\\u" := by decide
  have hU : (0x0A : Byte) ∉ str "\\U" := by decide
  generalize str "\\a" = ca at ha ⊢
  generalize str "\\b" = cb at hbb ⊢
  generalize str "\\f" = cf at hf ⊢
  generalize str "\\n" = cn at hn ⊢
  generalize str "\\r" = cr at hr ⊢
  generalize str "\\t" = ct at ht ⊢
  generalize str "\\v" = cv at hv ⊢
  generalize str "\\ufffd" = cfd at hfd ⊢
  generalize str "\\u" = cu at hu ⊢
  generalize str "\\U" = cU at hU ⊢
  by_cases h1 : r = 0x22 ∨ r = 0x5C
  · rw [if_pos h1]
    simp only [List.mem_cons, List.mem_singleton, List.not_mem_nil, or_false, not_or]
    exact ⟨by decide, ofNat_ne_newline _ (by omega)⟩
  rw [if_neg h1]
  by_cases h2 : IsPrint tbl r = true
  · rw [if_pos h2]
    apply encodeRune_no_newline r _ hb
    intro h
    subst h
    simp [IsPrint] at h2
  rw [if_neg h2]
  by_cases c1 : r = 0x07
  · rw [if_pos c1]; exact ha
  rw [if_neg c1]
  by_cases c2 : r = 0x08
  · rw [if_pos c2]; exact hbb
  rw [if_neg c2]
  by_cases c3 : r = 0x0C
  · rw [if_pos c3]; exact hf
  rw [if_neg c3]
  by_cases c4 : r = 0x0A
  · rw [if_pos c4]; exact hn
  rw [if_neg c4]
  by_cases c5 : r = 0x0D
  · rw [if_pos c5]; exact hr
  rw [if_neg c5]
  by_cases c6 : r = 0x09
  · rw [if_pos c6]; exact ht
  rw [if_neg c6]
  by_cases c7 : r = 0x0B
  · rw [if_pos c7]; exact hv
  rw [if_neg c7]
  by_cases c8 : r < 0x20 ∨ r = 0x7F
  · rw [if_pos c8]; exact hexEscape_no_newline _ _
  rw [if_neg c8]
  by_cases c9 : 0x10FFFF < r ∨ (0xD800 ≤ r ∧ r ≤ 0xDFFF)
  · rw [if_pos c9]; exact hfd
  rw [if_neg c9]
  by_cases c10 : r < 0x10000
  · rw [if_pos c10, List.mem_append, not_or]; exact ⟨hu, hexDigits_no_newline _ _⟩
  · rw [if_neg c10, List.mem_append, not_or]; exact ⟨hU, hexDigits_no_newline _ _⟩

theorem decode_lt (s : GoString) : (DecodeRuneInString s).1 < 0x200000 := by
  cases s with
  | nil => simp [DecodeRuneInString, RuneError]
  | cons s0 t =>
    by_cases h0 : s0 < 0x80
    · rw [decode_ascii s0 t h0]
      have := s0.isLt
      show s0.val < 0x200000
      omega
    · exact (decode_high s0 t h0).2.1

theorem quoteLoop_no_newline (tbl : Nat → Bool) (s : GoString) :
    (0x0A : Byte) ∉ quoteLoop tbl s.length s := by
  generalize hn : s.length = n
  induction n using Nat.strong_induction_on generalizing s with
  | _ n ih =>
    subst hn
    cases s with
    | nil => simp [quoteLoop]
    | cons s0 t =>
      rw [quoteLoop_cons, List.mem_append, not_or]
      have hw := (decode_width s0 t).1
      refine ⟨?_, ih _ (by rw [List.length_drop, List.length_cons]; omega) _ rfl⟩
      split
      · exact hexEscape_no_newline _ _
      · exact appendEscapedRune_no_newline tbl _ (decode_lt _)

theorem formatValue_no_newline (tbl : Nat → Bool) (v : GoString) :
    (0x0A : Byte) ∉ formatValue tbl v := by
  unfold formatValue
  split
  · unfold Quote
    rw [List.cons_append, List.mem_cons, List.mem_append, List.mem_singleton, not_or, not_or]
    exact ⟨by decide, quoteLoop_no_newline tbl v, by decide⟩
  · rename_i h
    intro hm
    exact h ((needsQuoting_iff v).mpr ⟨0x0A, hm, by simp⟩)

/-! ### FormatEnv -/

theorem foldl_append_eq_flatMap {α : Type} (f : α → GoString) (l : List α) (init : GoString) :
    l.foldl (fun b x => b ++ f x) init = init ++ l.flatMap f := by
  induction l generalizing init with
  | nil => simp
  | cons a t ih => rw [List.foldl_cons, ih, List.flatMap_cons, List.append_assoc]

theorem formatEntry_eq (tbl : Nat → Bool) (s : GoMap GoString) (k : GoString) :
    formatEntry tbl s k = (k ++ 0x3D :: formatValue tbl ((s.get? k).getD [])) ++ [0x0A] := by
  unfold formatEntry
  have h1 : str "=" = [0x3D] := by decide
  have h2 : str "\n" = [0x0A] := by decide
  rw [h1, h2]
  simp

theorem FormatEnv_eq_flatMap (tbl : Nat → Bool) (s : GoMap GoString) :
    FormatEnv tbl s = (sortStrings s.keys).flatMap (formatEntry tbl s) := by
  unfold FormatEnv
  rw [foldl_append_eq_flatMap]
  rfl

theorem sortStrings_perm (l : List GoString) : (sortStrings l).Perm l :=
  List.perm_insertionSort _ l

theorem sortStrings_sorted (l : List GoString) : (sortStrings l).Sorted (· ≤ ·) :=
  List.sorted_insertionSort _ l

theorem sortStrings_strict (l : List GoString) (h : l.Nodup) :
    (sortStrings l).Sorted (· < ·) :=
  (sortStrings_sorted l).lt_of_le ((sortStrings_perm l).nodup_iff.mpr h)

theorem sortStrings_congr (l l' : List GoString) (h : l.Perm l') :
    sortStrings l = sortStrings l' :=
  List.eq_of_perm_of_sorted ((sortStrings_perm l).trans (h.trans (sortStrings_perm l').symm))
    (sortStrings_sorted l) (sortStrings_sorted l')

theorem GoMap.keys_nodup {V : Type} (m : GoMap V) : m.keys.Nodup := m.nodup

theorem GoMap.keys_perm {V : Type} (s t : GoMap V) (h : ∀ k, s.get? k = t.get? k) :
    s.keys.Perm t.keys := by
  rw [List.perm_ext_iff_of_nodup s.keys_nodup t.keys_nodup]
  intro k
  rw [GoMap.mem_keys_iff, GoMap.mem_keys_iff, h k]

theorem mem_sortStrings (l : List GoString) (k : GoString) : k ∈ sortStrings l ↔ k ∈ l :=
  (sortStrings_perm l).mem_iff

theorem FormatEnv_congr (tbl : Nat → Bool) (s t : GoMap GoString)
    (h : ∀ k, s.get? k = t.get? k) : FormatEnv tbl s = FormatEnv tbl t := by
  rw [FormatEnv_eq_flatMap, FormatEnv_eq_flatMap, sortStrings_congr _ _ (GoMap.keys_perm s t h)]
  have : formatEntry tbl s = formatEntry tbl t := by
    funext k
    unfold formatEntry
    rw [h k]
  rw [this]

/-! ### Parsing a formatted snapshot -/

theorem IndexByte_append (k rest : GoString) (c : Byte) (h : c ∉ k) :
    IndexByte (k ++ c :: rest) c = some k.length := by
  induction k with
  | nil => simp [IndexByte]
  | cons b t ih =>
    simp only [List.mem_cons, not_or] at h
    have hb : ¬ b = c := fun hh => h.1 hh.symm
    simp [IndexByte, hb, ih h.2]

theorem TrimSpace_quoted (v : GoString) :
    TrimSpace (0x22 :: v ++ [0x22]) = 0x22 :: v ++ [0x22] := by
  apply TrimSpace_of_trimmed
  · exact trimLeft_eq_self_of_head 0x22 _ (by decide) (by decide)
  · exact trimRight_eq_self_of_last _ 0x22 (by decide) (by decide)

theorem unquote_quoted (v : GoString) : unquote (0x22 :: v ++ [0x22]) = v := by
  unfold unquote
  have hlen : 2 ≤ (0x22 :: v ++ [0x22] : GoString).length := by simp
  have hlast : (0x22 :: v ++ [0x22] : GoString).getLast? = some 0x22 := by
    exact List.getLast?_concat _
  rw [if_pos hlen, if_pos ⟨rfl, hlast⟩]
  unfold slice
  simp

theorem unquote_of_no_quote (v : GoString) (h1 : (0x22 : Byte) ∉ v) (h2 : (0x27 : Byte) ∉ v) :
    unquote v = v := by
  unfold unquote
  have hh : ∀ c : Byte, c ∉ v → ¬ (v.head? = some c ∧ v.getLast? = some c) := by
    intro c hc ⟨h, _⟩
    exact hc (List.mem_of_mem_head? h)
  rw [if_neg (hh _ h1), if_neg (hh _ h2)]
  simp

/-- The line `key=value` that `FormatEnv` writes is read back as the entry `(key, value)`,
for a key without `=`, surrounding white space or leading `#` and a written value `fv` that
is trimmed and unquotes to `v`. -/
theorem lineEntry_formatted (k fv v : GoString) (hk : k ≠ []) (hkt : TrimSpace k = k)
    (hke : (0x3D : Byte) ∉ k) (hkc : k.head? ≠ some 0x23)
    (hft : TrimSpace fv = fv) (hfu : unquote fv = v) :
    lineEntry (k ++ 0x3D :: fv) = some (k, v) := by
  have hkl := (TrimSpace_eq_self k hkt).1
  have hfr := (TrimSpace_eq_self fv hft).2
  have hline : TrimSpace (k ++ 0x3D :: fv) = k ++ 0x3D :: fv := by
    apply TrimSpace_of_trimmed
    · rw [trimLeft_append k (0x3D :: fv) (by simp [isCont]), hkl, if_neg hk]
    · have e : k ++ 0x3D :: fv = (k ++ [0x3D]) ++ fv := by simp
      rw [e, trimRight_append (k ++ [0x3D]) fv (by
        intro c hc
        rw [List.getLast?_concat] at hc
        simp only [Option.mem_def, Option.some.injEq] at hc
        rw [← hc]; decide), hfr]
      split
      · rename_i h
        rw [h, List.append_nil]
        exact trimRight_eq_self_of_last k 0x3D (by decide) (by decide)
      · rfl
  have hpre : HasPrefix (k ++ 0x3D :: fv) (str "#") = false := by
    cases k with
    | nil => exact absurd rfl hk
    | cons k0 t =>
      have h0 : k0 ≠ 0x23 := fun h => hkc (by rw [h]; rfl)
      have hs : str "#" = [0x23] := by decide
      rw [hs]
      simp [HasPrefix, h0]
  unfold lineEntry
  dsimp only
  rw [hline, hpre, IndexByte_append k fv 0x3D hke]
  have hne : ¬ (k ++ 0x3D :: fv = [] ∨ false = true) := by simp
  rw [if_neg hne]
  dsimp only
  have hs1 : slice (k ++ 0x3D :: fv) 0 k.length = k := by
    unfold slice; simp
  have hs2 : slice (k ++ 0x3D :: fv) (k.length + 1) (k ++ 0x3D :: fv).length = fv := by
    unfold slice
    rw [List.take_length]
    have e : k ++ 0x3D :: fv = (k ++ [0x3D]) ++ fv := by simp
    rw [e, List.drop_left' (by simp)]
  rw [hs1, hs2, hkt, hft, hfu, if_pos hk]

/-- The value `FormatEnv` writes is trimmed and unquotes to the value itself, when a value
that needs quoting is written without escapes and a value that does not is trimmed. -/
theorem formatValue_readback (tbl : Nat → Bool) (v : GoString)
    (hq : needsQuoting v = true → Quote tbl v = 0x22 :: v ++ [0x22])
    (hu : needsQuoting v = false → TrimSpace v = v) :
    TrimSpace (formatValue tbl v) = formatValue tbl v ∧ unquote (formatValue tbl v) = v := by
  unfold formatValue
  by_cases h : needsQuoting v = true
  · rw [if_pos h, hq h]
    exact ⟨TrimSpace_quoted v, unquote_quoted v⟩
  · rw [if_neg h]
    rw [Bool.not_eq_true] at h
    refine ⟨hu h, unquote_of_no_quote v ?_ ?_⟩
    · intro hm
      have := (needsQuoting_iff v).mpr ⟨0x22, hm, by simp⟩
      rw [h] at this
      exact absurd this (by simp)
    · intro hm
      have := (needsQuoting_iff v).mpr ⟨0x27, hm, by simp⟩
      rw [h] at this
      exact absurd this (by simp)

theorem scanLines_flatMap {α : Type} (f : α → GoString) (l : List α)
    (h : ∀ x ∈ l, (0x0A : Byte) ∉ f x ∧ (f x).length < MaxScanTokenSize) :
    scanLinesFrom [] (l.flatMap (fun x => f x ++ [0x0A])) = l.map (fun x => dropCR (f x)) := by
  induction l with
  | nil => simp [scanLinesFrom]
  | cons a t ih =>
    have ha := h a (by simp)
    rw [List.flatMap_cons, List.append_assoc, List.singleton_append,
      scanLinesFrom_line [] (f a) _ ha.1]
    simp only [List.nil_append, not_le.mpr ha.2, if_false, List.map_cons]
    rw [ih (fun x hx => h x (by simp [hx]))]

theorem foldl_parseLine_map {α : Type} (f : α → GoString) (key : α → GoString)
    (val : α → GoString) (l : List α) (h : ∀ x ∈ l, lineEntry (f x) = some (key x, val x))
    (hval : ∀ x ∈ l, ∀ y ∈ l, key x = key y → val x = val y)
    (m : GoMap GoString) (k : GoString) :
    ((l.map f).foldl parseLine m).get? k =
      match l.find? (fun x => decide (key x = k)) with
      | some x => some (val x)
      | none => m.get? k := by
  induction l generalizing m with
  | nil => simp
  | cons a t ih =>
    rw [List.map_cons, List.foldl_cons, ih (fun x hx => h x (by simp [hx]))
      (fun x hx y hy => hval x (by simp [hx]) y (by simp [hy])), parseLine_eq,
      h a (by simp)]
    simp only [Option.elim, List.find?_cons]
    by_cases hak : key a = k
    · simp only [hak, decide_True]
      cases hf : t.find? (fun x => decide (key x = k)) with
      | none => simp [GoMap.get?_set, hak]
      | some x =>
        have hx := List.mem_of_find?_eq_some hf
        have hkx : key x = k := by simpa using List.find?_some hf
        simp only [Option.some.injEq]
        exact hval x (by simp [hx]) a (by simp) (hkx.trans hak.symm)
    · simp only [hak, decide_False]
      cases hf : t.find? (fun x => decide (key x = k)) with
      | none => simp [GoMap.get?_set, hak]
      | some x => rfl

theorem ParseEnvBytes_FormatEnv (tbl : Nat → Bool) (s : GoMap GoString)
    (hkeys : ∀ k ∈ s.keys, k ≠ [] ∧ TrimSpace k = k ∧ (0x3D : Byte) ∉ k ∧ (0x0A : Byte) ∉ k ∧
      k.head? ≠ some 0x23)
    (hvals : ∀ k v, s.get? k = some v →
      (needsQuoting v = true → Quote tbl v = 0x22 :: v ++ [0x22]) ∧
      (needsQuoting v = false → TrimSpace v = v) ∧
      k.length + 1 + (formatValue tbl v).length < MaxScanTokenSize)
    (k : GoString) : (ParseEnvBytes (FormatEnv tbl s)).get? k = s.get? k := by
  have hfun : formatEntry tbl s =
      fun x => (x ++ 0x3D :: formatValue tbl ((s.get? x).getD [])) ++ [0x0A] := by
    funext x
    exact formatEntry_eq tbl s x
  have hget : ∀ x ∈ sortStrings s.keys, ∃ v, s.get? x = some v := by
    intro x hx
    have := (GoMap.mem_keys_iff s x).mp ((mem_sortStrings _ _).mp hx)
    exact Option.ne_none_iff_exists'.mp this
  unfold ParseEnvBytes scanLines
  rw [FormatEnv_eq_flatMap, hfun, scanLines_flatMap
    (fun x => x ++ 0x3D :: formatValue tbl ((s.get? x).getD [])) _ (by
      intro x hx
      obtain ⟨v, hv⟩ := hget x hx
      have hkx := hkeys x ((mem_sortStrings _ _).mp hx)
      have hvx := hvals x v hv
      dsimp only
      rw [hv, Option.getD_some]
      constructor
      · rw [List.mem_append, List.mem_cons, not_or, not_or]
        exact ⟨hkx.2.2.2.1, by decide, formatValue_no_newline tbl v⟩
      · rw [List.length_append, List.length_cons]
        omega)]
  rw [foldl_parseLine_map
    (fun x => dropCR (x ++ 0x3D :: formatValue tbl ((s.get? x).getD []))) id
    (fun x => (s.get? x).getD []) _ (by
      intro x hx
      obtain ⟨v, hv⟩ := hget x hx
      have hkx := hkeys x ((mem_sortStrings _ _).mp hx)
      have hvx := hvals x v hv
      have hrb := formatValue_readback tbl v hvx.1 hvx.2.1
      dsimp only [id]
      rw [lineEntry_dropCR, hv, Option.getD_some]
      exact lineEntry_formatted x _ v hkx.1 hkx.2.1 hkx.2.2.1 hkx.2.2.2.2 hrb.1 hrb.2)
    (by intro x _ y _ hxy; simp only [id] at hxy; rw [hxy])]
  simp only [id, GoMap.get?_empty]
  cases hf : (sortStrings s.keys).find? (fun x => decide (x = k)) with
  | some x =>
    have hx := List.mem_of_find?_eq_some hf
    have hxk : x = k := by simpa using List.find?_some hf
    obtain ⟨v, hv⟩ := hget x hx
    subst hxk
    simp [hv]
  | none =>
    have hnot : k ∉ s.keys := by
      intro hk
      have := List.find?_eq_none.mp hf k ((mem_sortStrings _ _).mpr hk)
      simp at this
    rw [GoMap.mem_keys_iff, not_not] at hnot
    simp [hnot]


theorem lookupEntry_mem {V : Type} (k : GoString) (v : V) (es : List (GoString × V))
    (h : lookupEntry k es = some v) : (k, v) ∈ es := by
  induction es with
  | nil => simp [lookupEntry] at h
  | cons e rest ih =>
    obtain ⟨a, w⟩ := e
    by_cases ha : a = k
    · simp only [lookupEntry, ha, if_true, Option.some.injEq] at h
      simp [ha, h]
    · simp only [lookupEntry, ha, if_false] at h
      exact List.mem_cons_of_mem _ (ih h)

theorem long_value_lost (tbl : Nat → Bool) (xs : GoString) (hx : ∀ b ∈ xs, b = 0x78)
    (hxl : MaxScanTokenSize ≤ xs.length) :
    (ParseEnvBytes (FormatEnv tbl (GoMap.ofList [([0x41], xs)]))).get? [0x41] = none := by
  have hq : ¬ needsQuoting xs = true := by
    rw [needsQuoting_iff]
    rintro ⟨b, hb, h⟩
    rw [hx b hb] at h
    revert h
    decide
  have hkeys : sortStrings (GoMap.ofList [(([0x41] : GoString), xs)]).keys = [[0x41]] := rfl
  have hget : (GoMap.ofList [(([0x41] : GoString), xs)]).get? [0x41] = some xs := by
    simp [GoMap.ofList, GoMap.set, GoMap.get?, GoMap.empty, lookupEntry]
  rw [FormatEnv_eq_flatMap, hkeys]
  simp only [List.flatMap_cons, List.flatMap_nil, List.append_nil]
  rw [formatEntry_eq, hget, Option.getD_some]
  unfold formatValue
  rw [if_neg hq]
  apply ParseEnvBytes_overlong
  · simp only [List.singleton_append, List.mem_cons, not_or]
    exact ⟨by decide, by decide, fun hm => absurd (hx _ hm) (by decide)⟩
  · simp only [List.singleton_append, List.length_cons]
    omega

/-- C4 (as stated) fails: `FormatEnv` writes a quoted value with Go escapes (`%q`), and
`unquote` removes the quotes without undoing them. The snapshot `A ↦ a"b` (non-empty key,
no newline in the value) is written as `A="a\"b"` and read back as `A ↦ a\"b`. Further
snapshots that do not survive: a value with a tab or a trailing carriage return, a key
with `=`, with a leading blank, starting with `#` or holding a newline, and a value of
65536 bytes. -/
theorem FormatEnv_roundtrip_counterexample :
    (¬ ∀ (tbl : Nat → Bool) (s : GoMap GoString), (∀ k ∈ s.keys, k ≠ []) →
      (∀ e ∈ s.entries, (0x0A : Byte) ∉ e.2) →
      ∀ k, (ParseEnvBytes (FormatEnv tbl s)).get? k = s.get? k) ∧
    (ParseEnvBytes (FormatEnv (fun _ => true) (GoMap.ofList [(str "A", str "a\"b")]))).entries
      = [(str "A", str "a\\\"b")] ∧
    (ParseEnvBytes (FormatEnv (fun _ => true) (GoMap.ofList [(str "A", str "a\tb")]))).entries
      = [(str "A", str "a\\tb")] ∧
    (ParseEnvBytes (FormatEnv (fun _ => true) (GoMap.ofList [(str "A", str "x\r")]))).entries
      = [(str "A", str "x")] ∧
    (ParseEnvBytes (FormatEnv (fun _ => true) (GoMap.ofList [(str "A=B", str "1")]))).entries
      = [(str "A", str "B=1")] ∧
    (ParseEnvBytes (FormatEnv (fun _ => true) (GoMap.ofList [(str " A", str "1")]))).entries
      = [(str "A", str "1")] ∧
    (ParseEnvBytes (FormatEnv (fun _ => true) (GoMap.ofList [(str "#A", str "1")]))).entries
      = [] ∧
    (ParseEnvBytes (FormatEnv (fun _ => true) (GoMap.ofList [(str "A\nB", str "1")]))).entries
      = [(str "B", str "1")] ∧
    (ParseEnvBytes (FormatEnv (fun _ => true)
      (GoMap.ofList [([0x41], List.replicate MaxScanTokenSize 0x78)]))).get? [0x41] = none := by
  refine ⟨fun h => ?_, by decide, by decide, by decide, by decide, by decide, by decide,
    by decide, long_value_lost _ _ (fun _ hb => List.eq_of_mem_replicate hb)
      (le_of_eq (List.length_replicate _ _).symm)⟩
  have h1 := h (fun _ => true) (GoMap.ofList [(str "A", str "a\"b")]) (by decide) (by decide)
    (str "A")
  revert h1
  decide

/-- C4 (amended): round trip on the snapshots the format can carry. Let every key be
non-empty, without surrounding white space, without `=` or newline, and not starting with
`#`; let every value that needs quoting be one in which `%q` escapes nothing, that is the
UTF-8 encoding of its own characters, each of them printable (`strconv.IsPrint`) and
neither `"` nor `\`, and every value that needs no quoting have no surrounding white space;
let every written line be shorter than 65536 bytes. Then `ParseEnvBytes (FormatEnv s)` has
the same keys and the same values as `s`. -/
theorem FormatEnv_roundtrip (tbl : Nat → Bool) (s : GoMap GoString)
    (h : ∀ e ∈ s.entries,
      (e.1 ≠ [] ∧ TrimSpace e.1 = e.1 ∧ (0x3D : Byte) ∉ e.1 ∧ (0x0A : Byte) ∉ e.1 ∧
        e.1.head? ≠ some 0x23) ∧
      (needsQuoting e.2 = true →
        (runes e.2).flatMap encodeRune = e.2 ∧
        ∀ r ∈ runes e.2, IsPrint tbl r = true ∧ r ≠ 0x22 ∧ r ≠ 0x5C) ∧
      (needsQuoting e.2 = false → TrimSpace e.2 = e.2) ∧
      e.1.length + 1 + (formatValue tbl e.2).length < MaxScanTokenSize)
    (k : GoString) : (ParseEnvBytes (FormatEnv tbl s)).get? k = s.get? k := by
  apply ParseEnvBytes_FormatEnv
  · intro x hx
    obtain ⟨e, he, rfl⟩ := List.mem_map.mp hx
    exact (h e he).1
  · intro x v hv
    have hx := (h (x, v) (lookupEntry_mem x v _ hv)).2
    exact ⟨fun hq => Quote_verbatim tbl v (hx.1 hq).1 (hx.1 hq).2, hx.2⟩

set_option maxRecDepth 100000 in
theorem FormatEnv_roundtrip_witness :
    (ParseEnvBytes (FormatEnv (fun _ => false)
      (GoMap.ofList [(str "B", str "it's é b"), (str "A", str "x=1"), (str "C", str "")]))).get?
        (str "B") =
      (GoMap.ofList [(str "B", str "it's é b"), (str "A", str "x=1"), (str "C", str "")]).get?
        (str "B") :=
  FormatEnv_roundtrip (fun _ => false)
    (GoMap.ofList [(str "B", str "it's é b"), (str "A", str "x=1"), (str "C", str "")])
    (by decide) (str "B")

theorem count_newline_flatMap {α : Type} (f : α → GoString) (l : List α)
    (h : ∀ x ∈ l, (0x0A : Byte) ∉ f x) :
    (l.flatMap (fun x => f x ++ [0x0A])).count 0x0A = l.length := by
  induction l with
  | nil => rfl
  | cons a t ih =>
    rw [List.flatMap_cons, List.count_append, List.count_append,
      ih (fun x hx => h x (by simp [hx])), List.count_eq_zero_of_not_mem (h a (by simp))]
    simp [Nat.add_comm]

theorem FormatEnv_count_newline (tbl : Nat → Bool) (s : GoMap GoString)
    (h : ∀ k ∈ s.keys, (0x0A : Byte) ∉ k) : (FormatEnv tbl s).count 0x0A = s.len := by
  have hfun : formatEntry tbl s =
      fun x => (x ++ 0x3D :: formatValue tbl ((s.get? x).getD [])) ++ [0x0A] := by
    funext x
    exact formatEntry_eq tbl s x
  rw [FormatEnv_eq_flatMap, hfun, count_newline_flatMap, (sortStrings_perm _).length_eq]
  · simp [GoMap.keys, GoMap.len]
  · intro x hx
    rw [List.mem_append, List.mem_cons, not_or, not_or]
    exact ⟨h x ((mem_sortStrings _ _).mp hx), by decide, formatValue_no_newline tbl _⟩

theorem FormatEnv_trailing_newline (tbl : Nat → Bool) (s : GoMap GoString)
    (h : s.keys ≠ []) :
    ∃ body, FormatEnv tbl s = body ++ [0x0A] ∧ body.getLast? ≠ some 0x0A := by
  have hne : sortStrings s.keys ≠ [] := by
    intro h0
    have := (sortStrings_perm s.keys).length_eq
    rw [h0] at this
    exact h (List.length_eq_zero.mp this.symm)
  rcases List.eq_nil_or_concat (sortStrings s.keys) with h0 | ⟨init, last, hl⟩
  · exact absurd h0 hne
  · rw [FormatEnv_eq_flatMap, hl, List.concat_eq_append, List.flatMap_append]
    simp only [List.flatMap_cons, List.flatMap_nil, List.append_nil]
    rw [formatEntry_eq, ← List.append_assoc]
    refine ⟨_, rfl, ?_⟩
    rw [List.getLast?_append, List.getLast?_append]
    cases hg : (0x3D :: formatValue tbl ((s.get? last).getD []) : GoString).getLast? with
    | none => simp at hg
    | some y =>
      have hmem := List.mem_of_getLast?_eq_some hg
      simp only [Option.or]
      intro hh
      simp only [Option.some.injEq] at hh
      subst hh
      rw [List.mem_cons] at hmem
      rcases hmem with hm | hm
      · exact absurd hm (by decide)
      · exact formatValue_no_newline tbl _ hm


/-- C9 (as stated) fails in two places: the empty snapshot is written as the empty output,
which has no trailing newline, and a key that contains a newline spreads its entry over two
physical lines (one key, two newline characters). -/
theorem FormatEnv_lines_counterexample :
    (¬ ∀ (tbl : Nat → Bool) (s : GoMap GoString),
      ∃ body, FormatEnv tbl s = body ++ [0x0A]) ∧
    (¬ ∀ (tbl : Nat → Bool) (s : GoMap GoString), (FormatEnv tbl s).count 0x0A = s.len) ∧
    FormatEnv (fun _ => true) GoMap.empty = [] ∧
    FormatEnv (fun _ => true) (GoMap.ofList [(str "A\nB", str "1")]) = str "A\nB=1\n" := by
  refine ⟨fun h => ?_, fun h => ?_, by decide, by decide⟩
  · obtain ⟨body, hb⟩ := h (fun _ => true) GoMap.empty
    have h0 : FormatEnv (fun _ => true) GoMap.empty = [] := by decide
    rw [h0] at hb
    simp at hb
  · have h1 := h (fun _ => true) (GoMap.ofList [(str "A\nB", str "1")])
    revert h1
    decide

/-- C9 (amended): for every snapshot `s`, the output of `FormatEnv` is the concatenation of
the lines `key=value` and a newline, one per key, the keys in strictly ascending
lexicographic order, each key once. If no key contains a newline, the output has exactly
one newline per key, so each entry is one physical line. The output of a non-empty snapshot
ends with exactly one newline; the output of the empty snapshot is empty. The output is
determined by the mapping alone: two maps with the same lookups have the same output. -/
theorem FormatEnv_lines (tbl : Nat → Bool) (s t : GoMap GoString) :
    FormatEnv tbl s = (sortStrings s.keys).flatMap
      (fun k => (k ++ 0x3D :: formatValue tbl ((s.get? k).getD [])) ++ [0x0A]) ∧
    (sortStrings s.keys).Sorted (· < ·) ∧
    (sortStrings s.keys).Perm s.keys ∧
    ((∀ k ∈ s.keys, (0x0A : Byte) ∉ k) → (FormatEnv tbl s).count 0x0A = s.len) ∧
    (s.keys ≠ [] → ∃ body, FormatEnv tbl s = body ++ [0x0A] ∧ body.getLast? ≠ some 0x0A) ∧
    (s.keys = [] → FormatEnv tbl s = []) ∧
    ((∀ k, s.get? k = t.get? k) → FormatEnv tbl s = FormatEnv tbl t) := by
  refine ⟨?_, sortStrings_strict _ s.keys_nodup, sortStrings_perm _,
    FormatEnv_count_newline tbl s, FormatEnv_trailing_newline tbl s, ?_,
    FormatEnv_congr tbl s t⟩
  · rw [FormatEnv_eq_flatMap]
    congr 1
    funext k
    exact formatEntry_eq tbl s k
  · intro h
    rw [FormatEnv_eq_flatMap, h]
    rfl

set_option maxRecDepth 100000 in
theorem FormatEnv_lines_witness :
    (FormatEnv (fun _ => true) (GoMap.ofList [(str "B", str "x y"), (str "A", str "1")])).count
        0x0A = (GoMap.ofList [(str "B", str "x y"), (str "A", str "1")]).len ∧
    (∃ body, FormatEnv (fun _ => true)
        (GoMap.ofList [(str "B", str "x y"), (str "A", str "1")]) = body ++ [0x0A] ∧
      body.getLast? ≠ some 0x0A) ∧
    FormatEnv (fun _ => true) (GoMap.ofList [(str "B", str "x y"), (str "A", str "1")]) =
      FormatEnv (fun _ => true) (GoMap.ofList [(str "A", str "1"), (str "B", str "x y")]) ∧
    FormatEnv (fun _ => true) (GoMap.ofList [(str "B", str "x y"), (str "A", str "1")]) =
      str "A=1\nB=\"x y\"\n" :=
  have h := FormatEnv_lines (fun _ => true)
    (GoMap.ofList [(str "B", str "x y"), (str "A", str "1")])
    (GoMap.ofList [(str "A", str "1"), (str "B", str "x y")])
  ⟨h.2.2.2.1 (by decide), h.2.2.2.2.1 (by decide),
    h.2.2.2.2.2.2 (fun k => by
      show lookupEntry k [(str "A", str "1"), (str "B", str "x y")] =
        lookupEntry k [(str "B", str "x y"), (str "A", str "1")]
      simp only [lookupEntry]
      by_cases h1 : str "A" = k
      · have h2 : ¬ str "B" = k := by rw [← h1]; decide
        rw [if_pos h1, if_neg h2, if_pos h1]
      · rw [if_neg h1, if_neg h1]),
    by decide⟩

set_option maxRecDepth 100000 in
/-- C10 (as stated) fails in its last part: a quoted value whose only characters from the
quoting list are spaces is not always embedded verbatim. `%q` escapes every non-printable
character, so `a`, space, carriage return, `b` is written as `"a \rb"` with the two
characters backslash and `r`. -/
theorem formatValue_counterexample :
    (¬ ∀ (tbl : Nat → Bool) (v : GoString),
      (∃ b ∈ v, b = 0x20 ∨ b = 0x09 ∨ b = 0x22 ∨ b = 0x27 ∨ b = 0x5C ∨ b = 0x0A) →
      (∀ b ∈ v, (b = 0x20 ∨ b = 0x09 ∨ b = 0x22 ∨ b = 0x27 ∨ b = 0x5C ∨ b = 0x0A) →
        (b = 0x20 ∨ b = 0x27)) →
      formatValue tbl v = 0x22 :: v ++ [0x22]) ∧
    formatValue (fun _ => true) (str "a \rb") = str "\"a \\rb\"" := by
  refine ⟨fun h => ?_, by decide⟩
  have h1 := h (fun _ => true) (str "a \rb") (by decide) (by decide)
  revert h1
  decide

/-- C10 (amended): `FormatEnv` writes a value wrapped in double quotes if and only if the
value contains a space, a tab, a double quote, a single quote, a backslash or a newline; a
value with none of these (the empty value included) is written after the `=` unquoted and
unchanged; a quoted value has its content embedded verbatim between the two double quotes
exactly when `%q` escapes nothing in it, that is when the value is the UTF-8 encoding of
its own characters and each of them is printable (`strconv.IsPrint`) and neither `"` nor
`\`, as in every quoted value of printable ASCII characters other than these two. -/
theorem formatValue_quoting (tbl : Nat → Bool) (s : GoMap GoString) (k v : GoString) :
    ((∃ body, formatValue tbl v = 0x22 :: body ++ [0x22]) ↔
      (∃ b ∈ v, b = 0x20 ∨ b = 0x09 ∨ b = 0x22 ∨ b = 0x27 ∨ b = 0x5C ∨ b = 0x0A)) ∧
    ((¬ ∃ b ∈ v, b = 0x20 ∨ b = 0x09 ∨ b = 0x22 ∨ b = 0x27 ∨ b = 0x5C ∨ b = 0x0A) →
      formatValue tbl v = v) ∧
    ((∃ b ∈ v, b = 0x20 ∨ b = 0x09 ∨ b = 0x22 ∨ b = 0x27 ∨ b = 0x5C ∨ b = 0x0A) →
      (formatValue tbl v = 0x22 :: v ++ [0x22] ↔
        ((runes v).flatMap encodeRune = v ∧
          ∀ r ∈ runes v, IsPrint tbl r = true ∧ r ≠ 0x22 ∧ r ≠ 0x5C))) ∧
    ((∃ b ∈ v, b = 0x20 ∨ b = 0x09 ∨ b = 0x22 ∨ b = 0x27 ∨ b = 0x5C ∨ b = 0x0A) →
      (∀ b ∈ v, 0x20 ≤ b.val ∧ b.val ≤ 0x7E ∧ b.val ≠ 0x22 ∧ b.val ≠ 0x5C) →
      formatValue tbl v = 0x22 :: v ++ [0x22]) ∧
    formatValue tbl [] = [] ∧
    formatEntry tbl s k = k ++ str "=" ++ formatValue tbl ((s.get? k).getD []) ++ str "\n" := by
  refine ⟨⟨?_, ?_⟩, ?_, ?_, ?_, ?_, ?_⟩
  rotate_left 5
  · simp [formatValue, needsQuoting]
  · unfold formatEntry
    rfl
  · rintro ⟨body, hb⟩
    by_contra hn
    have hq : needsQuoting v = false := by
      rw [← Bool.not_eq_true, needsQuoting_iff]
      exact hn
    unfold formatValue at hb
    rw [hq] at hb
    simp only [Bool.false_eq_true, if_false] at hb
    exact hn ⟨0x22, by rw [hb]; simp, by simp⟩
  · intro h
    have hq := (needsQuoting_iff v).mpr h
    unfold formatValue
    rw [if_pos hq]
    exact ⟨_, rfl⟩
  · intro h
    have hq : ¬ needsQuoting v = true := by
      rw [needsQuoting_iff]
      exact h
    unfold formatValue
    rw [if_neg hq]
  · intro h
    have hq := (needsQuoting_iff v).mpr h
    unfold formatValue
    rw [if_pos hq]
    exact Quote_eq_iff tbl v
  · intro h hp
    have hq := (needsQuoting_iff v).mpr h
    unfold formatValue
    rw [if_pos hq, Quote_plain tbl v hp]

set_option maxRecDepth 100000 in
theorem formatValue_quoting_witness :
    formatValue (fun _ => false) (str "it's é b") = 0x22 :: str "it's é b" ++ [0x22] ∧
    formatValue (fun _ => true) (str "it's a b") = 0x22 :: str "it's a b" ++ [0x22] ∧
    formatValue (fun _ => true) (str "x=1") = str "x=1" :=
  ⟨((formatValue_quoting (fun _ => false) GoMap.empty [] (str "it's é b")).2.2.1
      (by decide)).mpr (by decide),
    (formatValue_quoting (fun _ => true) GoMap.empty [] (str "it's a b")).2.2.2.1 (by decide)
      (by decide),
    (formatValue_quoting (fun _ => true) GoMap.empty [] (str "x=1")).2.1 (by decide)⟩

/-! ### unquote -/

theorem slice_one_dropLast (v : GoString) : slice v 1 (v.length - 1) = (v.drop 1).dropLast := by
  unfold slice
  rw [← List.dropLast_eq_take]
  induction v with
  | nil => rfl
  | cons a t ih =>
    cases t with
    | nil => rfl
    | cons b t' => simp [List.dropLast]

/-- C7: unquoting strips exactly one outer pair. If `v` has at least two bytes and its first
and last bytes are both `"` or both `'`, `unquote v` is `v` without these two bytes; otherwise
it is `v` unchanged. Nothing inside is interpreted, trimmed or unquoted again: `""a""` gives
`"a"`, and a backslash escape stays as written. -/
theorem unquote_strips_one_pair :
    (∀ v : GoString, unquote v =
      if 2 ≤ v.length ∧ ((v.head? = some 0x22 ∧ v.getLast? = some 0x22) ∨
          (v.head? = some 0x27 ∧ v.getLast? = some 0x27))
      then (v.drop 1).dropLast else v) ∧
    unquote (str "\"\"a\"\"") = str "\"a\"" ∧
    unquote (str "'a b'") = str "a b" ∧
    unquote (str "\"a\\\"b\"") = str "a\\\"b" ∧
    unquote (str "\" a \"") = str " a " ∧
    unquote (str "\"") = str "\"" ∧
    unquote (str "\"a'") = str "\"a'" ∧
    (ParseEnvBytes (str "K=\"\"a\"\"\n")).entries = [(str "K", str "\"a\"")] := by
  refine ⟨fun v => ?_, by decide, by decide, by decide, by decide, by decide, by decide, by decide⟩
  unfold unquote
  rw [slice_one_dropLast]
  by_cases h2 : 2 ≤ v.length
  · by_cases hd : v.head? = some 0x22 ∧ v.getLast? = some 0x22
    · simp [h2, hd]
    · by_cases hs : v.head? = some 0x27 ∧ v.getLast? = some 0x27
      · simp [h2, hd, hs]
      · simp [h2, hd, hs]
  · simp [h2]

/-! ### FormatDiff -/

theorem GoMap.len_pos_iff {V : Type} (m : GoMap V) : m.len > 0 ↔ m.keys ≠ [] := by
  unfold GoMap.len GoMap.keys
  rw [gt_iff_lt, List.length_pos, ne_eq, ne_eq, List.map_eq_nil_iff]

theorem GoMap.keys_ne_nil_iff {V : Type} (m : GoMap V) :
    m.keys ≠ [] ↔ ∃ k, m.get? k ≠ none := by
  constructor
  · intro h
    obtain ⟨k, hk⟩ := List.exists_mem_of_ne_nil _ h
    exact ⟨k, (GoMap.mem_keys_iff m k).mp hk⟩
  · rintro ⟨k, hk⟩
    exact List.ne_nil_of_mem ((GoMap.mem_keys_iff m k).mpr hk)

theorem HasChanges_iff_keys (d : DiffResult) :
    HasChanges d = true ↔ (d.Added.keys ≠ [] ∨ d.Removed.keys ≠ [] ∨ d.Modified.keys ≠ []) := by
  unfold HasChanges
  simp only [Bool.or_eq_true, decide_eq_true_eq, GoMap.len_pos_iff, or_assoc]

theorem section_eq (m_len : Nat) (keys sorted : List GoString) (header : GoString)
    (line : GoString → GoString) (builder : GoString) (hlen : m_len > 0 ↔ keys ≠ []) :
    (if m_len > 0 then sorted.foldl (fun b key => b ++ line key) (builder ++ header)
      else builder) =
      builder ++ (if keys = [] then [] else header ++ sorted.flatMap line) := by
  by_cases h : keys = []
  · rw [if_neg (fun hh => (hlen.mp hh) h), if_pos h, List.append_nil]
  · rw [if_pos (hlen.mpr h), if_neg h, foldl_append_eq_flatMap, List.append_assoc]

theorem FormatDiff_eq (d : DiffResult) (h : HasChanges d = true) :
    FormatDiff d =
      (if d.Added.keys = [] then []
        else str "\n+ Added (in remote, not in local):\n" ++
          (sortStrings d.Added.keys).flatMap (addedLine d)) ++
      (if d.Removed.keys = [] then []
        else str "\n- Removed (in local, not in remote):\n" ++
          (sortStrings d.Removed.keys).flatMap (removedLine d)) ++
      (if d.Modified.keys = [] then []
        else str "\n~ Modified:\n" ++ (sortStrings d.Modified.keys).flatMap (modifiedLines d)) := by
  unfold FormatDiff sortedKeys
  rw [h]
  simp only [Bool.not_true, Bool.false_eq_true, if_false]
  rw [section_eq d.Added.len d.Added.keys _ _ (addedLine d) [] (GoMap.len_pos_iff _),
    section_eq d.Removed.len d.Removed.keys _ _ (removedLine d) _ (GoMap.len_pos_iff _),
    section_eq d.Modified.len d.Modified.keys _ _ (modifiedLines d) _ (GoMap.len_pos_iff _)]
  rw [List.nil_append]

theorem FormatDiff_no_changes (d : DiffResult) (h : HasChanges d = false) :
    FormatDiff d = str "No differences found.\n" := by
  unfold FormatDiff
  rw [h]
  rfl


/-- C16: for a `DiffResult` with at least one change, the output of `FormatDiff` is the
section of `Added`, then the section of `Removed`, then the section of `Modified`; the
section of an empty partition is omitted entirely, header included; a section is its header
followed by one entry per key of the partition, the keys in strictly ascending
lexicographic order, each key once. -/
theorem FormatDiff_sections (d : DiffResult) (h : HasChanges d = true) :
    FormatDiff d =
      (if d.Added.keys = [] then []
        else str "\n+ Added (in remote, not in local):\n" ++
          (sortStrings d.Added.keys).flatMap (fun key =>
            str "  + " ++ key ++ str "=" ++ truncateValue ((d.Added.get? key).getD []) ++
              str "\n")) ++
      (if d.Removed.keys = [] then []
        else str "\n- Removed (in local, not in remote):\n" ++
          (sortStrings d.Removed.keys).flatMap (fun key =>
            str "  - " ++ key ++ str "=" ++ truncateValue ((d.Removed.get? key).getD []) ++
              str "\n")) ++
      (if d.Modified.keys = [] then []
        else str "\n~ Modified:\n" ++
          (sortStrings d.Modified.keys).flatMap (fun key =>
            (str "  ~ " ++ key ++ str ":\n") ++
            (str "    - " ++ truncateValue ((d.Modified.get? key).getD ⟨[], []⟩).Local ++
              str "\n") ++
            (str "    + " ++ truncateValue ((d.Modified.get? key).getD ⟨[], []⟩).Remote ++
              str "\n"))) ∧
    (sortStrings d.Added.keys).Sorted (· < ·) ∧ (sortStrings d.Added.keys).Perm d.Added.keys ∧
    (sortStrings d.Removed.keys).Sorted (· < ·) ∧
    (sortStrings d.Removed.keys).Perm d.Removed.keys ∧
    (sortStrings d.Modified.keys).Sorted (· < ·) ∧
    (sortStrings d.Modified.keys).Perm d.Modified.keys :=
  ⟨FormatDiff_eq d h, sortStrings_strict _ d.Added.keys_nodup, sortStrings_perm _,
    sortStrings_strict _ d.Removed.keys_nodup, sortStrings_perm _,
    sortStrings_strict _ d.Modified.keys_nodup, sortStrings_perm _⟩

set_option maxRecDepth 100000 in
theorem FormatDiff_sections_witness :
    FormatDiff (CompareEnvs (GoMap.ofList [(str "B", str "2"), (str "A", str "1")])
        (GoMap.ofList [(str "C", str "3")])) =
      str "\n+ Added (in remote, not in local):\n  + C=3\n" ++
        str "\n- Removed (in local, not in remote):\n  - A=1\n  - B=2\n" := by
  rw [(FormatDiff_sections (CompareEnvs (GoMap.ofList [(str "B", str "2"), (str "A", str "1")])
        (GoMap.ofList [(str "C", str "3")])) (by decide)).1]
  decide

theorem runes_length_le (s : GoString) : (runes s).length ≤ s.length := by
  generalize hn : s.length = n
  induction n using Nat.strong_induction_on generalizing s with
  | _ n ih =>
    subst hn
    cases s with
    | nil => simp [runes, runesLoop]
    | cons s0 t =>
      rw [runes_cons, List.length_cons]
      have hw := decode_width s0 t
      have := ih ((s0 :: t).drop (DecodeRuneInString (s0 :: t)).2).length
        (by rw [List.length_drop, List.length_cons]; omega) _ rfl
      rw [List.length_drop, List.length_cons] at this
      rw [List.length_cons]
      omega

theorem truncateValue_eq (s : GoString) :
    truncateValue s = if s.length ≤ 50 then s else s.take 50 ++ str "..." := by
  unfold truncateValue slice
  by_cases h : s.length ≤ 50
  · rw [if_neg (by omega), if_pos h]
  · rw [if_pos (by omega), if_neg h, List.drop_zero]

theorem truncateValue_length (s : GoString) : (truncateValue s).length ≤ 53 := by
  rw [truncateValue_eq]
  have h3 : (str "...").length = 3 := by decide
  split
  · omega
  · rw [List.length_append, List.length_take, h3]
    omega

set_option maxRecDepth 100000 in
/-- C17 (as stated, with characters as Unicode characters) fails: `truncateValue` counts and
cuts bytes. The value of 26 letters `é` has 26 characters and 52 bytes; it is displayed as
its first 50 bytes, 25 letters, and the marker. -/
theorem truncateValue_counterexample :
    (¬ ∀ s : GoString, (runes s).length ≤ 50 → truncateValue s = s) ∧
    (runes (str "éééééééééééééééééééééééééé")).length = 26 ∧
    truncateValue (str "éééééééééééééééééééééééééé") =
      str "ééééééééééééééééééééééééé..." := by
  refine ⟨fun h => ?_, by decide, by decide⟩
  have h1 := h (str "éééééééééééééééééééééééééé") (by decide)
  revert h1
  decide

/-- C17 (amended): every value displayed by `FormatDiff` is truncated to 50 bytes. The
displayed form of `s` is `s` itself when `s` has at most 50 bytes, and otherwise the first
50 bytes of `s` followed by the marker `...`; the decision is made on the raw value, and the
displayed form never exceeds 53 bytes, hence never 53 characters. -/
theorem truncateValue_bytes (s : GoString) :
    truncateValue s = (if s.length ≤ 50 then s else s.take 50 ++ str "...") ∧
    (truncateValue s).length ≤ 53 ∧
    (runes (truncateValue s)).length ≤ 53 :=
  ⟨truncateValue_eq s, truncateValue_length s,
    le_trans (runes_length_le _) (truncateValue_length s)⟩

/-- C18 (as stated) fails: the fixed string `FormatDiff` returns ends with a newline. -/
theorem FormatDiff_empty_counterexample :
    (¬ ∀ d : DiffResult, d.Added.keys = [] → d.Removed.keys = [] → d.Modified.keys = [] →
      FormatDiff d = str "No differences found.") ∧
    FormatDiff ⟨GoMap.empty, GoMap.empty, GoMap.empty, GoMap.empty⟩ =
      str "No differences found.\n" := by
  refine ⟨fun h => ?_, by decide⟩
  have h1 := h ⟨GoMap.empty, GoMap.empty, GoMap.empty, GoMap.empty⟩ rfl rfl rfl
  revert h1
  decide

/-- C18 (amended): for every `DiffResult` whose `Added`, `Removed` and `Modified` are all
empty, whatever `Same` holds, `FormatDiff` returns exactly the fixed string
`No differences found.` followed by one newline. -/
theorem FormatDiff_empty (d : DiffResult) (ha : d.Added.keys = []) (hr : d.Removed.keys = [])
    (hm : d.Modified.keys = []) : FormatDiff d = str "No differences found.\n" := by
  apply FormatDiff_no_changes
  rw [← Bool.not_eq_true, HasChanges_iff_keys]
  simp [ha, hr, hm]

theorem FormatDiff_empty_witness :
    FormatDiff (CompareEnvs (GoMap.ofList [(str "A", str "1")])
      (GoMap.ofList [(str "A", str "1")])) = str "No differences found.\n" :=
  FormatDiff_empty _ (by decide) (by decide) (by decide)

theorem CompareEnvs_changed_iff (L R : GoMap GoString) (k : GoString) :
    ((CompareEnvs L R).Added.get? k ≠ none ∨ (CompareEnvs L R).Removed.get? k ≠ none ∨
      (CompareEnvs L R).Modified.get? k ≠ none) ↔ L.get? k ≠ R.get? k := by
  rw [CompareEnvs_Added, CompareEnvs_Removed, CompareEnvs_Modified]
  cases hl : L.get? k with
  | none => cases hr : R.get? k <;> simp
  | some a =>
    cases hr : R.get? k with
    | none => simp
    | some b => by_cases h : a = b <;> simp [h]

theorem HasChanges_CompareEnvs (L R : GoMap GoString) :
    HasChanges (CompareEnvs L R) = true ↔ ∃ k, L.get? k ≠ R.get? k := by
  rw [HasChanges_iff_keys, GoMap.keys_ne_nil_iff, GoMap.keys_ne_nil_iff, GoMap.keys_ne_nil_iff]
  constructor
  · rintro (⟨k, h⟩ | ⟨k, h⟩ | ⟨k, h⟩)
    · exact ⟨k, (CompareEnvs_changed_iff L R k).mp (Or.inl h)⟩
    · exact ⟨k, (CompareEnvs_changed_iff L R k).mp (Or.inr (Or.inl h))⟩
    · exact ⟨k, (CompareEnvs_changed_iff L R k).mp (Or.inr (Or.inr h))⟩
  · rintro ⟨k, h⟩
    rcases (CompareEnvs_changed_iff L R k).mpr h with h | h | h
    · exact Or.inl ⟨k, h⟩
    · exact Or.inr (Or.inl ⟨k, h⟩)
    · exact Or.inr (Or.inr ⟨k, h⟩)

/-- C19: `CompareEnvs L R` has changes if and only if one of `Added`, `Removed`, `Modified`
is non-empty, which holds if and only if `L` and `R` differ as mappings: some key has
different lookups in `L` and `R` (it is in only one of them, or carries different values).
`CompareEnvs L L` has no changes and its `Same` is `L`. -/
theorem HasChanges_iff_differ (L R : GoMap GoString) :
    (HasChanges (CompareEnvs L R) = true ↔
      ((CompareEnvs L R).Added.keys ≠ [] ∨ (CompareEnvs L R).Removed.keys ≠ [] ∨
        (CompareEnvs L R).Modified.keys ≠ [])) ∧
    (HasChanges (CompareEnvs L R) = true ↔ ∃ k, L.get? k ≠ R.get? k) ∧
    ((∃ k, L.get? k ≠ R.get? k) ↔
      ∃ k, (L.get? k = none ∧ R.get? k ≠ none) ∨ (L.get? k ≠ none ∧ R.get? k = none) ∨
        (∃ a b, L.get? k = some a ∧ R.get? k = some b ∧ a ≠ b)) ∧
    HasChanges (CompareEnvs L L) = false ∧
    (∀ k, (CompareEnvs L L).Same.get? k = L.get? k) := by
  refine ⟨HasChanges_iff_keys _, HasChanges_CompareEnvs L R, ?_, ?_, ?_⟩
  · constructor
    · rintro ⟨k, h⟩
      refine ⟨k, ?_⟩
      cases hl : L.get? k with
      | none =>
        cases hr : R.get? k with
        | none => rw [hl, hr] at h; exact absurd rfl h
        | some b => simp
      | some a =>
        cases hr : R.get? k with
        | none => simp
        | some b =>
          rw [hl, hr] at h
          exact Or.inr (Or.inr ⟨a, b, rfl, rfl, fun hab => h (by rw [hab])⟩)
    · rintro ⟨k, h | h | ⟨a, b, ha, hb, hab⟩⟩
      · exact ⟨k, by rw [h.1]; exact fun hh => h.2 hh.symm⟩
      · exact ⟨k, by rw [h.2]; exact h.1⟩
      · exact ⟨k, by rw [ha, hb]; exact fun hh => hab (Option.some.inj hh)⟩
  · rw [← Bool.not_eq_true, HasChanges_CompareEnvs]
    rintro ⟨k, h⟩
    exact h rfl
  · intro k
    rw [CompareEnvs_Same]
    cases L.get? k <;> simp

/-- C20: for every value `v`, with or without newline characters, the text `FormatEnv`
writes for `v` contains no newline; hence for a snapshot whose keys contain no newline the
output has exactly as many newlines as the snapshot has keys, and the text of each entry
is one physical line: it ends with its only newline. -/
theorem FormatEnv_one_line_per_entry (tbl : Nat → Bool) (s : GoMap GoString) (v : GoString) :
    (0x0A : Byte) ∉ formatValue tbl v ∧
    ((∀ k ∈ s.keys, (0x0A : Byte) ∉ k) →
      (FormatEnv tbl s).count 0x0A = s.len ∧
      ∀ k ∈ s.keys, (formatEntry tbl s k).count 0x0A = 1 ∧
        (formatEntry tbl s k).getLast? = some 0x0A) := by
  refine ⟨formatValue_no_newline tbl v, fun h => ⟨FormatEnv_count_newline tbl s h, ?_⟩⟩
  intro k hk
  rw [formatEntry_eq]
  have hc : (0x0A : Byte) ∉ k ++ 0x3D :: formatValue tbl ((s.get? k).getD []) := by
    rw [List.mem_append, List.mem_cons, not_or, not_or]
    exact ⟨h k hk, by decide, formatValue_no_newline tbl _⟩
  refine ⟨?_, List.getLast?_concat _⟩
  rw [List.count_append, List.count_eq_zero_of_not_mem hc]
  rfl

set_option maxRecDepth 100000 in
theorem FormatEnv_one_line_per_entry_witness :
    (FormatEnv (fun _ => true) (GoMap.ofList [(str "A", str "x\ny"), (str "B", str "1")])).count
        0x0A = 2 ∧
    FormatEnv (fun _ => true) (GoMap.ofList [(str "A", str "x\ny"), (str "B", str "1")]) =
      str "A=\"x\\ny\"\nB=1\n" :=
  ⟨((FormatEnv_one_line_per_entry (fun _ => true)
      (GoMap.ofList [(str "A", str "x\ny"), (str "B", str "1")]) []).2 (by decide)).1,
    by decide⟩

/-! ### Resolution of source and environment -/

theorem resolveSource_cons (arg : GoString) (rest : List GoString) (cache : Cache) :
    resolveSource (arg :: rest) cache = .ok arg := rfl

theorem resolveSource_nil (cache : Cache) :
    resolveSource [] cache =
      if cache.LastSource = [] then .error .noSource else .ok cache.LastSource := by
  unfold resolveSource
  by_cases h : cache.LastSource = []
  · simp [h]
  · simp [h]

theorem resolveEnv_of_ne (envName : GoString) (cache : Cache) (sourceName : GoString)
    (h : cache.LastSource ≠ sourceName) : resolveEnv envName cache sourceName = envName := by
  unfold resolveEnv
  rw [if_neg (fun hh => h hh.2.2)]

theorem resolveEnv_default (cache : Cache) (sourceName : GoString)
    (h : cache.LastSource = sourceName) :
    resolveEnv (str "default") cache sourceName =
      if cache.LastEnv = [] then str "default" else cache.LastEnv := by
  unfold resolveEnv
  by_cases he : cache.LastEnv = []
  · simp [he]
  · simp [he, h]

/-- C11: source resolution is a one-pass decision on the positional arguments and the cache.
A positional argument is the resolved source whatever the cache holds; without one the
resolved source is `cache.LastSource` when that is non-empty, and the resolution fails with
the no-source error otherwise. It fails exactly when there is no argument and
`cache.LastSource` is empty; a failure carries no source name, and a source taken from the
cache is never the empty string. -/
theorem resolveSource_decision :
    (∀ (arg : GoString) (rest : List GoString) (cache : Cache),
      resolveSource (arg :: rest) cache = .ok arg) ∧
    (∀ cache : Cache, resolveSource [] cache =
      if cache.LastSource = [] then .error .noSource else .ok cache.LastSource) ∧
    (∀ (args : List GoString) (cache : Cache),
      resolveSource args cache = .error .noSource ↔ (args = [] ∧ cache.LastSource = [])) ∧
    (∀ (args : List GoString) (cache : Cache),
      (∃ s, resolveSource args cache = .ok s) ↔ ¬ (args = [] ∧ cache.LastSource = [])) ∧
    (∀ (cache : Cache) (s : GoString), resolveSource [] cache = .ok s ↔
      (s = cache.LastSource ∧ s ≠ [])) ∧
    (∀ (args : List GoString) (envFlag : Option GoString) (cache : Cache),
      runPullTarget args envFlag cache = .error .noSource ↔
        (args = [] ∧ cache.LastSource = [])) := by
  refine ⟨resolveSource_cons, resolveSource_nil, ?_, ?_, ?_, ?_⟩
  · intro args cache
    cases args with
    | nil =>
      rw [resolveSource_nil]
      by_cases h : cache.LastSource = [] <;> simp [h]
    | cons a t => simp [resolveSource_cons]
  · intro args cache
    cases args with
    | nil =>
      rw [resolveSource_nil]
      by_cases h : cache.LastSource = [] <;> simp [h]
    | cons a t => simp [resolveSource_cons]
  · intro cache s
    rw [resolveSource_nil]
    by_cases h : cache.LastSource = []
    · simp only [h, if_true]
      constructor
      · intro hh; exact absurd hh (by simp)
      · rintro ⟨h1, h2⟩; exact absurd h1 h2
    · simp only [h, if_false, Except.ok.injEq]
      constructor
      · intro hh; rw [← hh]; exact ⟨rfl, h⟩
      · rintro ⟨h1, _⟩; exact h1.symm
  · intro args envFlag cache
    unfold runPullTarget
    cases args with
    | nil =>
      rw [resolveSource_nil]
      by_cases h : cache.LastSource = [] <;> simp [h]
    | cons a t => simp [resolveSource_cons]

/-- C12: a source mismatch blocks the inheritance of the environment. When
`cache.LastSource` differs from the resolved source `s`, the resolved environment is the
value of the `--env` flag, the literal `default` when the flag is not given, whatever
`cache.LastEnv` is. -/
theorem resolveEnv_mismatch (s : GoString) (envFlag : Option GoString) (cache : Cache)
    (h : cache.LastSource ≠ s) :
    resolveEnv (envFlagValue envFlag) cache s = envFlagValue envFlag ∧
    envFlagValue none = str "default" ∧
    (∀ rest, runPullTarget (s :: rest) envFlag cache = .ok (s, envFlagValue envFlag)) :=
  ⟨resolveEnv_of_ne _ cache s h, rfl, fun rest => by
    unfold runPullTarget
    rw [resolveSource_cons]
    simp only [resolveEnv_of_ne _ cache s h]⟩

theorem resolveEnv_mismatch_witness :
    resolveEnv (envFlagValue none) ⟨str "alice", str "prod"⟩ (str "simon") = str "default" ∧
    runPullTarget [str "simon"] none ⟨str "alice", str "prod"⟩ =
      .ok (str "simon", str "default") :=
  have h := resolveEnv_mismatch (str "simon") none ⟨str "alice", str "prod"⟩ (by decide)
  ⟨h.1, h.2.2 []⟩

/-- C13: a matching source inherits the cached environment. For a source `s` given as the
positional argument, or taken from the cache, and a cache with `LastSource = s`, an
invocation without `--env` resolves to `(s, cache.LastEnv)` when `cache.LastEnv` is
non-empty and to `(s, default)` when it is empty. -/
theorem runPullTarget_inherits (s : GoString) (cache : Cache) (h : cache.LastSource = s) :
    (∀ rest, runPullTarget (s :: rest) none cache =
      .ok (s, if cache.LastEnv = [] then str "default" else cache.LastEnv)) ∧
    (s ≠ [] → runPullTarget [] none cache =
      .ok (s, if cache.LastEnv = [] then str "default" else cache.LastEnv)) := by
  constructor
  · intro rest
    unfold runPullTarget
    rw [resolveSource_cons]
    show Except.ok (s, resolveEnv (str "default") cache s) = _
    rw [resolveEnv_default cache s h]
  · intro hs
    unfold runPullTarget
    rw [resolveSource_nil, h, if_neg hs]
    show Except.ok (s, resolveEnv (str "default") cache s) = _
    rw [resolveEnv_default cache s h]

theorem runPullTarget_inherits_witness :
    runPullTarget [str "simon"] none ⟨str "simon", str "prod"⟩ = .ok (str "simon", str "prod") ∧
    runPullTarget [] none ⟨str "simon", str "prod"⟩ = .ok (str "simon", str "prod") ∧
    runPullTarget [str "simon"] none ⟨str "simon", []⟩ = .ok (str "simon", str "default") :=
  ⟨(runPullTarget_inherits (str "simon") ⟨str "simon", str "prod"⟩ rfl).1 [],
    (runPullTarget_inherits (str "simon") ⟨str "simon", str "prod"⟩ rfl).2 (by decide),
    (runPullTarget_inherits (str "simon") ⟨str "simon", []⟩ rfl).1 []⟩

theorem runPushTarget_eq (args : List GoString) (envFlag : Option GoString) (cache : Cache) :
    runPushTarget args envFlag cache = runPullTarget args envFlag cache := by
  unfold runPushTarget runPullTarget resolveSource resolveEnv
  cases args with
  | cons a t => rfl
  | nil =>
    by_cases h : cache.LastSource = []
    · simp [h]
    · simp [h]

theorem runPullTarget_explicit (args : List GoString) (e : GoString) (cache : Cache)
    (he : e ≠ str "default") :
    runPullTarget args (some e) cache = (resolveSource args cache).map (fun s => (s, e)) := by
  unfold runPullTarget
  cases resolveSource args cache with
  | error err => rfl
  | ok s =>
    show Except.ok (s, resolveEnv e cache s) = Except.ok (s, e)
    unfold resolveEnv
    rw [if_neg (fun hh => he hh.1)]

/-- C14 (as stated) fails for the name `default`: the flag value `default` is the mark of a
missing flag, so with the cache `(simon, prod)` the command line `pull simon --env default`
(and `push simon --env default`) resolves to the environment `prod`, as the command line
without the flag does. -/
theorem explicit_env_counterexample :
    (¬ ∀ (e s : GoString) (cache : Cache), resolveEnv (envFlagValue (some e)) cache s = e) ∧
    runPullTarget [str "simon"] (some (str "default")) ⟨str "simon", str "prod"⟩ =
      .ok (str "simon", str "prod") ∧
    runPushTarget [str "simon"] (some (str "default")) ⟨str "simon", str "prod"⟩ =
      .ok (str "simon", str "prod") ∧
    runPullTarget [str "simon"] none ⟨str "simon", str "prod"⟩ =
      .ok (str "simon", str "prod") := by
  refine ⟨fun h => ?_, by decide, by decide, by decide⟩
  have h1 := h (str "default") (str "simon") ⟨str "simon", str "prod"⟩
  revert h1
  decide

/-- C14 (amended): an environment name other than the literal `default` that is passed with
`--env` has priority over the cache: for every such name `e`, every source and every cache
state, `runPull` and `runPush` resolve the environment `e`. The cached `LastEnv` replaces
the flag value only when that value is `default`, given or not. -/
theorem explicit_env_priority (e : GoString) (he : e ≠ str "default") (args : List GoString)
    (cache : Cache) :
    (∀ s, resolveEnv (envFlagValue (some e)) cache s = e) ∧
    runPullTarget args (some e) cache = (resolveSource args cache).map (fun s => (s, e)) ∧
    runPushTarget args (some e) cache = (resolveSource args cache).map (fun s => (s, e)) ∧
    (∀ (envFlag : Option GoString) (s : GoString),
      resolveEnv (envFlagValue envFlag) cache s = envFlagValue envFlag ∨
      (envFlagValue envFlag = str "default" ∧
        resolveEnv (envFlagValue envFlag) cache s = cache.LastEnv)) := by
  refine ⟨fun s => ?_, runPullTarget_explicit args e cache he, ?_, fun envFlag s => ?_⟩
  · show resolveEnv e cache s = e
    unfold resolveEnv
    rw [if_neg (fun hh => he hh.1)]
  · rw [runPushTarget_eq]
    exact runPullTarget_explicit args e cache he
  · unfold resolveEnv
    by_cases hc : envFlagValue envFlag = str "default" ∧ cache.LastEnv ≠ [] ∧
        cache.LastSource = s
    · rw [if_pos hc]
      exact Or.inr ⟨hc.1, rfl⟩
    · rw [if_neg hc]
      exact Or.inl rfl

theorem explicit_env_priority_witness :
    runPullTarget [str "simon"] (some (str "develop")) ⟨str "simon", str "prod"⟩ =
      .ok (str "simon", str "develop") ∧
    runPushTarget [] (some (str "develop")) ⟨str "simon", str "prod"⟩ =
      .ok (str "simon", str "develop") :=
  ⟨(explicit_env_priority (str "develop") (by decide) [str "simon"]
      ⟨str "simon", str "prod"⟩).2.1,
    (explicit_env_priority (str "develop") (by decide) [] ⟨str "simon", str "prod"⟩).2.2.1⟩

/-- C15: `UpdateCache` on a prior state overwrites each field independently: `LastSource`
becomes `source` when `source` is non-empty and is kept otherwise, `LastEnv` becomes `env`
when `env` is non-empty and is kept otherwise. When the prior state cannot be loaded the
update starts from the empty state. -/
theorem UpdateCache_fields (prior : Cache) (source env : GoString) :
    (UpdateCache (some prior) source env).LastSource =
      (if source = [] then prior.LastSource else source) ∧
    (UpdateCache (some prior) source env).LastEnv =
      (if env = [] then prior.LastEnv else env) ∧
    UpdateCache (some prior) [] [] = prior ∧
    UpdateCache none source env = UpdateCache (some ⟨[], []⟩) source env := by
  unfold UpdateCache
  by_cases hs : source = [] <;> by_cases he : env = [] <;> simp [hs, he]

/-! ### Prefixes and suffixes -/

theorem HasPrefix_iff (s pre : GoString) : HasPrefix s pre = true ↔ pre <+: s := by
  unfold HasPrefix
  rw [decide_eq_true_iff, List.prefix_iff_eq_take]
  exact eq_comm

theorem HasSuffix_iff (s suf : GoString) : HasSuffix s suf = true ↔ suf <:+ s := by
  unfold HasSuffix
  rw [decide_eq_true_iff, List.suffix_iff_eq_drop]
  constructor
  · rintro ⟨_, h⟩
    exact h.symm
  · intro h
    refine ⟨?_, h.symm⟩
    have := congrArg List.length h
    rw [List.length_drop] at this
    omega

theorem TrimPrefix_append (pre x : GoString) : TrimPrefix (pre ++ x) pre = x := by
  unfold TrimPrefix
  rw [if_pos ((HasPrefix_iff _ _).mpr (List.prefix_append pre x)), List.drop_left]

theorem TrimPrefix_of_not (s pre : GoString) (h : ¬ pre <+: s) : TrimPrefix s pre = s := by
  unfold TrimPrefix
  rw [if_neg (fun hh => h ((HasPrefix_iff _ _).mp hh))]

theorem TrimSuffix_append (x suf : GoString) : TrimSuffix (x ++ suf) suf = x := by
  unfold TrimSuffix
  rw [if_pos ((HasSuffix_iff _ _).mpr (List.suffix_append x suf)), List.length_append,
    Nat.add_sub_cancel, List.take_left]

theorem TrimSuffix_of_not (s suf : GoString) (h : ¬ suf <:+ s) : TrimSuffix s suf = s := by
  unfold TrimSuffix
  rw [if_neg (fun hh => h ((HasSuffix_iff _ _).mp hh))]

theorem TrimSuffix_cases (s suf : GoString) :
    (∃ x, s = x ++ suf ∧ TrimSuffix s suf = x) ∨ (¬ suf <:+ s ∧ TrimSuffix s suf = s) := by
  by_cases h : suf <:+ s
  · obtain ⟨x, rfl⟩ := h
    exact Or.inl ⟨x, rfl, TrimSuffix_append x suf⟩
  · exact Or.inr ⟨h, TrimSuffix_of_not s suf h⟩

theorem ContainsByte_eq_false (s : GoString) (c : Byte) :
    ContainsByte s c = false ↔ c ∉ s := by
  unfold ContainsByte
  rw [← IndexByte_eq_none]
  cases IndexByte s c <;> simp

theorem singleton_suffix_iff (s : GoString) (c : Byte) :
    [c] <:+ s ↔ s.getLast? = some c := by
  constructor
  · rintro ⟨x, rfl⟩
    simp
  · intro h
    obtain ⟨x, rfl⟩ : ∃ x, s = x ++ [c] := by
      rcases List.eq_nil_or_concat s with rfl | ⟨x, b, rfl⟩
      · simp at h
      · rw [List.concat_eq_append, List.getLast?_concat] at h
        exact ⟨x, by rw [Option.some.inj h, List.concat_eq_append]⟩
    exact List.suffix_append x [c]

theorem NormalizeBucketName_eq (b : GoString) :
    NormalizeBucketName b =
      if (if str "gs://" <+: b then b.drop 5 else b).getLast? = some 0x2F then
        (if str "gs://" <+: b then b.drop 5 else b).dropLast
      else (if str "gs://" <+: b then b.drop 5 else b) := by
  have h1 : TrimPrefix b (str "gs://") = if str "gs://" <+: b then b.drop 5 else b := by
    unfold TrimPrefix
    by_cases h : str "gs://" <+: b
    · rw [if_pos h, if_pos ((HasPrefix_iff _ _).mpr h)]
      rfl
    · rw [if_neg h, if_neg (fun hh => h ((HasPrefix_iff _ _).mp hh))]
  unfold NormalizeBucketName
  simp only []
  rw [h1]
  generalize (if str "gs://" <+: b then b.drop 5 else b) = b1
  have hs : str "/" = [0x2F] := rfl
  rw [hs]
  by_cases h : b1.getLast? = some 0x2F
  · rw [if_pos h]
    obtain ⟨x, rfl⟩ := (singleton_suffix_iff b1 0x2F).mpr h
    rw [TrimSuffix_append, List.dropLast_concat]
  · rw [if_neg h, TrimSuffix_of_not _ _ (fun hh => h ((singleton_suffix_iff b1 0x2F).mp hh))]

/-- C21: the storage operations address one object. For every bucket reference `b`, project
`p` and environment `e`, `Download`, `Upload`, `Exists` and `Delete` work on the object
`p/e.env` of the bucket that is `b` without a leading `gs://` and then without one trailing
slash; `gs://my-bucket/`, `gs://my-bucket` and `my-bucket` all give the bucket
`my-bucket`. -/
theorem storage_object (b p e : GoString) :
    let b1 := if str "gs://" <+: b then b.drop 5 else b
    let bucket := if b1.getLast? = some 0x2F then b1.dropLast else b1
    DownloadObject b p e = ⟨bucket, p ++ str "/" ++ e ++ str ".env"⟩ ∧
    UploadObject b p e = ⟨bucket, p ++ str "/" ++ e ++ str ".env"⟩ ∧
    ExistsObject b p e = ⟨bucket, p ++ str "/" ++ e ++ str ".env"⟩ ∧
    DeleteObject b p e = ⟨bucket, p ++ str "/" ++ e ++ str ".env"⟩ ∧
    DownloadObject (str "gs://my-bucket/") p e = ⟨str "my-bucket", ObjectPath p e⟩ ∧
    DownloadObject (str "gs://my-bucket") p e = ⟨str "my-bucket", ObjectPath p e⟩ ∧
    DownloadObject (str "my-bucket") p e = ⟨str "my-bucket", ObjectPath p e⟩ := by
  intro b1 bucket
  have hb : NormalizeBucketName b = bucket := NormalizeBucketName_eq b
  have h1 : NormalizeBucketName (str "gs://my-bucket/") = str "my-bucket" := by decide
  have h2 : NormalizeBucketName (str "gs://my-bucket") = str "my-bucket" := by decide
  have h3 : NormalizeBucketName (str "my-bucket") = str "my-bucket" := by decide
  refine ⟨?_, ?_, ?_, ?_, ?_, ?_, ?_⟩ <;>
    simp only [DownloadObject, UploadObject, ExistsObject, DeleteObject, hb, h1, h2, h3,
      ObjectPath]

/-! ### Listing -/

theorem listEnvName_eq_some (pre rest e : GoString) :
    listEnvName pre (pre ++ rest) = some e ↔
      rest = e ++ str ".env" ∧ e ≠ [] ∧ (0x2F : Byte) ∉ e := by
  unfold listEnvName
  simp only [TrimPrefix_append]
  rcases TrimSuffix_cases rest (str ".env") with ⟨x, rfl, hx⟩ | ⟨hn, _⟩
  · rw [if_pos ((HasSuffix_iff _ _).mpr (List.suffix_append x _)), hx]
    simp only [ContainsByte_eq_false]
    constructor
    · intro h
      split at h
      · rename_i hc
        rw [← Option.some.inj h]
        exact ⟨rfl, hc.1, hc.2⟩
      · exact absurd h (by simp)
    · rintro ⟨h1, h2, h3⟩
      have := List.append_cancel_right h1
      subst this
      rw [if_pos ⟨h2, h3⟩]
  · rw [if_neg (fun hh => hn ((HasSuffix_iff _ _).mp hh))]
    constructor
    · intro h
      exact absurd h (by simp)
    · rintro ⟨h1, _, _⟩
      exact absurd (h1 ▸ List.suffix_append e _) hn

/-- C25: listing and addressing agree. For every project `p` and object key `p/rest`, the
loop of `List` yields the name `e` for the key exactly when `rest` is `e.env` with `e`
non-empty and without `/`; so a key with a `/` behind the prefix yields nothing, the key
`ObjectPath p e` of a non-empty `e` without `/` is listed as `e`, and when all keys the
query returns lie under `p/`, the names `List` returns are those `e`, non-empty and without
`/`, whose key `ObjectPath p e` is among them. -/
theorem List_names (p : GoString) :
    (∀ rest e, listEnvName (p ++ str "/") (p ++ str "/" ++ rest) = some e ↔
      rest = e ++ str ".env" ∧ e ≠ [] ∧ (0x2F : Byte) ∉ e) ∧
    (∀ rest, (0x2F : Byte) ∈ rest →
      listEnvName (p ++ str "/") (p ++ str "/" ++ rest) = none) ∧
    (∀ e, e ≠ [] → (0x2F : Byte) ∉ e →
      listEnvName (p ++ str "/") (ObjectPath p e) = some e ∧
      ListEnvs p [ObjectPath p e] = [e]) ∧
    (∀ objects : List GoString, (∀ n ∈ objects, p ++ str "/" <+: n) →
      ∀ e, e ∈ ListEnvs p objects ↔
        e ≠ [] ∧ (0x2F : Byte) ∉ e ∧ ObjectPath p e ∈ objects) := by
  have hobj : ∀ e, ObjectPath p e = p ++ str "/" ++ (e ++ str ".env") := by
    intro e
    unfold ObjectPath
    simp only [List.append_assoc]
  refine ⟨fun rest e => listEnvName_eq_some _ rest e, ?_, ?_, ?_⟩
  · intro rest hr
    cases h : listEnvName (p ++ str "/") (p ++ str "/" ++ rest) with
    | none => rfl
    | some e =>
      obtain ⟨rfl, _, h3⟩ := (listEnvName_eq_some _ rest e).mp h
      rw [List.mem_append] at hr
      rcases hr with hr | hr
      · exact absurd hr h3
      · have hd : (0x2F : Byte) ∉ str ".env" := by decide
        exact absurd hr hd
  · intro e h1 h2
    have h := (listEnvName_eq_some (p ++ str "/") (e ++ str ".env") e).mpr ⟨rfl, h1, h2⟩
    rw [← hobj] at h
    refine ⟨h, ?_⟩
    unfold ListEnvs
    simp only [List.filterMap_cons, h, List.filterMap_nil]
  · intro objects hpre e
    unfold ListEnvs
    simp only [List.mem_filterMap]
    constructor
    · rintro ⟨n, hn, h⟩
      obtain ⟨rest, rfl⟩ := hpre n hn
      obtain ⟨rfl, h2, h3⟩ := (listEnvName_eq_some _ rest e).mp h
      rw [hobj]
      exact ⟨h2, h3, hn⟩
    · rintro ⟨h1, h2, h3⟩
      refine ⟨_, h3, ?_⟩
      rw [hobj]
      exact (listEnvName_eq_some _ _ e).mpr ⟨rfl, h1, h2⟩

theorem List_names_witness :
    listEnvName (str "proj" ++ str "/") (ObjectPath (str "proj") (str "dev")) =
      some (str "dev") ∧
    ListEnvs (str "proj") [ObjectPath (str "proj") (str "dev")] = [str "dev"] ∧
    listEnvName (str "proj" ++ str "/") (str "proj" ++ str "/" ++ str "sub/dev.env") = none :=
  ⟨((List_names (str "proj")).2.2.1 (str "dev") (by decide) (by decide)).1,
    ((List_names (str "proj")).2.2.1 (str "dev") (by decide) (by decide)).2,
    (List_names (str "proj")).2.1 (str "sub/dev.env") (by decide)⟩

/-! ### Project name of a remote URL -/

theorem span_split (p : Byte → Bool) (l : GoString) :
    (l.dropWhile p = [] ∧ l.takeWhile p = l ∧ ∀ x ∈ l, p x = true) ∨
      ∃ a t, l.dropWhile p = a :: t ∧ p a = false ∧ l = l.takeWhile p ++ a :: t ∧
        ∀ x ∈ l.takeWhile p, p x = true := by
  induction l with
  | nil => exact Or.inl ⟨rfl, rfl, by simp⟩
  | cons b u ih =>
    by_cases hb : p b = true
    · rw [List.dropWhile_cons_of_pos hb, List.takeWhile_cons_of_pos hb]
      rcases ih with ⟨h1, h2, h3⟩ | ⟨a, t, h1, h2, h3, h4⟩
      · refine Or.inl ⟨h1, by rw [h2], ?_⟩
        intro x hx
        rcases List.mem_cons.mp hx with rfl | hx
        · exact hb
        · exact h3 x hx
      · refine Or.inr ⟨a, t, h1, h2, by rw [List.cons_append, ← h3], ?_⟩
        intro x hx
        rcases List.mem_cons.mp hx with rfl | hx
        · exact hb
        · exact h4 x hx
    · rw [List.dropWhile_cons_of_neg hb, List.takeWhile_cons_of_neg hb]
      exact Or.inr ⟨b, u, rfl, by simpa using hb, rfl, by simp⟩

theorem span_append (p : Byte → Bool) (x : GoString) (a : Byte) (t : GoString)
    (hx : ∀ b ∈ x, p b = true) (ha : p a = false) :
    (x ++ a :: t).takeWhile p = x ∧ (x ++ a :: t).dropWhile p = a :: t := by
  induction x with
  | nil =>
    have ha' : ¬ p a = true := by simp [ha]
    exact ⟨List.takeWhile_cons_of_neg ha', List.dropWhile_cons_of_neg ha'⟩
  | cons b u ih =>
    have hb := hx b (by simp)
    have := ih (fun c hc => hx c (by simp [hc]))
    rw [List.cons_append, List.takeWhile_cons_of_pos hb, List.dropWhile_cons_of_pos hb,
      this.1, this.2]
    exact ⟨rfl, rfl⟩

/-- A match of `matchRemote` decomposes the text. -/
theorem matchRemote_sound (lead : GoString) (sep : Byte) (url o n : GoString)
    (h : matchRemote lead sep url = some (o, n)) :
    ∃ host, url = lead ++ host ++ sep :: (o ++ 0x2F :: n) ∧ host ≠ [] ∧ sep ∉ host ∧
      o ≠ [] ∧ (0x0A : Byte) ∉ o ∧ n ≠ [] ∧ (0x2F : Byte) ∉ n := by
  unfold matchRemote at h
  by_cases hp : HasPrefix url lead = true
  · rw [if_pos hp] at h
    obtain ⟨rest, rfl⟩ := (HasPrefix_iff _ _).mp hp
    simp only [List.drop_left] at h
    rcases span_split (fun b => decide (b ≠ sep)) rest with ⟨h1, _, _⟩ | ⟨a, path, h1, h2, h3, h4⟩
    · rw [h1] at h
      exact absurd h (by simp)
    · rw [h1] at h
      simp only [] at h
      have ha : a = sep := by simpa using h2
      subst ha
      rcases span_split (fun b => decide (b ≠ 0x2F)) path.reverse with
        ⟨g1, _, _⟩ | ⟨c, rev, g1, g2, g3, g4⟩
      · rw [g1] at h
        exact absurd h (by simp)
      · rw [g1] at h
        simp only [] at h
        have hc : c = 0x2F := by simpa using g2
        subst hc
        generalize path.reverse.takeWhile (fun b => decide (b ≠ 0x2F)) = T at g3 g4 h
        split at h
        · rename_i hc
          obtain ⟨c1, c2, c3, c4⟩ := hc
          simp only [Option.some.injEq, Prod.mk.injEq] at h
          obtain ⟨rfl, rfl⟩ := h
          refine ⟨rest.takeWhile (fun b => decide (b ≠ a)), ?_, c1, ?_, c2, c3, c4, ?_⟩
          · have hpath : path = rev.reverse ++ 0x2F :: T.reverse := by
              have := congrArg List.reverse g3
              simpa using this
            rw [← hpath, List.append_assoc, ← h3]
          · intro hm
            simpa using h4 _ hm
          · intro hm
            rw [List.mem_reverse] at hm
            simpa using g4 _ hm
        · exact absurd h (by simp)
  · rw [if_neg hp] at h
    exact absurd h (by simp)

/-- Every text of the shape the pattern describes is matched. -/
theorem matchRemote_complete (lead : GoString) (sep : Byte) (host o n : GoString)
    (hh : host ≠ []) (hs : sep ∉ host) (ho : o ≠ []) (hnl : (0x0A : Byte) ∉ o) (hn : n ≠ [])
    (hsl : (0x2F : Byte) ∉ n) :
    matchRemote lead sep (lead ++ host ++ sep :: (o ++ 0x2F :: n)) = some (o, n) := by
  unfold matchRemote
  rw [List.append_assoc, if_pos ((HasPrefix_iff _ _).mpr (List.prefix_append lead _))]
  simp only [List.drop_left]
  obtain ⟨h1, h2⟩ := span_append (fun b => decide (b ≠ sep)) host sep (o ++ 0x2F :: n)
    (fun b hb => by
      have : b ≠ sep := fun hh => hs (hh ▸ hb)
      simpa using this) (by simp)
  rw [h1, h2]
  simp only []
  have hr : (o ++ 0x2F :: n).reverse = n.reverse ++ 0x2F :: o.reverse := by simp
  obtain ⟨g1, g2⟩ := span_append (fun b => decide (b ≠ 0x2F)) n.reverse 0x2F o.reverse
    (fun b hb => by
      have : b ≠ 0x2F := fun hh => hsl (hh ▸ List.mem_reverse.mp hb)
      simpa using this) (by simp)
  rw [hr, g1, g2]
  simp only [List.reverse_reverse]
  rw [if_pos ⟨hh, ho, hnl, hn⟩]

theorem split_first_unique (a : Byte) (x y s t : GoString) (hx : a ∉ x) (hy : a ∉ y)
    (h : x ++ a :: s = y ++ a :: t) : x = y ∧ s = t := by
  have h1 := span_append (fun b => decide (b ≠ a)) x a s
    (fun b hb => by
      have : b ≠ a := fun hh => hx (hh ▸ hb)
      simpa using this) (by simp)
  have h2 := span_append (fun b => decide (b ≠ a)) y a t
    (fun b hb => by
      have : b ≠ a := fun hh => hy (hh ▸ hb)
      simpa using this) (by simp)
  rw [h] at h1
  have hxy : x = y := h1.1.symm.trans h2.1
  subst hxy
  exact ⟨rfl, List.cons_injective (List.append_cancel_left h)⟩

/-- A text without a slash behind the host is not matched. -/
theorem matchRemote_no_slash (lead : GoString) (sep : Byte) (host path : GoString)
    (hs : sep ∉ host) (hp : (0x2F : Byte) ∉ path) :
    matchRemote lead sep (lead ++ host ++ sep :: path) = none := by
  cases h : matchRemote lead sep (lead ++ host ++ sep :: path) with
  | none => rfl
  | some m =>
    obtain ⟨o, n⟩ := m
    obtain ⟨host', h1, _, h3, _⟩ := matchRemote_sound _ _ _ _ _ h
    rw [List.append_assoc, List.append_assoc, List.append_cancel_left_eq] at h1
    have := (split_first_unique sep host host' _ _ hs h3 h1).2
    exact absurd (this ▸ (by simp : (0x2F : Byte) ∈ o ++ 0x2F :: n)) hp

theorem matchRemote_lead (lead : GoString) (sep : Byte) (url : GoString)
    (m : GoString × GoString) (h : matchRemote lead sep url = some m) : lead <+: url := by
  obtain ⟨host, h1, _⟩ := matchRemote_sound lead sep url m.1 m.2 h
  rw [h1, List.append_assoc]
  exact List.prefix_append _ _

theorem remoteForms_exclusive :
    ∀ f ∈ remoteForms, ∀ g ∈ remoteForms, f.1 <+: g.1 → f = g := by
  decide

theorem remoteForms_unique (f g : GoString × Byte) (hf : f ∈ remoteForms)
    (hg : g ∈ remoteForms) (url : GoString) (h1 : f.1 <+: url) (h2 : g.1 <+: url) : f = g := by
  rcases List.prefix_or_prefix_of_prefix h1 h2 with h | h
  · exact remoteForms_exclusive f hf g hg h
  · exact (remoteForms_exclusive g hg f hf h).symm

/-- The two outcomes of `ParseProjectFromURL`: the name some expression captures in the
text without its `.git`, or the error when none matches. -/
theorem ParseProjectFromURL_cases (url : GoString) :
    (∃ f ∈ remoteForms, ∃ o n, matchRemote f.1 f.2 (TrimSuffix url (str ".git")) = some (o, n) ∧
      ParseProjectFromURL url = .ok n) ∨
    ((∀ f ∈ remoteForms, matchRemote f.1 f.2 (TrimSuffix url (str ".git")) = none) ∧
      ParseProjectFromURL url =
        .error (str "unable to parse project name from URL: " ++
          TrimSuffix url (str ".git"))) := by
  unfold ParseProjectFromURL sshPattern sshURLPattern httpsPattern
  simp only []
  generalize TrimSuffix url (str ".git") = u
  cases h1 : matchRemote (str "git@") 0x3A u with
  | some m => exact Or.inl ⟨(str "git@", 0x3A), by decide, m.1, m.2, h1, rfl⟩
  | none =>
    cases h2 : matchRemote (str "ssh://") 0x2F u with
    | some m => exact Or.inl ⟨(str "ssh://", 0x2F), by decide, m.1, m.2, h2, rfl⟩
    | none =>
      cases h3 : matchRemote (str "https://") 0x2F u with
      | some m => exact Or.inl ⟨(str "https://", 0x2F), by decide, m.1, m.2, h3, rfl⟩
      | none =>
        cases h4 : matchRemote (str "http://") 0x2F u with
        | some m => exact Or.inl ⟨(str "http://", 0x2F), by decide, m.1, m.2, h4, rfl⟩
        | none =>
          refine Or.inr ⟨?_, rfl⟩
          intro f hf
          simp only [remoteForms, List.mem_cons, List.mem_singleton, List.not_mem_nil,
            or_false] at hf
          rcases hf with rfl | rfl | rfl | rfl
          · exact h1
          · exact h2
          · exact h4
          · exact h3

theorem TrimSuffix_append_sep (pre : GoString) (c : Byte) (seg suf : GoString)
    (hc : c ∉ suf) : TrimSuffix (pre ++ c :: seg) suf = pre ++ c :: TrimSuffix seg suf := by
  by_cases h : suf <:+ seg
  · obtain ⟨x, rfl⟩ := h
    rw [TrimSuffix_append, ← List.cons_append, ← List.append_assoc, TrimSuffix_append]
  · rw [TrimSuffix_of_not _ _ h, TrimSuffix_of_not]
    intro hh
    rcases List.suffix_or_suffix_of_suffix hh (List.suffix_append pre (c :: seg)) with h1 | h1
    · rcases List.suffix_cons_iff.mp h1 with h2 | h2
      · exact hc (h2 ▸ List.mem_cons_self c seg)
      · exact h h2
    · exact hc (h1.subset (List.mem_cons_self c seg))

theorem TrimSuffix_initial (s suf : GoString) : TrimSuffix s suf <+: s := by
  rcases TrimSuffix_cases s suf with ⟨x, rfl, h⟩ | ⟨_, h⟩
  · rw [h]
    exact List.prefix_append x suf
  · rw [h]

theorem remoteForms_sep (f : GoString × Byte) (hf : f ∈ remoteForms) :
    f.2 ∉ str ".git" ∧ f.2 ≠ 0x0A := by
  revert f
  decide

theorem ParseProjectFromURL_of_match (url : GoString) (f : GoString × Byte)
    (hf : f ∈ remoteForms) (o n : GoString)
    (h : matchRemote f.1 f.2 (TrimSuffix url (str ".git")) = some (o, n)) :
    ParseProjectFromURL url = .ok n := by
  rcases ParseProjectFromURL_cases url with ⟨g, hg, o', n', h1, h2⟩ | ⟨h1, _⟩
  · have hfg := remoteForms_unique f g hf hg _ (matchRemote_lead _ _ _ _ h)
      (matchRemote_lead _ _ _ _ h1)
    subst hfg
    rw [h] at h1
    simp only [Option.some.injEq, Prod.mk.injEq] at h1
    rw [h2, h1.2]
  · rw [h1 f hf] at h
    exact absurd h (by simp)

theorem ParseProjectFromURL_of_no_match (url : GoString)
    (h : ∀ f ∈ remoteForms, matchRemote f.1 f.2 (TrimSuffix url (str ".git")) = none) :
    ParseProjectFromURL url =
      .error (str "unable to parse project name from URL: " ++ TrimSuffix url (str ".git")) := by
  rcases ParseProjectFromURL_cases url with ⟨g, hg, o', n', h1, _⟩ | ⟨_, h2⟩
  · rw [h g hg] at h1
    exact absurd h1 (by simp)
  · exact h2

set_option maxRecDepth 100000 in
/-- C22 (as stated) fails: a URL of an accepted form is rejected when its last segment is
`.git` alone, since the suffix is cut before the match and leaves no name, when the owner
contains a newline, which `.` does not match, or when the host starts with the byte that
ends it. -/
theorem ParseProjectFromURL_counterexample :
    (¬ ∀ host owner name : GoString, host ≠ [] → owner ≠ [] → name ≠ [] →
      (0x2F : Byte) ∉ name →
      ParseProjectFromURL (str "https://" ++ host ++ str "/" ++ owner ++ str "/" ++ name) =
        .ok (TrimSuffix name (str ".git"))) ∧
    ParseProjectFromURL (str "https://github.com/owner/.git") =
      .error (str "unable to parse project name from URL: https://github.com/owner/") ∧
    ParseProjectFromURL (str "https://github.com/ow\nner/repo") =
      .error (str "unable to parse project name from URL: https://github.com/ow\nner/repo") ∧
    ParseProjectFromURL (str "git@:x:owner/repo.git") =
      .error (str "unable to parse project name from URL: git@:x:owner/repo") := by
  refine ⟨fun h => ?_, by decide, by decide, by decide⟩
  have h1 := h (str "github.com") (str "owner") (str ".git") (by decide) (by decide)
    (by decide) (by decide)
  revert h1
  decide

/-- C22 (amended): the accepted forms are parsed. Let the URL be `git@host:owner/seg`,
`ssh://host/owner/seg`, `http://host/owner/seg` or `https://host/owner/seg`, where the
host is non-empty and free of the byte that ends it (`:` in the first form, `/` in the
others), the owner is non-empty and has no newline, and the last segment `seg` (the name,
with or without `.git`) is non-empty, has no `/` and is not `.git` alone. Then
`ParseProjectFromURL` succeeds and returns `seg` with one trailing `.git` removed. -/
theorem ParseProjectFromURL_accepts (f : GoString × Byte) (hf : f ∈ remoteForms)
    (host owner seg : GoString) (hh : host ≠ []) (hs : f.2 ∉ host) (ho : owner ≠ [])
    (hnl : (0x0A : Byte) ∉ owner) (hseg : seg ≠ []) (hsl : (0x2F : Byte) ∉ seg)
    (hgit : seg ≠ str ".git") :
    ParseProjectFromURL (f.1 ++ host ++ [f.2] ++ owner ++ str "/" ++ seg) =
      .ok (TrimSuffix seg (str ".git")) := by
  have hurl : f.1 ++ host ++ [f.2] ++ owner ++ str "/" ++ seg =
      (f.1 ++ host ++ f.2 :: owner) ++ 0x2F :: seg := by
    simp only [List.append_assoc, List.singleton_append]
    rfl
  have hu : TrimSuffix (f.1 ++ host ++ [f.2] ++ owner ++ str "/" ++ seg) (str ".git") =
      f.1 ++ host ++ f.2 :: (owner ++ 0x2F :: TrimSuffix seg (str ".git")) := by
    rw [hurl, TrimSuffix_append_sep _ _ _ _ (by decide)]
    simp only [List.append_assoc, List.cons_append]
  apply ParseProjectFromURL_of_match _ f hf owner
  rw [hu]
  apply matchRemote_complete _ _ _ _ _ hh hs ho hnl
  · rcases TrimSuffix_cases seg (str ".git") with ⟨x, rfl, h⟩ | ⟨_, h⟩
    · rw [h]
      rintro rfl
      exact hgit rfl
    · rw [h]
      exact hseg
  · exact fun hm => hsl ((TrimSuffix_initial seg _).subset hm)

set_option maxRecDepth 100000 in
theorem ParseProjectFromURL_accepts_witness :
    ParseProjectFromURL (str "git@" ++ str "github.com" ++ [0x3A] ++ str "owner" ++ str "/" ++
      str "repo.git") = .ok (TrimSuffix (str "repo.git") (str ".git")) ∧
    ParseProjectFromURL (str "git@github.com:owner/repo.git") = .ok (str "repo") ∧
    ParseProjectFromURL (str "https://github.com/owner/repo") = .ok (str "repo") :=
  ⟨ParseProjectFromURL_accepts (str "git@", 0x3A) (by decide) (str "github.com") (str "owner")
      (str "repo.git") (by decide) (by decide) (by decide) (by decide) (by decide) (by decide)
      (by decide),
    by decide, by decide⟩

set_option maxRecDepth 100000 in
/-- C23: other URLs are rejected. When `ParseProjectFromURL` returns a name, the URL is
`git@host:owner/name`, `ssh://host/owner/name`, `http://host/owner/name` or
`https://host/owner/name`, possibly followed by `.git`, with host, owner and name non-empty
and no `/` in the name. So it returns an error for every string that does not begin with
`git@`, `ssh://`, `http://` or `https://`, for every URL with no `/` behind the byte that
ends the host, and for every URL that ends in `/`; `https://github.com/repo` and
`git@github.com:repo.git` are rejected. -/
theorem ParseProjectFromURL_rejects :
    (∀ url name, ParseProjectFromURL url = .ok name →
      ∃ f ∈ remoteForms, ∃ host owner suffix,
        url = f.1 ++ host ++ [f.2] ++ owner ++ str "/" ++ name ++ suffix ∧
        (suffix = [] ∨ suffix = str ".git") ∧
        host ≠ [] ∧ f.2 ∉ host ∧ owner ≠ [] ∧ name ≠ [] ∧ (0x2F : Byte) ∉ name) ∧
    (∀ url, (∀ f ∈ remoteForms, ¬ f.1 <+: url) → ∃ msg, ParseProjectFromURL url = .error msg) ∧
    (∀ f ∈ remoteForms, ∀ host path, f.2 ∉ host → (0x2F : Byte) ∉ path →
      ∃ msg, ParseProjectFromURL (f.1 ++ host ++ [f.2] ++ path) = .error msg) ∧
    (∀ url, url.getLast? = some 0x2F → ∃ msg, ParseProjectFromURL url = .error msg) ∧
    ParseProjectFromURL (str "https://github.com/repo") =
      .error (str "unable to parse project name from URL: https://github.com/repo") ∧
    ParseProjectFromURL (str "git@github.com:repo.git") =
      .error (str "unable to parse project name from URL: git@github.com:repo") ∧
    ParseProjectFromURL (str "https://github.com/owner/repo/") =
      .error (str "unable to parse project name from URL: https://github.com/owner/repo/") := by
  have hsound : ∀ url name, ParseProjectFromURL url = .ok name →
      ∃ f ∈ remoteForms, ∃ host owner suffix,
        url = f.1 ++ host ++ [f.2] ++ owner ++ str "/" ++ name ++ suffix ∧
        (suffix = [] ∨ suffix = str ".git") ∧
        host ≠ [] ∧ f.2 ∉ host ∧ owner ≠ [] ∧ name ≠ [] ∧ (0x2F : Byte) ∉ name := by
    intro url name h
    rcases ParseProjectFromURL_cases url with ⟨f, hf, o, n, h1, h2⟩ | ⟨_, h2⟩
    · rw [h2] at h
      have hn : n = name := Except.ok.inj h
      subst hn
      obtain ⟨host, e, c1, c2, c3, _, c5, c6⟩ := matchRemote_sound _ _ _ _ _ h1
      have e' : TrimSuffix url (str ".git") = f.1 ++ host ++ [f.2] ++ o ++ str "/" ++ n := by
        rw [e]
        simp only [List.append_assoc, List.singleton_append]
        rfl
      rcases TrimSuffix_cases url (str ".git") with ⟨x, hx, ht⟩ | ⟨_, ht⟩
      · refine ⟨f, hf, host, o, str ".git", ?_, Or.inr rfl, c1, c2, c3, c5, c6⟩
        rw [hx, ← e', ht]
      · refine ⟨f, hf, host, o, [], ?_, Or.inl rfl, c1, c2, c3, c5, c6⟩
        rw [List.append_nil, ← e', ht]
    · rw [h2] at h
      exact Except.noConfusion h
  have herr : ∀ url, (∀ name, ParseProjectFromURL url ≠ .ok name) →
      ∃ msg, ParseProjectFromURL url = .error msg := by
    intro url h
    cases hp : ParseProjectFromURL url with
    | error msg => exact ⟨msg, rfl⟩
    | ok name => exact absurd hp (h name)
  refine ⟨hsound, ?_, ?_, ?_, by decide, by decide, by decide⟩
  · intro url hno
    apply herr
    intro name h
    obtain ⟨f, hf, host, owner, suffix, e, _⟩ := hsound url name h
    apply hno f hf
    rw [e]
    simp only [List.append_assoc]
    exact List.prefix_append _ _
  · intro f hf host path hs hp
    apply herr
    intro name h
    obtain ⟨g, hg, host', owner, suffix, e, _, _, c2, _⟩ := hsound _ name h
    have hfg : f = g := by
      apply remoteForms_unique f g hf hg (f.1 ++ host ++ [f.2] ++ path)
      · simp only [List.append_assoc]
        exact List.prefix_append _ _
      · rw [e]
        simp only [List.append_assoc]
        exact List.prefix_append _ _
    subst hfg
    simp only [List.append_assoc, List.append_cancel_left_eq, List.singleton_append] at e
    have := (split_first_unique f.2 host host' _ _ hs c2 e).2
    apply hp
    rw [this]
    have h2F : str "/" = [0x2F] := rfl
    rw [h2F]
    simp
  · intro url hl
    apply herr
    intro name h
    obtain ⟨f, hf, host, owner, suffix, e, hsuf, _, _, _, c5, c6⟩ := hsound url name h
    rw [e] at hl
    rcases hsuf with rfl | rfl
    · rw [List.append_nil, List.getLast?_append_of_ne_nil _ c5] at hl
      exact c6 (List.mem_of_mem_getLast? hl)
    · rw [List.getLast?_append_of_ne_nil _ (by decide)] at hl
      revert hl
      decide

/-! ### Sources of a configuration -/

theorem GetSource_eq_none (c : Config) (name : GoString) :
    c.GetSource name = none ↔ name ∉ c.Sources.map Source.Name := by
  unfold Config.GetSource
  rw [List.find?_eq_none]
  simp only [decide_eq_true_eq, List.mem_map, not_exists, not_and]

theorem HasSource_iff (c : Config) (name : GoString) :
    c.HasSource name = true ↔ name ∈ c.Sources.map Source.Name := by
  unfold Config.HasSource
  rw [← not_iff_not, ← GetSource_eq_none]
  cases c.GetSource name <;> simp

theorem removeLoop_of_not_mem (name : GoString) (l : List Source)
    (h : name ∉ l.map Source.Name) : removeLoop name l = (l, false) := by
  induction l with
  | nil => rfl
  | cons a t ih =>
    simp only [List.map_cons, List.mem_cons, not_or] at h
    unfold removeLoop
    rw [if_neg (fun hh => h.1 hh.symm), ih h.2]

theorem removeLoop_of_mem (name : GoString) (l : List Source)
    (h : name ∈ l.map Source.Name) (hd : (l.map Source.Name).Nodup) :
    removeLoop name l = (l.filter (fun s => decide (s.Name ≠ name)), true) := by
  induction l with
  | nil => simp at h
  | cons a t ih =>
    simp only [List.map_cons, List.nodup_cons] at hd
    unfold removeLoop
    by_cases ha : a.Name = name
    · rw [if_pos ha]
      have hf : t.filter (fun s => decide (s.Name ≠ name)) = t := by
        rw [List.filter_eq_self]
        intro s hs
        have : s.Name ≠ name := by
          intro hh
          exact hd.1 (by rw [ha, ← hh]; exact List.mem_map_of_mem _ hs)
        simpa using this
      rw [List.filter_cons_of_neg (by simpa using ha), hf]
    · rw [if_neg ha]
      have ht : name ∈ t.map Source.Name := by
        simp only [List.map_cons, List.mem_cons] at h
        rcases h with h | h
        · exact absurd h.symm ha
        · exact h
      rw [ih ht hd.2, List.filter_cons_of_pos (by simpa using ha)]

theorem removeLoop_sublist (name : GoString) (l : List Source) :
    (removeLoop name l).1.Sublist l := by
  induction l with
  | nil => exact List.Sublist.refl _
  | cons a t ih =>
    unfold removeLoop
    split
    · exact List.sublist_cons_self a t
    · exact ih.cons₂ a

/-- C24: source names stay unique. Let the names of the sources of `cfg` be pairwise
distinct. `source add` with a name that is present fails with the already-exists error and
saves nothing; with a new name it appends the source, and the names are again pairwise
distinct. The names after `RemoveSource` are pairwise distinct; `RemoveSource name` returns
true exactly when the name is present, and then a lookup of `name` finds nothing while the
other sources are kept in their declared order. -/
theorem sources_unique (cfg : Config) (hd : (cfg.Sources.map Source.Name).Nodup) :
    (∀ name bucket project, cfg.HasSource name = true →
      runSourceAdd cfg name bucket project = .error (.alreadyExists name)) ∧
    (∀ name bucket project, cfg.HasSource name = false →
      runSourceAdd cfg name bucket project =
        .ok (Config.mk (cfg.Sources ++ [Source.mk name bucket project])) ∧
      ((cfg.Sources ++ [Source.mk name bucket project]).map Source.Name).Nodup) ∧
    (∀ name, (((cfg.RemoveSource name).1).Sources.map Source.Name).Nodup) ∧
    (∀ name, (cfg.RemoveSource name).2 = true ↔ cfg.HasSource name = true) ∧
    (∀ name, (cfg.RemoveSource name).2 = true →
      (cfg.RemoveSource name).1.GetSource name = none ∧
      (cfg.RemoveSource name).1.HasSource name = false ∧
      (cfg.RemoveSource name).1.Sources =
        cfg.Sources.filter (fun s => decide (s.Name ≠ name))) := by
  refine ⟨?_, ?_, ?_, ?_, ?_⟩
  · intro name bucket project h
    unfold runSourceAdd
    rw [if_pos h]
  · intro name bucket project h
    constructor
    · unfold runSourceAdd
      rw [h]
      rfl
    · have hn : name ∉ cfg.Sources.map Source.Name := by
        rw [← HasSource_iff, h]
        simp
      rw [List.map_append, List.nodup_append]
      refine ⟨hd, List.nodup_singleton _, ?_⟩
      intro x hx hx'
      simp only [List.map_cons, List.map_nil, List.mem_singleton] at hx'
      exact hn (hx' ▸ hx)
  · intro name
    exact hd.sublist ((removeLoop_sublist name cfg.Sources).map Source.Name)
  · intro name
    rw [HasSource_iff]
    unfold Config.RemoveSource
    by_cases h : name ∈ cfg.Sources.map Source.Name
    · rw [removeLoop_of_mem name _ h hd]
      simp [h]
    · rw [removeLoop_of_not_mem name _ h]
      simp [h]
  · intro name h
    have hm : name ∈ cfg.Sources.map Source.Name := by
      by_contra hn
      unfold Config.RemoveSource at h
      rw [removeLoop_of_not_mem name _ hn] at h
      simp at h
    have hs : (cfg.RemoveSource name).1.Sources =
        cfg.Sources.filter (fun s => decide (s.Name ≠ name)) := by
      unfold Config.RemoveSource
      rw [removeLoop_of_mem name _ hm hd]
    have hg : (cfg.RemoveSource name).1.GetSource name = none := by
      rw [GetSource_eq_none, hs]
      simp only [List.mem_map, List.mem_filter, decide_eq_true_eq, not_exists, not_and]
      intro x hx hne
      exact hx.2 hne
    refine ⟨hg, ?_, hs⟩
    unfold Config.HasSource
    rw [hg]
    rfl

theorem sources_unique_witness :
    (∀ name, ((((⟨[⟨str "a", str "b1", str "p"⟩, ⟨str "b", str "b2", str "p"⟩,
      ⟨str "c", str "b3", str "p"⟩]⟩ : Config).RemoveSource name).1).Sources.map
        Source.Name).Nodup) ∧
    ((⟨[⟨str "a", str "b1", str "p"⟩, ⟨str "b", str "b2", str "p"⟩,
      ⟨str "c", str "b3", str "p"⟩]⟩ : Config).RemoveSource (str "b")).1.Sources =
      [⟨str "a", str "b1", str "p"⟩, ⟨str "c", str "b3", str "p"⟩] ∧
    runSourceAdd ⟨[⟨str "a", str "b1", str "p"⟩, ⟨str "b", str "b2", str "p"⟩,
      ⟨str "c", str "b3", str "p"⟩]⟩ (str "b") (str "other") (str "q") =
      .error (.alreadyExists (str "b")) :=
  ⟨(sources_unique ⟨[⟨str "a", str "b1", str "p"⟩, ⟨str "b", str "b2", str "p"⟩,
      ⟨str "c", str "b3", str "p"⟩]⟩ (by decide)).2.2.1,
    by decide,
    (sources_unique ⟨[⟨str "a", str "b1", str "p"⟩, ⟨str "b", str "b2", str "p"⟩,
      ⟨str "c", str "b3", str "p"⟩]⟩ (by decide)).1 (str "b") (str "other") (str "q")
      (by decide)⟩

/-! ### The restricted round trip -/

theorem IsSpace_graphic (b : Byte) (h1 : 0x21 ≤ b.val) (h2 : b.val ≤ 0x7E) :
    IsSpace b.val = false := by
  simp only [IsSpace, Bool.or_eq_false_iff, Bool.and_eq_false_iff, beq_eq_false_iff_ne,
    decide_eq_false_iff_not]
  omega

theorem TrimSpace_graphic (s : GoString) (h : ∀ b ∈ s, 0x21 ≤ b.val ∧ b.val ≤ 0x7E) :
    TrimSpace s = s := by
  have hb : ∀ b ∈ s, b < 0x80 ∧ IsSpace b.val = false := by
    intro b hb
    refine ⟨?_, IsSpace_graphic b (h b hb).1 (h b hb).2⟩
    have := (h b hb).2
    show b.val < 128
    omega
  rcases List.eq_nil_or_concat s with rfl | ⟨t, c, hs⟩
  · rfl
  · apply TrimSpace_of_trimmed
    · cases s with
      | nil => rfl
      | cons a u => exact trimLeft_eq_self_of_head a u (hb a (by simp)).1 (hb a (by simp)).2
    · rw [List.concat_eq_append] at hs
      subst hs
      exact trimRight_eq_self_of_last t c (hb c (by simp)).1 (hb c (by simp)).2

/-- C26: restricted round trip. Let every key of the snapshot `s` be non-empty and consist
of ASCII letters, digits and `_`; let every value consist of printable ASCII characters
(0x20 to 0x7E) other than `"` and `\`, so that spaces, single quotes, `=`, `#` and blanks
at either end are allowed; let every serialized line `key=value` be shorter than the
65536 bytes the scanner accepts. Then `ParseEnvBytes (FormatEnv s)` has the same keys and
the same values as `s`. -/
theorem FormatEnv_roundtrip_restricted (tbl : Nat → Bool) (s : GoMap GoString)
    (h : ∀ e ∈ s.entries,
      (e.1 ≠ [] ∧ ∀ b ∈ e.1, (0x30 ≤ b.val ∧ b.val ≤ 0x39) ∨ (0x41 ≤ b.val ∧ b.val ≤ 0x5A) ∨
        (0x61 ≤ b.val ∧ b.val ≤ 0x7A) ∨ b.val = 0x5F) ∧
      (∀ b ∈ e.2, 0x20 ≤ b.val ∧ b.val ≤ 0x7E ∧ b.val ≠ 0x22 ∧ b.val ≠ 0x5C) ∧
      (e.1 ++ str "=" ++ formatValue tbl e.2).length < MaxScanTokenSize)
    (k : GoString) : (ParseEnvBytes (FormatEnv tbl s)).get? k = s.get? k := by
  have e3D : ((0x3D : Byte) : ℕ) = 61 := rfl
  have e0A : ((0x0A : Byte) : ℕ) = 10 := rfl
  have e23 : ((0x23 : Byte) : ℕ) = 35 := rfl
  apply ParseEnvBytes_FormatEnv
  · intro x hx
    obtain ⟨e, he, rfl⟩ := List.mem_map.mp hx
    obtain ⟨hne, hb⟩ := (h e he).1
    refine ⟨hne, ?_, ?_, ?_, ?_⟩
    · apply TrimSpace_graphic
      intro b hbx
      rcases hb b hbx with h | h | h | h <;> omega
    · intro hm
      rcases hb _ hm with h | h | h | h <;> omega
    · intro hm
      rcases hb _ hm with h | h | h | h <;> omega
    · intro hh
      have hm : (0x23 : Byte) ∈ e.1 := List.mem_of_mem_head? hh
      rcases hb _ hm with h | h | h | h <;> omega
  · intro x v hv
    obtain ⟨_, hb, hlen⟩ := h (x, v) (lookupEntry_mem x v _ hv)
    refine ⟨fun _ => Quote_plain tbl v hb, ?_, ?_⟩
    · intro hq
      apply TrimSpace_graphic
      intro b hbv
      have h20 : b ≠ 0x20 := by
        intro hh
        have : needsQuoting v = true := (needsQuoting_iff v).mpr ⟨b, hbv, Or.inl hh⟩
        rw [hq] at this
        exact absurd this (by simp)
      have h20' : b.val ≠ 0x20 := fun hh => h20 (Fin.ext hh)
      have := hb b hbv
      omega
    · have hl : (x ++ str "=" ++ formatValue tbl v).length =
          x.length + 1 + (formatValue tbl v).length := by
        simp only [List.length_append]
        rfl
      have hlen' : (x ++ str "=" ++ formatValue tbl v).length < MaxScanTokenSize := hlen
      omega

set_option maxRecDepth 100000 in
theorem FormatEnv_roundtrip_restricted_witness :
    (ParseEnvBytes (FormatEnv (fun _ => true)
      (GoMap.ofList [(str "DB_URL", str " it's = #1 "), (str "A1", str "x=#y")]))).get?
        (str "DB_URL") =
      (GoMap.ofList [(str "DB_URL", str " it's = #1 "), (str "A1", str "x=#y")]).get?
        (str "DB_URL") :=
  FormatEnv_roundtrip_restricted (fun _ => true)
    (GoMap.ofList [(str "DB_URL", str " it's = #1 "), (str "A1", str "x=#y")])
    (by decide) (str "DB_URL")

/-! ### One resolution for all commands -/

theorem runDiffTarget_eq (args : List GoString) (envFlag : Option GoString) (cache : Cache) :
    runDiffTarget args envFlag cache = runPullTarget args envFlag cache := by
  unfold runDiffTarget runPullTarget resolveSource resolveEnv
  cases args with
  | cons a t => rfl
  | nil =>
    by_cases h : cache.LastSource = []
    · simp [h]
    · simp [h]

theorem runShowTarget_eq (args : List GoString) (envFlag : Option GoString) (cache : Cache) :
    runShowTarget args envFlag cache = runPullTarget args envFlag cache := by
  unfold runShowTarget runPullTarget resolveSource resolveEnv
  cases args with
  | cons a t => rfl
  | nil =>
    by_cases h : cache.LastSource = []
    · simp [h]
    · simp [h]

theorem runListSource_eq (args : List GoString) (cache : Cache) :
    runListSource args cache = resolveSource args cache := rfl

theorem runPullTarget_map_fst (args : List GoString) (envFlag : Option GoString)
    (cache : Cache) :
    (runPullTarget args envFlag cache).map Prod.fst = resolveSource args cache := by
  unfold runPullTarget
  cases h : resolveSource args cache with
  | error e => rfl
  | ok s => rfl

theorem runPullTarget_cases (args : List GoString) (envFlag : Option GoString)
    (cache : Cache) :
    runPullTarget args envFlag cache = .error .noSource ∨
      ∃ sourceName envName, runPullTarget args envFlag cache = .ok (sourceName, envName) := by
  unfold runPullTarget
  cases h : resolveSource args cache with
  | error e => cases e; exact Or.inl rfl
  | ok s => exact Or.inr ⟨s, _, rfl⟩

theorem runPullTarget_recorded (c : Option Cache) (s e : GoString) (hs : s ≠ []) (he : e ≠ [])
    (flag : Option GoString) (hflag : envFlagValue flag = str "default") :
    runPullTarget [] flag (UpdateCache c s e) = .ok (s, e) ∧
    runPullTarget [s] flag (UpdateCache c s e) = .ok (s, e) := by
  have hc : UpdateCache c s e = ⟨s, e⟩ := by
    unfold UpdateCache
    simp [hs, he]
  rw [hc]
  unfold runPullTarget
  rw [resolveSource_nil, resolveSource_cons, hflag]
  have h1 : resolveEnv (str "default") ⟨s, e⟩ s = e := by
    rw [resolveEnv_default _ _ rfl]
    exact if_neg he
  simp only [if_neg hs, h1]
  exact ⟨trivial, trivial⟩

/-- C27: the commands resolve their target alike. For every list of positional arguments,
every value of the `--env` flag and every cache, `runPull`, `runPush`, `runDiff` and
`runShow` either all fail with the no-source error or all resolve to the same pair of
source and environment; `runList` resolves the same source, and fails in the same cases. -/
theorem resolution_uniform (args : List GoString) (envFlag : Option GoString)
    (cache : Cache) :
    ((runPullTarget args envFlag cache = .error .noSource ∧
        runPushTarget args envFlag cache = .error .noSource ∧
        runDiffTarget args envFlag cache = .error .noSource ∧
        runShowTarget args envFlag cache = .error .noSource ∧
        runListSource args cache = .error .noSource) ∨
      ∃ sourceName envName,
        runPullTarget args envFlag cache = .ok (sourceName, envName) ∧
        runPushTarget args envFlag cache = .ok (sourceName, envName) ∧
        runDiffTarget args envFlag cache = .ok (sourceName, envName) ∧
        runShowTarget args envFlag cache = .ok (sourceName, envName) ∧
        runListSource args cache = .ok sourceName) := by
  have hl : runListSource args cache = (runPullTarget args envFlag cache).map Prod.fst := by
    rw [runPullTarget_map_fst, runListSource_eq]
  rw [runPushTarget_eq, runDiffTarget_eq, runShowTarget_eq, hl]
  rcases runPullTarget_cases args envFlag cache with h | ⟨s, e, h⟩
  · rw [h]
    exact Or.inl ⟨rfl, rfl, rfl, rfl, rfl⟩
  · rw [h]
    exact Or.inr ⟨s, e, rfl, rfl, rfl, rfl, rfl⟩

/-- C28: the cache is sticky. Let the source `s` and the environment `e` be non-empty and
let `UpdateCache` record them on any prior cache state `c` (a loaded cache, or none). Then
each of `runPull`, `runPush`, `runDiff` and `runShow`, called with no positional source and
the environment flag at its default, resolves to `(s, e)`, and so does each of them called
with `s` as its positional source; recording `(s, e)` a second time changes nothing. -/
theorem UpdateCache_sticky (c : Option Cache) (s e : GoString) (hs : s ≠ []) (he : e ≠ [])
    (flag : Option GoString) (hflag : flag = none ∨ flag = some (str "default")) :
    (∀ run ∈ [runPullTarget, runPushTarget, runDiffTarget, runShowTarget],
      run [] flag (UpdateCache c s e) = .ok (s, e) ∧
      run [s] flag (UpdateCache c s e) = .ok (s, e)) ∧
    runListSource [] (UpdateCache c s e) = .ok s ∧
    UpdateCache (some (UpdateCache c s e)) s e = UpdateCache c s e := by
  have hf : envFlagValue flag = str "default" := by
    rcases hflag with h | h
    · rw [h]; rfl
    · rw [h]; rfl
  have h := runPullTarget_recorded c s e hs he flag hf
  refine ⟨?_, ?_, ?_⟩
  · intro run hrun
    simp only [List.mem_cons, List.mem_singleton, List.not_mem_nil, or_false] at hrun
    rcases hrun with rfl | rfl | rfl | rfl
    · exact h
    · rw [runPushTarget_eq, runPushTarget_eq]; exact h
    · rw [runDiffTarget_eq, runDiffTarget_eq]; exact h
    · rw [runShowTarget_eq, runShowTarget_eq]; exact h
  · rw [runListSource_eq, ← runPullTarget_map_fst [] flag, h.1]
    rfl
  · unfold UpdateCache
    simp [hs, he]

theorem UpdateCache_sticky_witness :
    (∀ run ∈ [runPullTarget, runPushTarget, runDiffTarget, runShowTarget],
      run [] none (UpdateCache (some ⟨str "old", str "dev"⟩) (str "simon") (str "prod")) =
        .ok (str "simon", str "prod") ∧
      run [str "simon"] none
        (UpdateCache (some ⟨str "old", str "dev"⟩) (str "simon") (str "prod")) =
        .ok (str "simon", str "prod")) ∧
    runListSource [] (UpdateCache (some ⟨str "old", str "dev"⟩) (str "simon") (str "prod")) =
      .ok (str "simon") ∧
    UpdateCache (some (UpdateCache (some ⟨str "old", str "dev"⟩) (str "simon") (str "prod")))
      (str "simon") (str "prod") =
      UpdateCache (some ⟨str "old", str "dev"⟩) (str "simon") (str "prod") :=
  UpdateCache_sticky (some ⟨str "old", str "dev"⟩) (str "simon") (str "prod") (by decide)
    (by decide) none (Or.inl rfl)

end Envpull
